import Mathlib

/-!
# Placement engine of `build_segment.cc`

A shallow embedding of the gap ledger (`BinningProblem`), the solver loop
(`Solver::run`) and the per-gap subset-sum search (`KS`) of
`src/build_segment.cc`, followed by the properties proved about them.

Conventions of the embedding:

* C++ `int` is `Int`.  Addresses are confined to `0 .. 0xFFFF` by the
  constructor and routine sizes are bounded by the segment size, so no
  32-bit arithmetic of the program wraps.
* `std::map<int, V>` is a list of key/value pairs in ascending key order;
  `operator[]` assignment is `mapAssign`, `erase` is `mapErase`, reading
  `m[k]` is `mapAt`.
* `std::vector<SourceFile *>` is a list; a `SourceFile *` is the record
  itself, whose field `ptr` stands for the identity of the object.
* `bailOut` ends the program: a function that can reach it returns
  `Except Fault _`.  An access outside the bounds of a vector is undefined
  behaviour in C++; the embedding stops there with `Fault.outOfBounds`.
  For the one such access a run can make, the read of `floatingRoutines[0]`
  in `removeUselessGaps`, the definitions named `...Unchecked` carry the run
  on as the source does, with the value read as the parameter `stale`.
-/

namespace BuildSegment

/-- The fields of `SourceFile` read by the placement engine; `ptr` is the
identity of the object behind a `SourceFile *`. -/
structure SourceFile where
  ptr : Nat
  floating : Bool
  startAddr : Int
  codeLength : Int
deriving DecidableEq, Repr

/-- The ways a call can end the program. -/
inductive Fault where
  | invalidLoHi
  | wontFit
  | alreadyOccupied
  | internalError
  | outOfBounds
  | totalSizeZero
  | tooMuchForSegment
deriving DecidableEq, Repr

/-- The three containers of `class BinningProblem`. -/
structure BinningProblem where
  fixedRoutines : List (Int × SourceFile)
  gaps : List (Int × Int)
  floatingRoutines : List SourceFile
deriving DecidableEq, Repr

/-! ## `std::map` -/

/-- Assignment `m[k] = v`: overwrite the entry of key `k` or insert it at its
place in key order. -/
def mapAssign {V : Type} : List (Int × V) → Int → V → List (Int × V)
  | [], k, v => [(k, v)]
  | e :: t, k, v =>
    if k < e.1 then (k, v) :: e :: t
    else if k = e.1 then (k, v) :: t
    else e :: mapAssign t k v

/-- Removal `m.erase(k)`: drop the elements whose key is `k`. -/
def mapErase {V : Type} (m : List (Int × V)) (k : Int) : List (Int × V) :=
  m.filter (fun e => decide (e.1 ≠ k))

/-- Reading `m[k]` of a `std::map<int, int>`; an absent key reads as `0`. -/
def mapAt (m : List (Int × Int)) (k : Int) : Int :=
  match m.find? (fun e => decide (e.1 = k)) with
  | some e => e.2
  | none => 0

/-! ## `BinningProblem` -/

/-- Constructor `BinningProblem::BinningProblem(loAddress, hiAddress)`. -/
def BinningProblem.create (loAddress hiAddress : Int) : Except Fault BinningProblem :=
  if hiAddress < loAddress ∨ hiAddress < 0 ∨ loAddress < 0 ∨
      hiAddress > 0xFFFF ∨ loAddress > 0xFFFF then
    .error .invalidLoHi
  else
    .ok ⟨[], mapAssign [] loAddress (hiAddress - loAddress + 1), []⟩

/-- Method `BinningProblem::isSolved`. -/
def isSolved (p : BinningProblem) : Bool :=
  p.floatingRoutines.isEmpty

/-- The test of the scan in `addToProblem`: `true` for a gap the loop does
not `continue` past. -/
def suitableGap (startAddr : Int) (gap : Int × Int) : Bool :=
  !(decide (gap.1 > startAddr) || decide (gap.1 + gap.2 - 1 < startAddr))

/-- Method `BinningProblem::addToProblem`.  The result is the ledger as it
stands when the call returns or bails out, with the fault if it bailed out. -/
def addToProblem (p : BinningProblem) (routine : SourceFile) :
    BinningProblem × Option Fault :=
  if routine.floating then
    ({ p with floatingRoutines := p.floatingRoutines ++ [routine] }, none)
  else
    match p.gaps.find? (suitableGap routine.startAddr) with
    | none => (p, some .alreadyOccupied)
    | some gap =>
      if gap.1 + gap.2 < routine.startAddr + routine.codeLength then
        (p, some .wontFit)
      else
        let fixedRoutines := mapAssign p.fixedRoutines routine.startAddr routine
        let newGapSize := (gap.1 + gap.2) - (routine.startAddr + routine.codeLength)
        let newGapStart :=
          if newGapSize ≤ 0 then -1 else routine.startAddr + routine.codeLength
        let gaps1 :=
          if gap.1 = routine.startAddr then mapErase p.gaps gap.1
          else mapAssign p.gaps gap.1 (routine.startAddr - gap.1)
        let gaps2 :=
          if newGapStart > 0 then mapAssign gaps1 newGapStart newGapSize else gaps1
        (⟨fixedRoutines, gaps2, p.floatingRoutines⟩, none)

/-- The loop of `fillGap` over the routines to place: running offset, the
placements and the pool. -/
def fillGapLoop (gapAddress gapLength : Int) :
    List SourceFile → Int → List (Int × SourceFile) → List SourceFile →
      Except Fault (Int × List (Int × SourceFile) × List SourceFile)
  | [], offset, fixedRoutines, floatingRoutines =>
    .ok (offset, fixedRoutines, floatingRoutines)
  | routine :: rest, offset, fixedRoutines, floatingRoutines =>
    let targetAddr := gapAddress + offset
    let fixedRoutines1 := mapAssign fixedRoutines targetAddr routine
    let offset1 := offset + routine.codeLength
    if offset1 > gapLength then .error .internalError
    else
      fillGapLoop gapAddress gapLength rest offset1 fixedRoutines1
        (floatingRoutines.filter (fun r => decide (r ≠ routine)))

/-- Method `BinningProblem::fillGap`. -/
def fillGap (p : BinningProblem) (gapAddress : Int) (routines : List SourceFile) :
    Except Fault BinningProblem :=
  match fillGapLoop gapAddress (mapAt p.gaps gapAddress) routines 0
      p.fixedRoutines p.floatingRoutines with
  | .error e => .error e
  | .ok (_, fixedRoutines, floatingRoutines) =>
    .ok ⟨fixedRoutines, mapErase p.gaps gapAddress, floatingRoutines⟩

/-- The inner `for` of `performObviousSteps`: the number of gaps at least
`routineSize` long and the address of the last of them (`gapAddress` is
uninitialised in the source until a gap matches; it is only read when the
count is `1`). -/
def countMatchingGaps (gaps : List (Int × Int)) (routineSize : Int) : Nat × Int :=
  gaps.foldl
    (fun acc gap => if gap.2 ≥ routineSize then (acc.1 + 1, gap.1) else acc) (0, 0)

/-- The `while` of `performObviousSteps`.  The pool is passed back to front,
so that its head is `floatingRoutines.back()` and its tail is the pool after
`pop_back()`. -/
def performObviousStepsLoop :
    List SourceFile → List (Int × Int) → List (Int × SourceFile) → BinningProblem
  | [], gaps, fixedRoutines => ⟨fixedRoutines, gaps, []⟩
  | back :: rest, gaps, fixedRoutines =>
    if gaps.isEmpty then ⟨fixedRoutines, gaps, (back :: rest).reverse⟩
    else
      let routineSize := back.codeLength
      let found := countMatchingGaps gaps routineSize
      if found.1 = 1 then
        let gapAddress := found.2
        let gaps1 := mapAssign gaps gapAddress (mapAt gaps gapAddress - routineSize)
        let targetAddr := gapAddress + mapAt gaps1 gapAddress
        let fixedRoutines1 := mapAssign fixedRoutines targetAddr back
        let gaps2 :=
          if mapAt gaps1 gapAddress = 0 then mapErase gaps1 gapAddress else gaps1
        performObviousStepsLoop rest gaps2 fixedRoutines1
      else ⟨fixedRoutines, gaps, (back :: rest).reverse⟩

/-- Method `BinningProblem::performObviousSteps`. -/
def performObviousSteps (p : BinningProblem) : BinningProblem :=
  performObviousStepsLoop p.floatingRoutines.reverse p.gaps p.fixedRoutines

/-- The `while (repeat)` of `removeUselessGaps`: each round erases the first
gap shorter than `minUsefulSize` and scans again; `fuel` bounds the rounds. -/
def removeUselessGapsLoop (minUsefulSize : Int) : Nat → List (Int × Int) → List (Int × Int)
  | 0, gaps => gaps
  | fuel + 1, gaps =>
    match gaps.find? (fun gap => decide (gap.2 < minUsefulSize)) with
    | none => gaps
    | some gap => removeUselessGapsLoop minUsefulSize fuel (mapErase gaps gap.1)

/-- Method `BinningProblem::removeUselessGaps` with the read of
`floatingRoutines[0]` bounds-checked.  The source reads the element without a
check; on an empty pool the read is out of bounds, which C++ leaves undefined,
and this definition reports it as `Fault.outOfBounds`.
`removeUselessGapsUnchecked` is the method as it runs when the read goes
through. -/
def removeUselessGaps (p : BinningProblem) : Except Fault BinningProblem :=
  match p.floatingRoutines with
  | [] => .error .outOfBounds
  | first :: _ =>
    .ok { p with gaps := removeUselessGapsLoop first.codeLength p.gaps.length p.gaps }

/-- Method `BinningProblem::sortFloatingRoutinesBySize`.  `std::sort` leaves
the order of routines of equal size unspecified; the embedding keeps their
order. -/
def sortFloatingRoutinesBySize (p : BinningProblem) : BinningProblem :=
  { p with floatingRoutines :=
      p.floatingRoutines.insertionSort (fun a b => a.codeLength ≤ b.codeLength) }

/-! ## `Solver` -/

/-- Method `Solver::selectGapToFill`. -/
def selectGapToFill (p : BinningProblem) : Int :=
  (p.gaps.foldl
    (fun (acc : Int × Int) gap =>
      if acc.2 < 0 ∨ gap.2 < acc.2 then (gap.1, gap.2) else acc) (-1, -1)).1

/-- Read of `cache[i][j]`. -/
def cacheRead {α : Type} (cache : List (List α)) (i : Nat) (j : Int) : Except Fault α :=
  if j < 0 then .error .outOfBounds
  else
    match cache[i]? with
    | none => .error .outOfBounds
    | some row =>
      match row[j.toNat]? with
      | none => .error .outOfBounds
      | some v => .ok v

/-- Write of `cache[i][j]` through a reference obtained by a read that was in
bounds. -/
def cacheWrite {α : Type} (cache : List (List α)) (i : Nat) (j : Int) (v : α) :
    List (List α) :=
  match cache[i]? with
  | none => cache
  | some row => cache.set i (row.set j.toNat v)

/-- The call `solution.resize(n, false)`. -/
def resize (solution : List Bool) (n : Nat) : List Bool :=
  solution.take n ++ List.replicate (n - solution.length) false

/-- Function `KS`: the value, the decision list and the two caches after the
call. -/
def KS (routines : List SourceFile) :
    Nat → Int → List Bool → List (List Int) → List (List (List Bool)) →
      Except Fault (Int × List Bool × List (List Int) × List (List (List Bool)))
  | 0, _, solution, cacheV, cacheS => .ok (0, solution, cacheV, cacheS)
  | n + 1, C, solution, cacheV, cacheS =>
    if C = 0 then .ok (0, resize solution (n + 1), cacheV, cacheS)
    else
      match cacheRead cacheV n (C - 1), cacheRead cacheS n (C - 1) with
      | .error e, _ => .error e
      | _, .error e => .error e
      | .ok cachedV, .ok cachedS =>
        if cachedV ≥ 0 then .ok (cachedV, cachedS, cacheV, cacheS)
        else
          match routines[n]? with
          | none => .error .outOfBounds
          | some routine =>
            let codeSize := routine.codeLength
            if codeSize > C then
              match KS routines n C solution cacheV cacheS with
              | .error e => .error e
              | .ok (v, solution0, cacheV0, cacheS0) =>
                let solution' := solution0 ++ [false]
                .ok (v, solution', cacheWrite cacheV0 n (C - 1) v,
                  cacheWrite cacheS0 n (C - 1) solution')
            else
              match KS routines n (C - codeSize) [] cacheV cacheS with
              | .error e => .error e
              | .ok (v1, solution1, cacheV1, cacheS1) =>
                let val1 := v1 + codeSize
                if val1 = C then
                  let solution' := solution1 ++ [true]
                  .ok (val1, solution', cacheWrite cacheV1 n (C - 1) val1,
                    cacheWrite cacheS1 n (C - 1) solution')
                else
                  match KS routines n C [] cacheV1 cacheS1 with
                  | .error e => .error e
                  | .ok (val2, solution2, cacheV2, cacheS2) =>
                    if val1 ≥ val2 then
                      let solution' := solution1 ++ [true]
                      .ok (val1, solution', cacheWrite cacheV2 n (C - 1) val1,
                        cacheWrite cacheS2 n (C - 1) solution')
                    else
                      let solution' := solution2 ++ [false]
                      .ok (val2, solution', cacheWrite cacheV2 n (C - 1) val2,
                        cacheWrite cacheS2 n (C - 1) solution')

/-- The final `while` of `findPartialSolution`: walking both lists from the
back, a routine whose decision is `true` is pushed to the front of the
result.  Both lists are passed back to front. -/
def collectSolution : List SourceFile → List Bool → List SourceFile → List SourceFile
  | [], _, partialSolution => partialSolution
  | _ :: _, [], partialSolution => partialSolution
  | routine :: routines, decision :: solution, partialSolution =>
    collectSolution routines solution
      (if decision then routine :: partialSolution else partialSolution)

/-- Method `Solver::findPartialSolution`.  The cache rows are `gapSize` long;
for a negative `gapSize` the source's `resize` throws as soon as a routine is
eligible, where the embedding stops at the first cache access. -/
def findPartialSolution (p : BinningProblem) (gapSize : Int) :
    Except Fault (List SourceFile) :=
  let routines := p.floatingRoutines.takeWhile (fun r => decide (r.codeLength ≤ gapSize))
  let cacheV : List (List Int) :=
    List.replicate routines.length (List.replicate gapSize.toNat (-1))
  let cacheS : List (List (List Bool)) :=
    List.replicate routines.length (List.replicate gapSize.toNat [])
  match KS routines routines.length gapSize [] cacheV cacheS with
  | .error e => .error e
  | .ok (_, solution, _, _) =>
    if routines.length ≠ solution.length then .error .internalError
    else .ok (collectSolution routines.reverse solution.reverse [])

/-- One pass through the body of the `while` of `Solver::run`.  The flag is
`false` when the pass left the loop at `break` and `true` when it ran to the
end of the body, through `fillGap`. -/
def Solver.runBody (p : BinningProblem) : Except Fault (Bool × BinningProblem) :=
  let p1 := performObviousSteps p
  match removeUselessGaps p1 with
  | .error e => .error e
  | .ok p2 =>
    if p2.gaps.isEmpty ∨ p2.floatingRoutines.isEmpty then .ok (false, p2)
    else
      let gapAddr := selectGapToFill p2
      match findPartialSolution p2 (mapAt p2.gaps gapAddr) with
      | .error e => .error e
      | .ok partialSolution =>
        match fillGap p2 gapAddr partialSolution with
        | .error e => .error e
        | .ok p3 => .ok (true, p3)

/-- The `while` of `Solver::run`.  Every pass through the body takes one unit
of `fuel`; `none` means the loop was still running when the fuel was used up. -/
def Solver.runLoop : Nat → BinningProblem → Option (Except Fault BinningProblem)
  | fuel, p =>
    if p.gaps.isEmpty ∨ p.floatingRoutines.isEmpty then some (.ok p)
    else
      match fuel with
      | 0 => none
      | fuel + 1 =>
        match Solver.runBody p with
        | .error e => some (.error e)
        | .ok (false, p') => some (.ok p')
        | .ok (true, p') => Solver.runLoop fuel p'

/-- Method `Solver::run`: the ledger when `run` returns.  The loop is given
one pass per gap present at the start. -/
def Solver.run (p : BinningProblem) : Option (Except Fault BinningProblem) :=
  Solver.runLoop p.gaps.length (sortFloatingRoutinesBySize p)

/-- The ledger built by `prepareBinningProblem`: the constructor followed by
`addToProblem` for every source file, stopping at the first fault. -/
def addAll : BinningProblem → List SourceFile → Except Fault BinningProblem
  | p, [] => .ok p
  | p, routine :: rest =>
    match addToProblem p routine with
    | (p', none) => addAll p' rest
    | (_, some e) => .error e

/-- Function `prepareBinningProblem`, the part that builds the ledger. -/
def prepareBinningProblem (loAddress hiAddress : Int) (sourceFiles : List SourceFile) :
    Except Fault BinningProblem :=
  match BinningProblem.create loAddress hiAddress with
  | .error e => .error e
  | .ok p => addAll p sourceFiles

/-! ## The recurrence behind `KS` -/

/-- The recurrence that `KS` memoises: the same case analysis with the two
caches left out.  The first component is the value, the second the decision
list. -/
def knapsack (routines : List SourceFile) : Nat → Int → Int × List Bool
  | 0, _ => (0, [])
  | n + 1, C =>
    if C = 0 then (0, List.replicate (n + 1) false)
    else
      match routines[n]? with
      | none => (0, [])
      | some routine =>
        if routine.codeLength > C then
          ((knapsack routines n C).1, (knapsack routines n C).2 ++ [false])
        else if (knapsack routines n (C - routine.codeLength)).1 + routine.codeLength = C then
          ((knapsack routines n (C - routine.codeLength)).1 + routine.codeLength,
            (knapsack routines n (C - routine.codeLength)).2 ++ [true])
        else if (knapsack routines n (C - routine.codeLength)).1 + routine.codeLength
            ≥ (knapsack routines n C).1 then
          ((knapsack routines n (C - routine.codeLength)).1 + routine.codeLength,
            (knapsack routines n (C - routine.codeLength)).2 ++ [true])
        else
          ((knapsack routines n C).1, (knapsack routines n C).2 ++ [false])

/-- The routines whose decision is `true`, in their order. -/
def pick (routines : List SourceFile) (solution : List Bool) : List SourceFile :=
  ((routines.zip solution).filter (fun e => e.2)).map (fun e => e.1)

/-- Sum of the code lengths of a list of routines. -/
def totalSize (routines : List SourceFile) : Int :=
  (routines.map (fun r => r.codeLength)).sum

/-- A cache has `rows` rows of `cols` entries each. -/
def CacheDims {α : Type} (cache : List (List α)) (rows cols : Nat) : Prop :=
  cache.length = rows ∧ ∀ row ∈ cache, row.length = cols

/-- Every filled entry of the value cache holds the value of the recurrence
and the decision list of the recurrence lies in the same place of the
solution cache. -/
def CacheOK (routines : List SourceFile) (cacheV : List (List Int))
    (cacheS : List (List (List Bool))) : Prop :=
  ∀ (i : Nat) (j : Int) (v : Int), cacheRead cacheV i j = .ok v → 0 ≤ v →
    v = (knapsack routines (i + 1) (j + 1)).1 ∧
      cacheRead cacheS i j = .ok (knapsack routines (i + 1) (j + 1)).2

/-! ## Sample routines -/

/-- A floating routine of the given identity and size. -/
def floatingOf (ptr : Nat) (size : Int) : SourceFile :=
  ⟨ptr, true, -1, size⟩

/-- A fixed routine of the given identity, start address and size. -/
def fixedAt (ptr : Nat) (addr size : Int) : SourceFile :=
  ⟨ptr, false, addr, size⟩

/-! ## Well-formed ledgers -/

/-- The keys of a `std::map` ascend strictly. -/
def KeysSorted {V : Type} (m : List (Int × V)) : Prop :=
  m.Pairwise (fun a b => a.1 < b.1)

/-- Address `x` lies in the gap: `start ≤ x < start + length`. -/
def gapHolds (gap : Int × Int) (x : Int) : Prop :=
  gap.1 ≤ x ∧ x < gap.1 + gap.2

/-- Address `x` lies in the placed routine: `addr ≤ x < addr + codeLength`. -/
def placementHolds (e : Int × SourceFile) (x : Int) : Prop :=
  e.1 ≤ x ∧ x < e.1 + e.2.codeLength

/-- Address `x` lies in some gap or in some placed routine of the ledger. -/
def Covered (p : BinningProblem) (x : Int) : Prop :=
  (∃ g ∈ p.gaps, gapHolds g x) ∨ (∃ e ∈ p.fixedRoutines, placementHolds e x)

/-- The number of gaps and placed routines of the ledger that hold address `x`. -/
def occupancy (p : BinningProblem) (x : Int) : Nat :=
  (p.gaps.filter (fun g => decide (g.1 ≤ x ∧ x < g.1 + g.2))).length +
    (p.fixedRoutines.filter (fun e => decide (e.1 ≤ x ∧ x < e.1 + e.2.codeLength))).length

/-- The layout invariant of a ledger for the range `lo .. hi`: both maps are
in key order, gaps and placed routines have positive length and lie in the
range, no two of them meet, and the routines of the pool have positive size. -/
structure Inv (lo hi : Int) (p : BinningProblem) : Prop where
  lo_nonneg : 0 ≤ lo
  gapsSorted : KeysSorted p.gaps
  fixedSorted : KeysSorted p.fixedRoutines
  gapIn : ∀ g ∈ p.gaps, 0 < g.2 ∧ lo ≤ g.1 ∧ g.1 + g.2 ≤ hi + 1
  fixedIn : ∀ e ∈ p.fixedRoutines, 0 < e.2.codeLength ∧ lo ≤ e.1 ∧ e.1 + e.2.codeLength ≤ hi + 1
  gapGap : ∀ g1 ∈ p.gaps, ∀ g2 ∈ p.gaps, g1.1 < g2.1 → g1.1 + g1.2 ≤ g2.1
  fixedFixed : ∀ e1 ∈ p.fixedRoutines, ∀ e2 ∈ p.fixedRoutines, e1.1 < e2.1 →
    e1.1 + e1.2.codeLength ≤ e2.1
  gapFixed : ∀ g ∈ p.gaps, ∀ e ∈ p.fixedRoutines,
    g.1 + g.2 ≤ e.1 ∨ e.1 + e.2.codeLength ≤ g.1
  floatingPos : ∀ r ∈ p.floatingRoutines, 0 < r.codeLength

/-- Ledgers as `prepareBinningProblem` can have them: the constructor
followed by successful `addToProblem` calls on routines of positive size. -/
inductive Built (lo hi : Int) : BinningProblem → Prop where
  | create {p : BinningProblem} : BinningProblem.create lo hi = .ok p → Built lo hi p
  | add {p p' : BinningProblem} {routine : SourceFile} :
      Built lo hi p → 0 < routine.codeLength → addToProblem p routine = (p', none) →
      Built lo hi p'

/-- Ledgers at any point of a run: a built ledger, then any sequence of the
operations `Solver::run` performs, `fillGap` being applied to the gap chosen
by `selectGapToFill` and the selection of `findPartialSolution`. -/
inductive Reach (lo hi : Int) : BinningProblem → Prop where
  | built {p : BinningProblem} : Built lo hi p → Reach lo hi p
  | sort {p : BinningProblem} : Reach lo hi p → Reach lo hi (sortFloatingRoutinesBySize p)
  | obvious {p : BinningProblem} : Reach lo hi p → Reach lo hi (performObviousSteps p)
  | useless {p p' : BinningProblem} :
      Reach lo hi p → removeUselessGaps p = .ok p' → Reach lo hi p'
  | fill {p p' : BinningProblem} {partialSolution : List SourceFile} :
      Reach lo hi p → p.gaps ≠ [] →
      findPartialSolution p (mapAt p.gaps (selectGapToFill p)) = .ok partialSolution →
      fillGap p (selectGapToFill p) partialSolution = .ok p' → Reach lo hi p'

/-- What every operation of the solver keeps between the ledger `p` before
and the ledger `p'` after it: the gaps do not grow in number, no placement
is lost, and, where the pool holds no routine twice, the placed routines
together with the pool stay the same collection. -/
structure Step (p p' : BinningProblem) : Prop where
  gapsLength : p'.gaps.length ≤ p.gaps.length
  keep : ∀ e ∈ p.fixedRoutines, e ∈ p'.fixedRoutines
  nodup : p.floatingRoutines.Nodup → p'.floatingRoutines.Nodup
  perm : p.floatingRoutines.Nodup →
    (p'.fixedRoutines.map Prod.snd ++ p'.floatingRoutines).Perm
      (p.fixedRoutines.map Prod.snd ++ p.floatingRoutines)

/-- The gaps as they would stand if `fillGap`, having filled `offset` bytes of
the gap at `gapAddress`, kept the rest of that gap. -/
def virtualGaps (gaps : List (Int × Int)) (gapAddress gapLength offset : Int) :
    List (Int × Int) :=
  if 0 < gapLength - offset then
    mapAssign (mapErase gaps gapAddress) (gapAddress + offset) (gapLength - offset)
  else mapErase gaps gapAddress

/-! ## The size check of `calcRoutineSizes` -/

/-- The check at the end of `calcRoutineSizes`, "whether total code size is
sane": `GLOBAL_totalRoutinesSize`, the sum of the code lengths of all source
files, against `CMD_loAddress` and `CMD_hiAddress`. -/
def checkTotalSize (sourceFiles : List SourceFile) (loAddress hiAddress : Int) :
    Except Fault Unit :=
  if 0 = totalSize sourceFiles then .error .totalSizeZero
  else if totalSize sourceFiles > hiAddress - loAddress then .error .tooMuchForSegment
  else .ok ()

/-! ## One pass of `performObviousSteps` -/

/-- One pass through the body of the `while` of `performObviousSteps`: the
ledger after the forced placement, or `none` when the loop ends (pool or gaps
empty, or `repeat` left `false`). -/
def performObviousStep (p : BinningProblem) : Option BinningProblem :=
  match p.floatingRoutines.reverse with
  | [] => none
  | back :: rest =>
    if p.gaps.isEmpty then none
    else
      let routineSize := back.codeLength
      let found := countMatchingGaps p.gaps routineSize
      if found.1 = 1 then
        let gapAddress := found.2
        let gaps1 := mapAssign p.gaps gapAddress (mapAt p.gaps gapAddress - routineSize)
        let targetAddr := gapAddress + mapAt gaps1 gapAddress
        let fixedRoutines1 := mapAssign p.fixedRoutines targetAddr back
        let gaps2 :=
          if mapAt gaps1 gapAddress = 0 then mapErase gaps1 gapAddress else gaps1
        some ⟨fixedRoutines1, gaps2, rest.reverse⟩
      else none

/-! ## The recurrence of the specification -/

/-- The recurrence `f` of the specification of the gap-fill optimizer, with
the decisions it takes (`true` for take, one per routine, routine `n` last):
`f(0, C) = 0`; `f(n, 0) = 0`; routine `n` is skipped when `s_n > C`; otherwise
`take = f(n-1, C - s_n) + s_n` is accepted at once when `take = C`, and else
`skip = f(n-1, C)` is computed and `take` is chosen iff `take ≥ skip`. -/
def specRecurrence (sizes : List Int) : Nat → Int → Int × List Bool
  | 0, _ => (0, [])
  | n + 1, C =>
    if C = 0 then (0, List.replicate (n + 1) false)
    else
      let s := sizes.getD n 0
      if s > C then ((specRecurrence sizes n C).1, (specRecurrence sizes n C).2 ++ [false])
      else
        let take := (specRecurrence sizes n (C - s)).1 + s
        if take = C then (take, (specRecurrence sizes n (C - s)).2 ++ [true])
        else
          let skip := (specRecurrence sizes n C).1
          if take ≥ skip then (take, (specRecurrence sizes n (C - s)).2 ++ [true])
          else (skip, (specRecurrence sizes n C).2 ++ [false])

/-- Ledgers of `Solver::run` started on the ledger `start`, from the initial
sort on: the sorted ledger, and what `performObviousSteps`, `removeUselessGaps`
and the `fillGap` of the loop body make of such a ledger. -/
inductive InRun (start : BinningProblem) : BinningProblem → Prop where
  | sorted : InRun start (sortFloatingRoutinesBySize start)
  | obvious {p : BinningProblem} : InRun start p → InRun start (performObviousSteps p)
  | useless {p p' : BinningProblem} :
      InRun start p → removeUselessGaps p = .ok p' → InRun start p'
  | fill {p p' : BinningProblem} {partialSolution : List SourceFile} :
      InRun start p →
      findPartialSolution p (mapAt p.gaps (selectGapToFill p)) = .ok partialSolution →
      fillGap p (selectGapToFill p) partialSolution = .ok p' → InRun start p'

/-! ## The run with the unchecked read -/

/-- Method `BinningProblem::removeUselessGaps` as the source has it, without a
check on the read of `floatingRoutines[0]`: `minUsefulSize` is the size of the
first routine of the pool, and on an empty pool it is whatever the read out of
bounds yields, the value `stale`; the method goes on with it and erases the
gaps shorter than it. -/
def removeUselessGapsUnchecked (stale : Int) (p : BinningProblem) : BinningProblem :=
  let minUsefulSize :=
    match p.floatingRoutines with
    | [] => stale
    | first :: _ => first.codeLength
  { p with gaps := removeUselessGapsLoop minUsefulSize p.gaps.length p.gaps }

/-- One pass through the body of the `while` of `Solver::run`, the read in
`removeUselessGaps` unchecked.  The flag is `false` when the pass left the loop
at `break` and `true` when it ran to the end of the body, through `fillGap`. -/
def Solver.runBodyUnchecked (stale : Int) (p : BinningProblem) :
    Except Fault (Bool × BinningProblem) :=
  let p1 := performObviousSteps p
  let p2 := removeUselessGapsUnchecked stale p1
  if p2.gaps.isEmpty ∨ p2.floatingRoutines.isEmpty then .ok (false, p2)
  else
    let gapAddr := selectGapToFill p2
    match findPartialSolution p2 (mapAt p2.gaps gapAddr) with
    | .error e => .error e
    | .ok partialSolution =>
      match fillGap p2 gapAddr partialSolution with
      | .error e => .error e
      | .ok p3 => .ok (true, p3)

/-- The `while` of `Solver::run`, the read in `removeUselessGaps` unchecked.
Every pass through the body takes one unit of `fuel`; `none` means the loop was
still running when the fuel was used up.  A pass that reads out of bounds finds
the pool empty at the `break` that follows, so the read happens in the last
pass only and one value `stale` is enough. -/
def Solver.runLoopUnchecked (stale : Int) :
    Nat → BinningProblem → Option (Except Fault BinningProblem)
  | fuel, p =>
    if p.gaps.isEmpty ∨ p.floatingRoutines.isEmpty then some (.ok p)
    else
      match fuel with
      | 0 => none
      | fuel + 1 =>
        match Solver.runBodyUnchecked stale p with
        | .error e => some (.error e)
        | .ok (false, p') => some (.ok p')
        | .ok (true, p') => Solver.runLoopUnchecked stale fuel p'

/-- Method `Solver::run` as the source has it, the read in `removeUselessGaps`
unchecked: the ledger when `run` returns.  The loop is given one pass per gap
present at the start. -/
def Solver.runUnchecked (stale : Int) (p : BinningProblem) :
    Option (Except Fault BinningProblem) :=
  Solver.runLoopUnchecked stale p.gaps.length (sortFloatingRoutinesBySize p)

/-! ## The order of the file list -/

/-- The end of `calcRoutineSizes`: the file list sorted by code size, "starting
from the smallest" (`std::list::sort`, which keeps the order of files of equal
size), with the files of size 0 at its front moved to the list of files without
code.  `prepareBinningProblem` registers the files of this list in its order. -/
def sortSourceFiles (sourceFiles : List SourceFile) : List SourceFile :=
  (sourceFiles.insertionSort (fun a b => a.codeLength ≤ b.codeLength)).dropWhile
    (fun f => f.codeLength == 0)

/-! # Properties -/

/-! ## The caches -/

theorem cacheRead_ok {α : Type} {cache : List (List α)} {rows cols i : Nat} {j : Int}
    (hd : CacheDims cache rows cols) (hi : i < rows) (hj0 : 0 ≤ j) (hj : j < cols) :
    ∃ v, cacheRead cache i j = .ok v := by
  obtain ⟨hlen, hrow⟩ := hd
  have hi' : i < cache.length := by omega
  have hr : (cache[i]).length = cols := hrow _ (List.getElem_mem hi')
  have hj' : j.toNat < (cache[i]).length := by omega
  refine ⟨(cache[i])[j.toNat], ?_⟩
  simp [cacheRead, List.getElem?_eq_getElem hi', List.getElem?_eq_getElem hj']
  omega

theorem cacheWrite_dims {α : Type} {cache : List (List α)} {rows cols : Nat} (i : Nat)
    (j : Int) (v : α) (hd : CacheDims cache rows cols) :
    CacheDims (cacheWrite cache i j v) rows cols := by
  obtain ⟨hlen, hrow⟩ := hd
  unfold cacheWrite
  cases h : cache[i]? with
  | none => exact ⟨hlen, hrow⟩
  | some row =>
    have hmem : row ∈ cache := List.getElem?_mem h
    refine ⟨by simp [hlen], ?_⟩
    intro r hr
    rcases List.mem_or_eq_of_mem_set hr with h1 | h1
    · exact hrow r h1
    · rw [h1, List.length_set]; exact hrow row hmem

theorem cacheRead_cacheWrite_same {α : Type} {cache : List (List α)} {i : Nat} {j : Int}
    {w : α} (v : α) (h : cacheRead cache i j = .ok w) :
    cacheRead (cacheWrite cache i j v) i j = .ok v := by
  unfold cacheRead at h ⊢
  unfold cacheWrite
  split at h
  · cases h
  · rename_i hj
    cases hc : cache[i]? with
    | none => simp [hc] at h
    | some row =>
      simp only [hc] at h ⊢
      have hi : i < cache.length := by
        by_contra hcon
        rw [List.getElem?_eq_none (by omega)] at hc
        cases hc
      cases hr : row[j.toNat]? with
      | none => simp [hr] at h
      | some x =>
        have hjl : j.toNat < row.length := by
          by_contra hcon
          rw [List.getElem?_eq_none (by omega)] at hr
          cases hr
        simp [hj, List.getElem?_set, hi, hjl]

theorem cacheRead_cacheWrite_other {α : Type} (cache : List (List α)) {i i' : Nat}
    {j j' : Int} (v : α) (hj : 0 ≤ j) (hne : ¬ (i' = i ∧ j' = j)) :
    cacheRead (cacheWrite cache i j v) i' j' = cacheRead cache i' j' := by
  unfold cacheRead
  by_cases hj' : j' < 0
  · simp [hj']
  · simp only [hj', if_false]
    unfold cacheWrite
    cases hc : cache[i]? with
    | none => rfl
    | some row =>
      by_cases hii : i = i'
      · subst hii
        have hjj : j.toNat ≠ j'.toNat := by
          intro hcon
          apply hne
          refine ⟨rfl, ?_⟩
          omega
        have hi : i < cache.length := by
          by_contra hcon
          rw [List.getElem?_eq_none (by omega)] at hc
          cases hc
        simp [List.getElem?_set, hi, hc, hjj]
      · simp [List.getElem?_set, hii]

theorem resize_nil (n : Nat) : resize [] n = List.replicate n false := by
  simp [resize]

/-- On caches that agree with the recurrence, `KS` returns the value and the
decision list of the recurrence and leaves caches that agree with it. -/
theorem KS_eq_knapsack (routines : List SourceFile) (cols : Nat)
    (hpos : ∀ r ∈ routines, 0 < r.codeLength) :
    ∀ n, n ≤ routines.length → ∀ (C : Int) (cacheV : List (List Int))
      (cacheS : List (List (List Bool))), 0 ≤ C → C ≤ cols →
      CacheDims cacheV routines.length cols → CacheDims cacheS routines.length cols →
      CacheOK routines cacheV cacheS →
      ∃ cacheV' cacheS',
        KS routines n C [] cacheV cacheS
          = .ok ((knapsack routines n C).1, (knapsack routines n C).2, cacheV', cacheS') ∧
        CacheDims cacheV' routines.length cols ∧ CacheDims cacheS' routines.length cols ∧
        CacheOK routines cacheV' cacheS' := by
  intro n
  induction n with
  | zero =>
    intro _ C cacheV cacheS _ _ hdV hdS hok
    exact ⟨cacheV, cacheS, by simp [KS, knapsack], hdV, hdS, hok⟩
  | succ n ih =>
    intro hn C cacheV cacheS hC0 hCc hdV hdS hok
    have hn' : n < routines.length := by omega
    by_cases hC : C = 0
    · exact ⟨cacheV, cacheS, by simp [KS, knapsack, hC, resize_nil], hdV, hdS, hok⟩
    have hj0 : (0 : Int) ≤ C - 1 := by omega
    have hjc : C - 1 < (cols : Int) := by omega
    obtain ⟨cv, hcv⟩ := cacheRead_ok hdV hn' hj0 hjc
    obtain ⟨cs, hcs⟩ := cacheRead_ok hdS hn' hj0 hjc
    -- writing the result of the recurrence at `(n, C - 1)` keeps the caches sound
    have hwrite : ∀ (cV : List (List Int)) (cS : List (List (List Bool))),
        CacheDims cV routines.length cols → CacheDims cS routines.length cols →
        CacheOK routines cV cS →
        CacheOK routines (cacheWrite cV n (C - 1) (knapsack routines (n + 1) C).1)
          (cacheWrite cS n (C - 1) (knapsack routines (n + 1) C).2) := by
      intro cV cS hV hS hO i j v hr hv
      by_cases hij : i = n ∧ j = C - 1
      · obtain ⟨rfl, rfl⟩ := hij
        obtain ⟨a, ha⟩ := cacheRead_ok hV hn' hj0 hjc
        obtain ⟨b, hb⟩ := cacheRead_ok hS hn' hj0 hjc
        rw [cacheRead_cacheWrite_same _ ha] at hr
        rw [cacheRead_cacheWrite_same _ hb]
        have : C - 1 + 1 = C := by omega
        rw [this]
        cases hr
        exact ⟨rfl, rfl⟩
      · rw [cacheRead_cacheWrite_other _ _ hj0 hij] at hr
        rw [cacheRead_cacheWrite_other _ _ hj0 hij]
        exact hO i j v hr hv
    by_cases hhit : cv ≥ 0
    · -- the cache holds the answer
      obtain ⟨h1, h2⟩ := hok n (C - 1) cv hcv hhit
      have : C - 1 + 1 = C := by omega
      rw [this] at h1 h2
      rw [hcs] at h2
      cases h2
      subst h1
      refine ⟨cacheV, cacheS, ?_, hdV, hdS, hok⟩
      have hhit' : ¬ (knapsack routines (n + 1) C).1 < 0 := by omega
      simp [KS, hC, hcv, hcs, hhit']
    have hr : routines[n]? = some routines[n] := List.getElem?_eq_getElem hn'
    have hrpos : 0 < (routines[n]).codeLength := hpos _ (List.getElem_mem hn')
    by_cases hbig : (routines[n]).codeLength > C
    · -- the routine is too large
      obtain ⟨cV0, cS0, hks, hV0, hS0, hO0⟩ := ih (by omega) C cacheV cacheS hC0 hCc hdV hdS hok
      have hk : knapsack routines (n + 1) C
          = ((knapsack routines n C).1, (knapsack routines n C).2 ++ [false]) := by
        simp [knapsack, hC, hr, hbig]
      refine ⟨_, _, ?_, cacheWrite_dims _ _ _ hV0, cacheWrite_dims _ _ _ hS0,
        hwrite cV0 cS0 hV0 hS0 hO0⟩
      simp [KS, hC, hcv, hcs, hhit, hr, hbig, hks, hk]
    have hC1 : 0 ≤ C - (routines[n]).codeLength := by omega
    have hC1c : C - (routines[n]).codeLength ≤ (cols : Int) := by omega
    obtain ⟨cV1, cS1, hks1, hV1, hS1, hO1⟩ :=
      ih (by omega) (C - (routines[n]).codeLength) cacheV cacheS hC1 hC1c hdV hdS hok
    by_cases hexact :
        (knapsack routines n (C - (routines[n]).codeLength)).1 + (routines[n]).codeLength = C
    · -- taking the routine fills the capacity
      have hk : knapsack routines (n + 1) C
          = ((knapsack routines n (C - (routines[n]).codeLength)).1 + (routines[n]).codeLength,
              (knapsack routines n (C - (routines[n]).codeLength)).2 ++ [true]) := by
        simp [knapsack, hC, hr, hbig, hexact]
      refine ⟨_, _, ?_, cacheWrite_dims _ _ _ hV1, cacheWrite_dims _ _ _ hS1,
        hwrite cV1 cS1 hV1 hS1 hO1⟩
      simp [KS, hC, hcv, hcs, hhit, hr, hbig, hks1, hk, hexact]
    obtain ⟨cV2, cS2, hks2, hV2, hS2, hO2⟩ := ih (by omega) C cV1 cS1 hC0 hCc hV1 hS1 hO1
    by_cases htake :
        (knapsack routines n (C - (routines[n]).codeLength)).1 + (routines[n]).codeLength
          ≥ (knapsack routines n C).1
    · have hk : knapsack routines (n + 1) C
          = ((knapsack routines n (C - (routines[n]).codeLength)).1 + (routines[n]).codeLength,
              (knapsack routines n (C - (routines[n]).codeLength)).2 ++ [true]) := by
        simp [knapsack, hC, hr, hbig, hexact, htake]
      refine ⟨_, _, ?_, cacheWrite_dims _ _ _ hV2, cacheWrite_dims _ _ _ hS2,
        hwrite cV2 cS2 hV2 hS2 hO2⟩
      simp [KS, hC, hcv, hcs, hhit, hr, hbig, hks1, hks2, hk, hexact, htake]
    · have hk : knapsack routines (n + 1) C
          = ((knapsack routines n C).1, (knapsack routines n C).2 ++ [false]) := by
        simp [knapsack, hC, hr, hbig, hexact, htake]
      refine ⟨_, _, ?_, cacheWrite_dims _ _ _ hV2, cacheWrite_dims _ _ _ hS2,
        hwrite cV2 cS2 hV2 hS2 hO2⟩
      simp [KS, hC, hcv, hcs, hhit, hr, hbig, hks1, hks2, hk, hexact, htake]

/-! ## What the recurrence computes -/

theorem totalSize_append (a b : List SourceFile) :
    totalSize (a ++ b) = totalSize a + totalSize b := by
  simp [totalSize]

theorem totalSize_nonneg {l : List SourceFile} (h : ∀ r ∈ l, 0 < r.codeLength) :
    0 ≤ totalSize l := by
  induction l with
  | nil => simp [totalSize]
  | cons a t ih =>
    have h1 := h a (List.mem_cons_self _ _)
    have h2 := ih (fun r hr => h r (List.mem_cons_of_mem _ hr))
    simp only [totalSize, List.map_cons, List.sum_cons] at h2 ⊢
    omega

theorem pick_replicate_false (rs : List SourceFile) (n : Nat) :
    pick rs (List.replicate n false) = [] := by
  unfold pick
  rw [List.map_eq_nil_iff, List.filter_eq_nil_iff]
  intro e he
  have := (List.of_mem_zip he).2
  simp [List.mem_replicate] at this
  simp [this]

theorem pick_append_singleton (rs : List SourceFile) (s : List Bool) (r : SourceFile)
    (b : Bool) (h : rs.length = s.length) :
    pick (rs ++ [r]) (s ++ [b]) = pick rs s ++ (if b then [r] else []) := by
  unfold pick
  rw [List.zip_append h]
  cases b <;> simp

theorem pick_sublist (rs : List SourceFile) (s : List Bool) : (pick rs s).Sublist rs := by
  induction rs generalizing s with
  | nil => simp [pick]
  | cons a t ih =>
    cases s with
    | nil => simp [pick]
    | cons b s =>
      have h := ih s
      unfold pick at h ⊢
      cases b
      · simpa using h.trans (List.sublist_cons_self a t)
      · simpa using h

/-- The recurrence returns one decision per routine, its value is the total
size of the routines it takes, that total fits the capacity and no
sub-collection of the routines that fits is larger. -/
theorem knapsack_spec (routines : List SourceFile)
    (hpos : ∀ r ∈ routines, 0 < r.codeLength) :
    ∀ n, n ≤ routines.length → ∀ C : Int, 0 ≤ C →
      (knapsack routines n C).2.length = n ∧
      (knapsack routines n C).1
        = totalSize (pick (routines.take n) (knapsack routines n C).2) ∧
      (knapsack routines n C).1 ≤ C ∧
      ∀ sub : List SourceFile, sub.Sublist (routines.take n) → totalSize sub ≤ C →
        totalSize sub ≤ (knapsack routines n C).1 := by
  intro n
  induction n with
  | zero =>
    intro _ C hC
    refine ⟨by simp [knapsack], by simp [knapsack, pick, totalSize], by simpa [knapsack] using hC, ?_⟩
    intro sub hsub _
    simp only [List.take_zero, List.sublist_nil] at hsub
    simp [hsub, knapsack, totalSize]
  | succ n ih =>
    intro hn C hC0
    have hn' : n < routines.length := by omega
    have hr : routines[n]? = some routines[n] := List.getElem?_eq_getElem hn'
    have hrpos : 0 < (routines[n]).codeLength := hpos _ (List.getElem_mem hn')
    have htake : routines.take (n + 1) = routines.take n ++ [routines[n]] := by
      rw [List.take_succ, hr]; rfl
    have hlen : (routines.take n).length = n := by simp; omega
    -- a sub-collection of the first `n + 1` routines is one of the first `n`,
    -- possibly followed by routine `n`
    have hsplit : ∀ sub : List SourceFile, sub.Sublist (routines.take (n + 1)) →
        ∃ l1, l1.Sublist (routines.take n) ∧ 0 ≤ totalSize l1 ∧
          (totalSize sub = totalSize l1 ∨
            totalSize sub = totalSize l1 + (routines[n]).codeLength) := by
      intro sub hsub
      rw [htake, List.sublist_append_iff] at hsub
      obtain ⟨l1, l2, rfl, h1, h2⟩ := hsub
      have hnn : 0 ≤ totalSize l1 :=
        totalSize_nonneg (fun r hr => hpos r (List.mem_of_mem_take (h1.subset hr)))
      refine ⟨l1, h1, hnn, ?_⟩
      rcases List.sublist_singleton.mp h2 with rfl | rfl
      · left; simp
      · right; simp [totalSize_append, totalSize]
    by_cases hC : C = 0
    · have hk : knapsack routines (n + 1) C = (0, List.replicate (n + 1) false) := by
        simp [knapsack, hC]
      rw [hk]
      refine ⟨by simp, by simp [pick_replicate_false, totalSize], by omega, ?_⟩
      intro sub _ hle
      simpa [hC] using hle
    by_cases hbig : (routines[n]).codeLength > C
    · obtain ⟨i1, i2, i3, i4⟩ := ih (by omega) C hC0
      have hk : knapsack routines (n + 1) C
          = ((knapsack routines n C).1, (knapsack routines n C).2 ++ [false]) := by
        simp [knapsack, hC, hr, hbig]
      rw [hk]
      refine ⟨by simp [i1], ?_, i3, ?_⟩
      · rw [htake, pick_append_singleton _ _ _ _ (by rw [hlen, i1])]
        simpa using i2
      · intro sub hsub hle
        obtain ⟨l1, hl1, hnn, hs | hs⟩ := hsplit sub hsub
        · rw [hs] at hle ⊢; exact i4 l1 hl1 hle
        · simp only at hle ⊢; omega
    have hC1 : 0 ≤ C - (routines[n]).codeLength := by omega
    obtain ⟨t1, t2, t3, t4⟩ := ih (by omega) (C - (routines[n]).codeLength) hC1
    obtain ⟨s1, s2, s3, s4⟩ := ih (by omega) C hC0
    have hpickT : totalSize (pick (routines.take (n + 1))
        ((knapsack routines n (C - (routines[n]).codeLength)).2 ++ [true]))
        = (knapsack routines n (C - (routines[n]).codeLength)).1 + (routines[n]).codeLength := by
      rw [htake, pick_append_singleton _ _ _ _ (by rw [hlen, t1]), totalSize_append, ← t2]
      simp [totalSize]
    have hpickF : totalSize (pick (routines.take (n + 1))
        ((knapsack routines n C).2 ++ [false])) = (knapsack routines n C).1 := by
      rw [htake, pick_append_singleton _ _ _ _ (by rw [hlen, s1])]
      simpa using s2.symm
    by_cases hexact :
        (knapsack routines n (C - (routines[n]).codeLength)).1 + (routines[n]).codeLength = C
    · have hk : knapsack routines (n + 1) C
          = ((knapsack routines n (C - (routines[n]).codeLength)).1 + (routines[n]).codeLength,
              (knapsack routines n (C - (routines[n]).codeLength)).2 ++ [true]) := by
        simp [knapsack, hC, hr, hbig, hexact]
      rw [hk]
      refine ⟨by simp [t1], hpickT.symm, by simp only; omega, ?_⟩
      intro sub _ hle
      simp only; omega
    by_cases hge :
        (knapsack routines n (C - (routines[n]).codeLength)).1 + (routines[n]).codeLength
          ≥ (knapsack routines n C).1
    · have hk : knapsack routines (n + 1) C
          = ((knapsack routines n (C - (routines[n]).codeLength)).1 + (routines[n]).codeLength,
              (knapsack routines n (C - (routines[n]).codeLength)).2 ++ [true]) := by
        simp [knapsack, hC, hr, hbig, hexact, hge]
      rw [hk]
      refine ⟨by simp [t1], hpickT.symm, by simp only; omega, ?_⟩
      intro sub hsub hle
      obtain ⟨l1, hl1, hnn, hs | hs⟩ := hsplit sub hsub
      · have := s4 l1 hl1 (by omega)
        simp only; omega
      · have := t4 l1 hl1 (by omega)
        simp only; omega
    · have hk : knapsack routines (n + 1) C
          = ((knapsack routines n C).1, (knapsack routines n C).2 ++ [false]) := by
        simp [knapsack, hC, hr, hbig, hexact, hge]
      rw [hk]
      refine ⟨by simp [s1], hpickF.symm, s3, ?_⟩
      intro sub hsub hle
      obtain ⟨l1, hl1, hnn, hs | hs⟩ := hsplit sub hsub
      · have := s4 l1 hl1 (by omega)
        simp only; omega
      · have := t4 l1 hl1 (by omega)
        simp only; omega

/-! ## `findPartialSolution` -/

theorem collectSolution_eq (rs : List SourceFile) (bs : List Bool) (acc : List SourceFile)
    (h : rs.length = bs.length) :
    collectSolution rs bs acc = pick rs.reverse bs.reverse ++ acc := by
  induction rs generalizing bs acc with
  | nil => simp [collectSolution, pick]
  | cons r rs ih =>
    cases bs with
    | nil => simp at h
    | cons b bs =>
      have hl : rs.length = bs.length := by simpa using h
      simp only [collectSolution, List.reverse_cons]
      rw [ih bs _ hl, pick_append_singleton _ _ _ _ (by simpa using hl)]
      cases b <;> simp

theorem cacheDims_replicate {α : Type} (rows cols : Nat) (x : α) :
    CacheDims (List.replicate rows (List.replicate cols x)) rows cols := by
  refine ⟨by simp, ?_⟩
  intro row hrow
  rw [List.mem_replicate] at hrow
  simp [hrow.2]

theorem cacheRead_replicate {α : Type} {rows cols : Nat} {x v : α} {i : Nat} {j : Int}
    (h : cacheRead (List.replicate rows (List.replicate cols x)) i j = .ok v) : v = x := by
  unfold cacheRead at h
  split at h
  · cases h
  · split at h
    · cases h
    · rename_i row hrow
      have hrow' := List.getElem?_mem hrow
      rw [List.mem_replicate] at hrow'
      split at h
      · cases h
      · rename_i w hw
        have hw' := List.getElem?_mem hw
        rw [hrow'.2, List.mem_replicate] at hw'
        cases h
        exact hw'.2

theorem cacheOK_fresh (routines : List SourceFile) (rows cols : Nat) :
    CacheOK routines (List.replicate rows (List.replicate cols (-1)))
      (List.replicate rows (List.replicate cols [])) := by
  intro i j v hr hv
  have := cacheRead_replicate hr
  omega

/-- The routines `findPartialSolution` hands to `KS`: the front of the pool up
to the first routine longer than the gap. -/
theorem findPartialSolution_eq (p : BinningProblem) (gapSize : Int)
    (hpos : ∀ r ∈ p.floatingRoutines, 0 < r.codeLength) (h0 : 0 ≤ gapSize) :
    findPartialSolution p gapSize
      = .ok (pick (p.floatingRoutines.takeWhile (fun r => decide (r.codeLength ≤ gapSize)))
          (knapsack (p.floatingRoutines.takeWhile (fun r => decide (r.codeLength ≤ gapSize)))
            (p.floatingRoutines.takeWhile (fun r => decide (r.codeLength ≤ gapSize))).length
            gapSize).2) := by
  have hpos' : ∀ r ∈ p.floatingRoutines.takeWhile (fun r => decide (r.codeLength ≤ gapSize)),
      0 < r.codeLength := fun r hr => hpos r ((List.takeWhile_sublist _).subset hr)
  obtain ⟨cV, cS, hks, -, -, -⟩ :=
    KS_eq_knapsack _ gapSize.toNat hpos' _ (Nat.le_refl _) gapSize
      (List.replicate _ (List.replicate gapSize.toNat (-1)))
      (List.replicate _ (List.replicate gapSize.toNat [])) h0 (by omega)
      (cacheDims_replicate _ _ _) (cacheDims_replicate _ _ _) (cacheOK_fresh _ _ _)
  have hlen := (knapsack_spec _ hpos' _ (Nat.le_refl _) gapSize h0).1
  unfold findPartialSolution
  simp only [hks, hlen, ne_eq, not_true_eq_false, if_false]
  rw [collectSolution_eq _ _ _ (by simp [hlen])]
  simp

/-- The selection of `findPartialSolution` is a sub-collection of the
eligible routines, fits the gap, and no sub-collection that fits is larger. -/
theorem findPartialSolution_spec (p : BinningProblem) (gapSize : Int)
    (hpos : ∀ r ∈ p.floatingRoutines, 0 < r.codeLength) (h0 : 0 ≤ gapSize) :
    ∃ sel, findPartialSolution p gapSize = .ok sel ∧
      sel.Sublist (p.floatingRoutines.takeWhile (fun r => decide (r.codeLength ≤ gapSize))) ∧
      totalSize sel ≤ gapSize ∧
      ∀ sub : List SourceFile,
        sub.Sublist (p.floatingRoutines.takeWhile (fun r => decide (r.codeLength ≤ gapSize))) →
        totalSize sub ≤ gapSize → totalSize sub ≤ totalSize sel := by
  have hpos' : ∀ r ∈ p.floatingRoutines.takeWhile (fun r => decide (r.codeLength ≤ gapSize)),
      0 < r.codeLength := fun r hr => hpos r ((List.takeWhile_sublist _).subset hr)
  obtain ⟨-, k2, k3, k4⟩ := knapsack_spec _ hpos' _ (Nat.le_refl _) gapSize h0
  rw [List.take_length] at k2 k4
  refine ⟨_, findPartialSolution_eq p gapSize hpos h0, pick_sublist _ _, ?_, ?_⟩
  · rw [← k2]; exact k3
  · intro sub hsub hle
    rw [← k2]; exact k4 sub hsub hle

/-! ## The gap-fill optimizer (C1, C2) -/

theorem takeWhile_all (l : List SourceFile) (C : Int) (h : ∀ r ∈ l, 0 < r.codeLength ∧ r.codeLength ≤ C) :
    l.takeWhile (fun r => decide (r.codeLength ≤ C)) = l := by
  rw [List.takeWhile_eq_self_iff]
  intro r hr
  simpa using (h r hr).2

/-- C1: for a capacity `C ≥ 1` and a pool of eligible routines (positive sizes,
each at most `C`, sorted ascending), `findPartialSolution` returns a
sub-collection of the pool whose total size is at most `C`, and no
sub-collection of the pool has a total size that is at most `C` and
strictly greater than the total of the returned one. -/
theorem findPartialSolution_optimal (p : BinningProblem) (C : Int) (hC : 1 ≤ C)
    (hsize : ∀ r ∈ p.floatingRoutines, 0 < r.codeLength ∧ r.codeLength ≤ C)
    (_hsorted : p.floatingRoutines.Pairwise (fun a b => a.codeLength ≤ b.codeLength)) :
    ∃ sel, findPartialSolution p C = .ok sel ∧ sel.Sublist p.floatingRoutines ∧
      totalSize sel ≤ C ∧
      ∀ sub : List SourceFile, sub.Sublist p.floatingRoutines →
        ¬ (totalSize sub ≤ C ∧ totalSize sel < totalSize sub) := by
  obtain ⟨sel, h1, h2, h3, h4⟩ :=
    findPartialSolution_spec p C (fun r hr => (hsize r hr).1) (by omega)
  rw [takeWhile_all _ _ hsize] at h2 h4
  refine ⟨sel, h1, h2, h3, ?_⟩
  rintro sub hsub ⟨hle, hlt⟩
  have := h4 sub hsub hle
  omega

/-- C1 at a pool of sizes 2 and 3 and capacity 4. -/
theorem findPartialSolution_optimal_witness :
    ∃ sel, findPartialSolution ⟨[], [], [floatingOf 0 2, floatingOf 1 3]⟩ 4 = .ok sel ∧
      sel.Sublist [floatingOf 0 2, floatingOf 1 3] ∧ totalSize sel ≤ 4 ∧
      ∀ sub : List SourceFile, sub.Sublist [floatingOf 0 2, floatingOf 1 3] →
        ¬ (totalSize sub ≤ 4 ∧ totalSize sel < totalSize sub) :=
  findPartialSolution_optimal ⟨[], [], [floatingOf 0 2, floatingOf 1 3]⟩ 4 (by decide)
    (by decide) (by decide)

/-- C2: for a capacity `C ≥ 1` and a sorted pool of eligible routines (positive
sizes, each at most `C`), if some sub-collection of the pool has total size
exactly `C`, the selection of `findPartialSolution` has total size exactly
`C`. -/
theorem findPartialSolution_exact (p : BinningProblem) (C : Int) (hC : 1 ≤ C)
    (hsize : ∀ r ∈ p.floatingRoutines, 0 < r.codeLength ∧ r.codeLength ≤ C)
    (_hsorted : p.floatingRoutines.Pairwise (fun a b => a.codeLength ≤ b.codeLength))
    (hex : ∃ sub : List SourceFile, sub.Sublist p.floatingRoutines ∧ totalSize sub = C) :
    ∃ sel, findPartialSolution p C = .ok sel ∧ sel.Sublist p.floatingRoutines ∧
      totalSize sel = C := by
  obtain ⟨sel, h1, h2, h3, h4⟩ :=
    findPartialSolution_spec p C (fun r hr => (hsize r hr).1) (by omega)
  rw [takeWhile_all _ _ hsize] at h2 h4
  obtain ⟨sub, hsub, htot⟩ := hex
  have := h4 sub hsub (by omega)
  exact ⟨sel, h1, h2, by omega⟩

/-- C2 at a pool of sizes 1, 2 and 3 and capacity 4, filled exactly by 1 and 3. -/
theorem findPartialSolution_exact_witness :
    ∃ sel, findPartialSolution ⟨[], [], [floatingOf 0 1, floatingOf 1 2, floatingOf 2 3]⟩ 4
        = .ok sel ∧
      sel.Sublist [floatingOf 0 1, floatingOf 1 2, floatingOf 2 3] ∧ totalSize sel = 4 :=
  findPartialSolution_exact ⟨[], [], [floatingOf 0 1, floatingOf 1 2, floatingOf 2 3]⟩ 4
    (by decide) (by decide) (by decide)
    ⟨[floatingOf 0 1, floatingOf 2 3], by decide, by decide⟩

/-! ## `std::map` operations -/

theorem mem_mapAssign {V : Type} {m : List (Int × V)} (hs : KeysSorted m) (k : Int) (v : V)
    (e : Int × V) : e ∈ mapAssign m k v ↔ e = (k, v) ∨ (e ∈ m ∧ e.1 ≠ k) := by
  induction m with
  | nil => simp [mapAssign]
  | cons a t ih =>
    have hs' := List.pairwise_cons.mp hs
    have iht := ih hs'.2
    unfold mapAssign
    by_cases h1 : k < a.1
    · simp only [h1, if_true, List.mem_cons]
      constructor
      · rintro (h | h | h)
        · exact Or.inl h
        · subst h; exact Or.inr ⟨Or.inl rfl, by omega⟩
        · have := hs'.1 e h
          exact Or.inr ⟨Or.inr h, by omega⟩
      · rintro (h | ⟨h | h, _⟩)
        · exact Or.inl h
        · exact Or.inr (Or.inl h)
        · exact Or.inr (Or.inr h)
    · by_cases h2 : k = a.1
      · subst h2
        rw [if_neg h1, if_pos rfl]
        simp only [List.mem_cons]
        constructor
        · rintro (h | h)
          · exact Or.inl h
          · have := hs'.1 e h
            exact Or.inr ⟨Or.inr h, by omega⟩
        · rintro (h | ⟨h | h, hne⟩)
          · exact Or.inl h
          · subst h; exact absurd rfl hne
          · exact Or.inr h
      · simp only [h1, h2, if_false, List.mem_cons, iht]
        constructor
        · rintro (h | h | ⟨h, hne⟩)
          · subst h; exact Or.inr ⟨Or.inl rfl, fun hc => h2 hc.symm⟩
          · exact Or.inl h
          · exact Or.inr ⟨Or.inr h, hne⟩
        · rintro (h | ⟨h | h, hne⟩)
          · exact Or.inr (Or.inl h)
          · exact Or.inl h
          · exact Or.inr (Or.inr ⟨h, hne⟩)

theorem keysSorted_mapAssign {V : Type} {m : List (Int × V)} (hs : KeysSorted m) (k : Int)
    (v : V) : KeysSorted (mapAssign m k v) := by
  induction m with
  | nil => simp [mapAssign, KeysSorted]
  | cons a t ih =>
    have hs' := List.pairwise_cons.mp hs
    have iht := ih hs'.2
    unfold mapAssign
    by_cases h1 : k < a.1
    · simp only [h1, if_true]
      refine List.pairwise_cons.mpr ⟨?_, hs⟩
      intro b hb
      rcases List.mem_cons.mp hb with h | h
      · subst h; exact h1
      · have := hs'.1 b h
        show k < b.1
        omega
    · by_cases h2 : k = a.1
      · subst h2
        rw [if_neg h1, if_pos rfl]
        exact List.pairwise_cons.mpr ⟨fun b hb => hs'.1 b hb, hs'.2⟩
      · simp only [h1, h2, if_false]
        refine List.pairwise_cons.mpr ⟨?_, iht⟩
        intro b hb
        rcases (mem_mapAssign hs'.2 k v b).mp hb with h | ⟨h, _⟩
        · subst h
          show a.1 < k
          omega
        · exact hs'.1 b h

theorem mapAssign_perm {V : Type} {m : List (Int × V)} (k : Int) (v : V)
    (hk : ∀ e ∈ m, e.1 ≠ k) : (mapAssign m k v).Perm ((k, v) :: m) := by
  induction m with
  | nil => simp [mapAssign]
  | cons a t ih =>
    have iht := ih (fun e he => hk e (List.mem_cons_of_mem _ he))
    have ha := hk a (List.mem_cons_self _ _)
    unfold mapAssign
    by_cases h1 : k < a.1
    · simp [h1]
    · have h2 : ¬ k = a.1 := fun h => ha h.symm
      simp only [h1, h2, if_false]
      exact (List.Perm.cons a iht).trans (List.Perm.swap _ _ _)

theorem mem_mapErase {V : Type} (m : List (Int × V)) (k : Int) (e : Int × V) :
    e ∈ mapErase m k ↔ e ∈ m ∧ e.1 ≠ k := by
  simp [mapErase]

theorem keysSorted_mapErase {V : Type} {m : List (Int × V)} (hs : KeysSorted m) (k : Int) :
    KeysSorted (mapErase m k) :=
  List.Pairwise.sublist (List.filter_sublist _) hs

theorem keysSorted_unique {V : Type} {m : List (Int × V)} (hs : KeysSorted m)
    {e1 e2 : Int × V} (h1 : e1 ∈ m) (h2 : e2 ∈ m) (hk : e1.1 = e2.1) : e1 = e2 := by
  induction m with
  | nil => simp at h1
  | cons a t ih =>
    have hs' := List.pairwise_cons.mp hs
    rcases List.mem_cons.mp h1 with rfl | h1' <;> rcases List.mem_cons.mp h2 with rfl | h2'
    · rfl
    · have := hs'.1 e2 h2'; omega
    · have := hs'.1 e1 h1'; omega
    · exact ih hs'.2 h1' h2'

theorem mapAt_of_mem {m : List (Int × Int)} (hs : KeysSorted m) {k v : Int}
    (h : (k, v) ∈ m) : mapAt m k = v := by
  unfold mapAt
  cases hf : m.find? (fun e => decide (e.1 = k)) with
  | none =>
    have := List.find?_eq_none.mp hf (k, v) h
    simp at this
  | some e =>
    have hmem := List.mem_of_find?_eq_some hf
    have hkey : e.1 = k := by simpa using List.find?_some hf
    have := keysSorted_unique hs hmem h hkey
    simp [this]

theorem length_mapErase_le {V : Type} (m : List (Int × V)) (k : Int) :
    (mapErase m k).length ≤ m.length :=
  List.length_filter_le _ _

theorem length_mapErase_lt {V : Type} {m : List (Int × V)} {e : Int × V} (h : e ∈ m) :
    (mapErase m e.1).length < m.length := by
  unfold mapErase
  apply List.length_filter_lt_length_iff_exists.mpr
  exact ⟨e, h, by simp⟩

theorem length_mapAssign_of_mem {V : Type} {m : List (Int × V)} (hs : KeysSorted m)
    {e : Int × V} (h : e ∈ m) (v : V) : (mapAssign m e.1 v).length = m.length := by
  induction m with
  | nil => simp at h
  | cons a t ih =>
    have hs' := List.pairwise_cons.mp hs
    unfold mapAssign
    by_cases h1 : e.1 < a.1
    · exfalso
      rcases List.mem_cons.mp h with rfl | h'
      · omega
      · have := hs'.1 e h'; omega
    · by_cases h2 : e.1 = a.1
      · rw [if_neg h1, if_pos h2]; simp
      · rw [if_neg h1, if_neg h2]
        rcases List.mem_cons.mp h with rfl | h'
        · exact absurd rfl h2
        · simpa using ih hs'.2 h'

/-! ## The layout invariant -/

/-- Placing a routine inside a gap and keeping what is left of the gap on
either side preserves the layout invariant. -/
theorem Inv.carve {lo hi : Int} {p p' : BinningProblem} (hinv : Inv lo hi p)
    {a len t : Int} {r : SourceFile}
    (hg : (a, len) ∈ p.gaps) (hn : 0 < r.codeLength) (hat : a ≤ t)
    (hfit : t + r.codeLength ≤ a + len)
    (hfs : KeysSorted p'.fixedRoutines) (hgs : KeysSorted p'.gaps)
    (hfix : ∀ e, e ∈ p'.fixedRoutines → e = (t, r) ∨ e ∈ p.fixedRoutines)
    (hgaps : ∀ g, g ∈ p'.gaps → (g ∈ p.gaps ∧ g.1 ≠ a) ∨ (a < t ∧ g = (a, t - a)) ∨
      (0 < a + len - (t + r.codeLength) ∧
        g = (t + r.codeLength, a + len - (t + r.codeLength))))
    (hfloat : ∀ x ∈ p'.floatingRoutines, x ∈ p.floatingRoutines) : Inv lo hi p' := by
  have hA := hinv.gapIn (a, len) hg
  simp only at hA
  have old : ∀ g ∈ p.gaps, 0 < g.2 ∧ lo ≤ g.1 ∧ g.1 + g.2 ≤ hi + 1 ∧
      (g.1 < a → g.1 + g.2 ≤ a) ∧ (a < g.1 → a + len ≤ g.1) := by
    intro g hgm
    have h1 := hinv.gapIn g hgm
    have h2 := hinv.gapGap g hgm (a, len) hg
    have h3 := hinv.gapGap (a, len) hg g hgm
    simp only at h2 h3
    exact ⟨h1.1, h1.2.1, h1.2.2, h2, h3⟩
  have oldF : ∀ e ∈ p.fixedRoutines, 0 < e.2.codeLength ∧ lo ≤ e.1 ∧
      e.1 + e.2.codeLength ≤ hi + 1 ∧ (a + len ≤ e.1 ∨ e.1 + e.2.codeLength ≤ a) := by
    intro e he
    have h1 := hinv.fixedIn e he
    have h2 := hinv.gapFixed (a, len) hg e he
    simp only at h2
    exact ⟨h1.1, h1.2.1, h1.2.2, h2⟩
  have hG : ∀ g ∈ p'.gaps, (g ∈ p.gaps ∧ g.1 ≠ a) ∨ (a < t ∧ g.1 = a ∧ g.2 = t - a) ∨
      (0 < a + len - (t + r.codeLength) ∧ g.1 = t + r.codeLength ∧
        g.2 = a + len - (t + r.codeLength)) := by
    intro g hgm
    rcases hgaps g hgm with h | ⟨h, rfl⟩ | ⟨h, rfl⟩
    · exact Or.inl h
    · exact Or.inr (Or.inl ⟨h, rfl, rfl⟩)
    · exact Or.inr (Or.inr ⟨h, rfl, rfl⟩)
  have hF : ∀ e ∈ p'.fixedRoutines, e ∈ p.fixedRoutines ∨
      (e.1 = t ∧ e.2.codeLength = r.codeLength) := by
    intro e he
    rcases hfix e he with rfl | h
    · exact Or.inr ⟨rfl, rfl⟩
    · exact Or.inl h
  refine ⟨hinv.lo_nonneg, hgs, hfs, ?_, ?_, ?_, ?_, ?_, fun x hx => hinv.floatingPos x (hfloat x hx)⟩
  · intro g hgm
    rcases hG g hgm with ⟨h, _⟩ | h | h
    · have := old g h; omega
    · omega
    · omega
  · intro e he
    rcases hF e he with h | h
    · have := oldF e h; omega
    · omega
  · intro g1 h1 g2 h2 hlt
    rcases hG g1 h1 with ⟨m1, n1⟩ | c1 | c1 <;> rcases hG g2 h2 with ⟨m2, n2⟩ | c2 | c2
    · exact hinv.gapGap g1 m1 g2 m2 hlt
    · have := old g1 m1; omega
    · have := old g1 m1; omega
    · have := old g2 m2; omega
    · omega
    · omega
    · have := old g2 m2; omega
    · omega
    · omega
  · intro e1 h1 e2 h2 hlt
    rcases hF e1 h1 with m1 | c1 <;> rcases hF e2 h2 with m2 | c2
    · exact hinv.fixedFixed e1 m1 e2 m2 hlt
    · have := oldF e1 m1; omega
    · have := oldF e2 m2; omega
    · omega
  · intro g hgm e he
    rcases hG g hgm with ⟨m1, n1⟩ | c1 | c1 <;> rcases hF e he with m2 | c2
    · exact hinv.gapFixed g m1 e m2
    · have := old g m1; omega
    · have := oldF e m2; omega
    · omega
    · have := oldF e m2; omega
    · omega

/-- Dropping gaps and pool routines preserves the layout invariant. -/
theorem Inv.shrink {lo hi : Int} {p p' : BinningProblem} (hinv : Inv lo hi p)
    (hgs : KeysSorted p'.gaps) (hgaps : ∀ g ∈ p'.gaps, g ∈ p.gaps)
    (hfix : p'.fixedRoutines = p.fixedRoutines)
    (hfloat : ∀ x ∈ p'.floatingRoutines, x ∈ p.floatingRoutines) : Inv lo hi p' := by
  refine ⟨hinv.lo_nonneg, hgs, hfix ▸ hinv.fixedSorted, ?_, ?_, ?_, ?_, ?_,
    fun x hx => hinv.floatingPos x (hfloat x hx)⟩
  · exact fun g hg => hinv.gapIn g (hgaps g hg)
  · rw [hfix]; exact hinv.fixedIn
  · exact fun g1 h1 g2 h2 => hinv.gapGap g1 (hgaps g1 h1) g2 (hgaps g2 h2)
  · rw [hfix]; exact hinv.fixedFixed
  · rw [hfix]; exact fun g hg => hinv.gapFixed g (hgaps g hg)

/-- No placed routine starts inside a gap. -/
theorem Inv.key_free {lo hi : Int} {p : BinningProblem} (hinv : Inv lo hi p)
    {a len t : Int} (hg : (a, len) ∈ p.gaps) (hat : a ≤ t) (htl : t < a + len) :
    ∀ e ∈ p.fixedRoutines, e.1 ≠ t := by
  intro e he hk
  have h1 := hinv.fixedIn e he
  have h2 := hinv.gapFixed (a, len) hg e he
  simp only at h2
  omega

/-- No other gap starts inside a gap. -/
theorem Inv.gap_key_free {lo hi : Int} {p : BinningProblem} (hinv : Inv lo hi p)
    {a len t : Int} (hg : (a, len) ∈ p.gaps) (hat : a < t) (htl : t < a + len) :
    ∀ g ∈ p.gaps, g.1 ≠ t := by
  intro g hgm hk
  have h1 := hinv.gapIn g hgm
  have h2 := hinv.gapGap (a, len) hg g hgm
  have h3 := hinv.gapGap g hgm (a, len) hg
  simp only at h2 h3
  omega

/-- After a carve every address that was covered is still covered. -/
theorem Covered.afterCarve {p p' : BinningProblem} {a len t : Int} {r : SourceFile}
    (hat : a ≤ t) (hfit : t + r.codeLength ≤ a + len)
    (hfix : ∀ e, e = (t, r) ∨ e ∈ p.fixedRoutines → e ∈ p'.fixedRoutines)
    (hgaps : ∀ g, (g ∈ p.gaps ∧ g.1 ≠ a) ∨ (a < t ∧ g = (a, t - a)) ∨
      (0 < a + len - (t + r.codeLength) ∧
        g = (t + r.codeLength, a + len - (t + r.codeLength))) → g ∈ p'.gaps)
    (hkey : ∀ g ∈ p.gaps, g.1 = a → g = (a, len))
    {x : Int} (hx : Covered p x) : Covered p' x := by
  rcases hx with ⟨g, hg, hgx⟩ | ⟨e, he, hex⟩
  · by_cases hk : g.1 = a
    · have hga := hkey g hg hk
      subst hga
      unfold gapHolds at hgx
      simp only at hgx
      by_cases h1 : x < t
      · exact Or.inl ⟨(a, t - a), hgaps _ (Or.inr (Or.inl ⟨by omega, rfl⟩)),
          by unfold gapHolds; simp only; omega⟩
      · by_cases h2 : x < t + r.codeLength
        · exact Or.inr ⟨(t, r), hfix _ (Or.inl rfl), by unfold placementHolds; simp only; omega⟩
        · exact Or.inl ⟨(t + r.codeLength, a + len - (t + r.codeLength)),
            hgaps _ (Or.inr (Or.inr ⟨by omega, rfl⟩)), by unfold gapHolds; simp only; omega⟩
    · exact Or.inl ⟨g, hgaps g (Or.inl ⟨hg, hk⟩), hgx⟩
  · exact Or.inr ⟨e, hfix e (Or.inr he), hex⟩

theorem find?_suitableGap {gaps : List (Int × Int)} {s : Int} {gap : Int × Int}
    (h : gaps.find? (suitableGap s) = some gap) :
    gap ∈ gaps ∧ gap.1 ≤ s ∧ s ≤ gap.1 + gap.2 - 1 := by
  have h1 := List.mem_of_find?_eq_some h
  have h2 := List.find?_some h
  simp only [suitableGap, Bool.not_eq_true', Bool.or_eq_false_iff, decide_eq_false_iff_not,
    Bool.not_eq_eq_eq_not, Bool.not_true] at h2
  exact ⟨h1, by omega, by omega⟩

/-- In a well-formed ledger the scan of `addToProblem` stops at the gap that
holds the start address. -/
theorem find?_suitableGap_of_mem {lo hi : Int} {p : BinningProblem} (hinv : Inv lo hi p)
    {a len s : Int} (hg : (a, len) ∈ p.gaps) (has : a ≤ s) (hsl : s ≤ a + len - 1) :
    p.gaps.find? (suitableGap s) = some (a, len) := by
  cases hf : p.gaps.find? (suitableGap s) with
  | none =>
    have := List.find?_eq_none.mp hf (a, len) hg
    simp [suitableGap] at this
    omega
  | some g =>
    obtain ⟨hm, h1, h2⟩ := find?_suitableGap hf
    have h3 := hinv.gapGap g hm (a, len) hg
    have h4 := hinv.gapGap (a, len) hg g hm
    simp only at h3 h4
    have hk : g.1 = a := by omega
    rw [keysSorted_unique hinv.gapsSorted hm hg hk]

/-- What a successful registration of a fixed routine does to a well-formed
ledger. -/
theorem addToProblem_fixed_spec {lo hi : Int} {p : BinningProblem} (hinv : Inv lo hi p)
    {routine : SourceFile} (hfl : routine.floating = false) (hn : 0 < routine.codeLength)
    {a len : Int} (hg : (a, len) ∈ p.gaps) (has : a ≤ routine.startAddr)
    (hfit : routine.startAddr + routine.codeLength ≤ a + len) :
    ∃ p', addToProblem p routine = (p', none) ∧
      KeysSorted p'.gaps ∧ KeysSorted p'.fixedRoutines ∧
      (∀ g, g ∈ p'.gaps ↔ (g ∈ p.gaps ∧ g.1 ≠ a) ∨
        (a < routine.startAddr ∧ g = (a, routine.startAddr - a)) ∨
        (0 < a + len - (routine.startAddr + routine.codeLength) ∧
          g = (routine.startAddr + routine.codeLength,
            a + len - (routine.startAddr + routine.codeLength)))) ∧
      (∀ e, e ∈ p'.fixedRoutines ↔ e = (routine.startAddr, routine) ∨ e ∈ p.fixedRoutines) ∧
      p'.fixedRoutines.Perm ((routine.startAddr, routine) :: p.fixedRoutines) ∧
      p'.floatingRoutines = p.floatingRoutines := by
  have hA := hinv.gapIn (a, len) hg
  simp only at hA
  have hlo := hinv.lo_nonneg
  have hfind := find?_suitableGap_of_mem hinv hg has (by omega)
  have hfree := hinv.key_free hg has (by omega)
  -- the gaps after the left part has been settled
  have hs1 : KeysSorted (if a = routine.startAddr then mapErase p.gaps a
      else mapAssign p.gaps a (routine.startAddr - a)) := by
    split
    · exact keysSorted_mapErase hinv.gapsSorted _
    · exact keysSorted_mapAssign hinv.gapsSorted _ _
  have hm1 : ∀ g, g ∈ (if a = routine.startAddr then mapErase p.gaps a
      else mapAssign p.gaps a (routine.startAddr - a)) ↔
      (g ∈ p.gaps ∧ g.1 ≠ a) ∨ (a < routine.startAddr ∧ g = (a, routine.startAddr - a)) := by
    intro g
    split
    · rw [mem_mapErase]
      constructor
      · exact fun h => Or.inl h
      · rintro (h | ⟨h, _⟩)
        · exact h
        · omega
    · rw [mem_mapAssign hinv.gapsSorted]
      constructor
      · rintro (h | h)
        · exact Or.inr ⟨by omega, h⟩
        · exact Or.inl h
      · rintro (h | ⟨_, h⟩)
        · exact Or.inr h
        · exact Or.inl h
  have heq : addToProblem p routine
      = (⟨mapAssign p.fixedRoutines routine.startAddr routine,
          (if 0 < a + len - (routine.startAddr + routine.codeLength) then
            mapAssign (if a = routine.startAddr then mapErase p.gaps a
              else mapAssign p.gaps a (routine.startAddr - a))
              (routine.startAddr + routine.codeLength)
              (a + len - (routine.startAddr + routine.codeLength))
          else (if a = routine.startAddr then mapErase p.gaps a
              else mapAssign p.gaps a (routine.startAddr - a))),
          p.floatingRoutines⟩, none) := by
    unfold addToProblem
    simp only [hfl, hfind, Bool.false_eq_true, if_false]
    rw [if_neg (by omega)]
    split_ifs <;> first | rfl | (exfalso; omega)
  refine ⟨_, heq, ?_, keysSorted_mapAssign hinv.fixedSorted _ _, ?_, ?_,
    mapAssign_perm _ _ hfree, rfl⟩
  · simp only
    split
    · exact keysSorted_mapAssign hs1 _ _
    · exact hs1
  · intro g
    simp only
    by_cases hnew : 0 < a + len - (routine.startAddr + routine.codeLength)
    · rw [if_pos hnew, mem_mapAssign hs1, hm1]
      constructor
      · rintro (h | ⟨h | h, _⟩)
        · exact Or.inr (Or.inr ⟨hnew, h⟩)
        · exact Or.inl h
        · exact Or.inr (Or.inl h)
      · rintro (h | h | ⟨_, h⟩)
        · refine Or.inr ⟨Or.inl h, ?_⟩
          exact hinv.gap_key_free hg (by omega) (by omega) g h.1
        · refine Or.inr ⟨Or.inr h, ?_⟩
          rw [h.2]; simp only; omega
        · exact Or.inl h
    · rw [if_neg hnew, hm1]
      constructor
      · rintro (h | h)
        · exact Or.inl h
        · exact Or.inr (Or.inl h)
      · rintro (h | h | ⟨h, _⟩)
        · exact Or.inl h
        · exact Or.inr h
        · omega
  · intro e
    simp only
    rw [mem_mapAssign hinv.fixedSorted]
    constructor
    · rintro (h | ⟨h, _⟩)
      · exact Or.inl h
      · exact Or.inr h
    · rintro (h | h)
      · exact Or.inl h
      · exact Or.inr ⟨h, hfree e h⟩

theorem addToProblem_floating {p : BinningProblem} {routine : SourceFile}
    (hfl : routine.floating = true) :
    addToProblem p routine
      = ({ p with floatingRoutines := p.floatingRoutines ++ [routine] }, none) := by
  simp [addToProblem, hfl]

/-- A registration of a fixed routine that succeeds found a gap that holds the
routine. -/
theorem addToProblem_fixed_success {p p' : BinningProblem} {routine : SourceFile}
    (hfl : routine.floating = false) (h : addToProblem p routine = (p', none)) :
    ∃ gap ∈ p.gaps, gap.1 ≤ routine.startAddr ∧ routine.startAddr ≤ gap.1 + gap.2 - 1 ∧
      routine.startAddr + routine.codeLength ≤ gap.1 + gap.2 := by
  unfold addToProblem at h
  simp only [hfl, Bool.false_eq_true, if_false] at h
  cases hf : p.gaps.find? (suitableGap routine.startAddr) with
  | none => simp [hf] at h
  | some gap =>
    simp only [hf] at h
    obtain ⟨h1, h2, h3⟩ := find?_suitableGap hf
    by_cases hfit : gap.1 + gap.2 < routine.startAddr + routine.codeLength
    · simp [hfit] at h
    · exact ⟨gap, h1, h2, h3, by omega⟩

/-- A successful `addToProblem` with a routine of positive size keeps the
layout invariant and keeps every address covered. -/
theorem addToProblem_inv {lo hi : Int} {p p' : BinningProblem} {routine : SourceFile}
    (hinv : Inv lo hi p) (hn : 0 < routine.codeLength)
    (h : addToProblem p routine = (p', none)) :
    Inv lo hi p' ∧ ∀ x, Covered p x → Covered p' x := by
  cases hfl : routine.floating with
  | true =>
    rw [addToProblem_floating hfl] at h
    have hp : p' = { p with floatingRoutines := p.floatingRoutines ++ [routine] } :=
      (Prod.mk.inj h).1.symm
    subst hp
    refine ⟨⟨hinv.lo_nonneg, hinv.gapsSorted, hinv.fixedSorted, hinv.gapIn, hinv.fixedIn,
      hinv.gapGap, hinv.fixedFixed, hinv.gapFixed, ?_⟩, fun x hx => hx⟩
    intro r hr
    rcases List.mem_append.mp hr with h1 | h1
    · exact hinv.floatingPos r h1
    · simp only [List.mem_singleton] at h1
      rw [h1]; exact hn
  | false =>
    obtain ⟨⟨a, len⟩, hg, h1, h2, h3⟩ := addToProblem_fixed_success hfl h
    simp only at h1 h2 h3
    obtain ⟨q, hq, hgs, hfs, hgm, hfm, -, hfloat⟩ :=
      addToProblem_fixed_spec hinv hfl hn hg h1 h3
    have hp : q = p' := by
      rw [hq] at h
      exact (Prod.mk.inj h).1
    subst hp
    refine ⟨hinv.carve hg hn h1 h3 hfs hgs (fun e he => (hfm e).mp he)
      (fun g hg' => (hgm g).mp hg') (fun x hx => hfloat ▸ hx), ?_⟩
    intro x hx
    refine Covered.afterCarve h1 h3 (fun e he => (hfm e).mpr he) (fun g hg' => (hgm g).mpr hg') ?_ hx
    intro g hg' hk
    exact keysSorted_unique hinv.gapsSorted hg' hg hk

theorem create_ok {lo hi : Int} {p : BinningProblem} (h : BinningProblem.create lo hi = .ok p) :
    0 ≤ lo ∧ lo ≤ hi ∧ hi ≤ 0xFFFF ∧ p = ⟨[], [(lo, hi - lo + 1)], []⟩ := by
  unfold BinningProblem.create at h
  split at h
  · cases h
  · rename_i hc
    simp only [not_or, not_lt] at hc
    cases h
    exact ⟨by omega, by omega, by omega, rfl⟩

/-- A built ledger satisfies the layout invariant and covers the whole range. -/
theorem Built.wellFormed {lo hi : Int} {p : BinningProblem} (h : Built lo hi p) :
    Inv lo hi p ∧ ∀ x, lo ≤ x → x ≤ hi → Covered p x := by
  induction h with
  | create hc =>
    obtain ⟨h0, h1, -, rfl⟩ := create_ok hc
    refine ⟨⟨h0, by simp [KeysSorted], by simp [KeysSorted], ?_, by simp, ?_, by simp, by simp,
      by simp⟩, ?_⟩
    · intro g hg
      simp only [List.mem_singleton] at hg
      subst hg
      simp only
      omega
    · intro g1 h1' g2 h2' hlt
      simp only [List.mem_singleton] at h1' h2'
      subst h1' h2'
      simp at hlt
    · intro x hx1 hx2
      exact Or.inl ⟨(lo, hi - lo + 1), by simp, by unfold gapHolds; simp only; omega⟩
  | add _ hn hadd ih =>
    obtain ⟨hinv, hcov⟩ := addToProblem_inv ih.1 hn hadd
    exact ⟨hinv, fun x h1 h2 => hcov x (ih.2 x h1 h2)⟩

/-! ## Steps of the solver -/

theorem Step.refl (p : BinningProblem) : Step p p :=
  ⟨Nat.le_refl _, fun _ h => h, fun h => h, fun _ => List.Perm.refl _⟩

theorem Step.trans {p q r : BinningProblem} (h1 : Step p q) (h2 : Step q r) : Step p r :=
  ⟨Nat.le_trans h2.gapsLength h1.gapsLength, fun e he => h2.keep e (h1.keep e he),
    fun h => h2.nodup (h1.nodup h), fun h => (h2.perm (h1.nodup h)).trans (h1.perm h)⟩

/-! ## `performObviousSteps` -/

theorem countMatchingGaps_foldl (routineSize : Int) (gaps : List (Int × Int)) (acc : Nat × Int) :
    (gaps.foldl (fun acc gap => if gap.2 ≥ routineSize then (acc.1 + 1, gap.1) else acc) acc).1
        = acc.1 + (gaps.filter (fun g => decide (g.2 ≥ routineSize))).length ∧
      (((gaps.filter (fun g => decide (g.2 ≥ routineSize))).length = 0 ∧
          (gaps.foldl (fun acc gap => if gap.2 ≥ routineSize then (acc.1 + 1, gap.1) else acc)
            acc).2 = acc.2) ∨
        ∃ len, ((gaps.foldl
            (fun acc gap => if gap.2 ≥ routineSize then (acc.1 + 1, gap.1) else acc) acc).2,
            len) ∈ gaps ∧ routineSize ≤ len) := by
  induction gaps generalizing acc with
  | nil => simp
  | cons g t ih =>
    simp only [List.foldl_cons]
    by_cases hg : g.2 ≥ routineSize
    · obtain ⟨h1, h2⟩ := ih (acc.1 + 1, g.1)
      simp only [hg, if_true, List.filter_cons, decide_True, List.length_cons] at h1 h2 ⊢
      refine ⟨by omega, Or.inr ?_⟩
      rcases h2 with ⟨-, h⟩ | ⟨len, h, hl⟩
      · exact ⟨g.2, by rw [h]; exact List.mem_cons_self _ _, hg⟩
      · exact ⟨len, List.mem_cons_of_mem _ h, hl⟩
    · obtain ⟨h1, h2⟩ := ih acc
      simp only [hg, if_false, List.filter_cons, decide_False] at h1 h2 ⊢
      refine ⟨h1, ?_⟩
      rcases h2 with h | ⟨len, h, hl⟩
      · exact Or.inl (by simpa using h)
      · exact Or.inr ⟨len, List.mem_cons_of_mem _ h, hl⟩

/-- When one gap matches, `gapAddress` is the address of a gap large enough. -/
theorem countMatchingGaps_one {gaps : List (Int × Int)} {routineSize : Int}
    (h : (countMatchingGaps gaps routineSize).1 = 1) :
    ∃ len, ((countMatchingGaps gaps routineSize).2, len) ∈ gaps ∧ routineSize ≤ len := by
  obtain ⟨h1, h2⟩ := countMatchingGaps_foldl routineSize gaps (0, 0)
  unfold countMatchingGaps at h ⊢
  rcases h2 with ⟨h0, -⟩ | h2
  · rw [h1, h0] at h
    simp at h
  · exact h2

/-- One forced placement: the ledger after the body of the `while` of
`performObviousSteps` has run with `back` at the end of the pool and `(a, len)`
the gap it is forced into. -/
theorem forced_step {lo hi : Int} {fixedRoutines : List (Int × SourceFile)}
    {gaps : List (Int × Int)} {rest : List SourceFile} {back : SourceFile}
    (hinv : Inv lo hi ⟨fixedRoutines, gaps, (back :: rest).reverse⟩) {a len : Int}
    (hg : (a, len) ∈ gaps) (hlen : back.codeLength ≤ len) :
    let gaps1 := mapAssign gaps a (mapAt gaps a - back.codeLength)
    let q : BinningProblem :=
      ⟨mapAssign fixedRoutines (a + mapAt gaps1 a) back,
        if mapAt gaps1 a = 0 then mapErase gaps1 a else gaps1, rest.reverse⟩
    Inv lo hi q ∧ Step ⟨fixedRoutines, gaps, (back :: rest).reverse⟩ q ∧
      (∀ x, Covered ⟨fixedRoutines, gaps, (back :: rest).reverse⟩ x → Covered q x) := by
  intro gaps1 q
  have hn : 0 < back.codeLength := hinv.floatingPos back (by simp)
  have hgs : KeysSorted gaps := hinv.gapsSorted
  have hat : mapAt gaps a = len := mapAt_of_mem hgs hg
  have hgs1 : KeysSorted gaps1 := keysSorted_mapAssign hgs _ _
  have hm1 : (a, len - back.codeLength) ∈ gaps1 := by
    rw [mem_mapAssign hgs, hat]; exact Or.inl rfl
  have hat1 : mapAt gaps1 a = len - back.codeLength := mapAt_of_mem hgs1 hm1
  have hfree := hinv.key_free (t := a + (len - back.codeLength)) hg (by omega) (by omega)
  have hqf : q.fixedRoutines = mapAssign fixedRoutines (a + (len - back.codeLength)) back := by
    show mapAssign fixedRoutines (a + mapAt gaps1 a) back = _
    rw [hat1]
  have hqg : q.gaps = if len - back.codeLength = 0 then mapErase gaps1 a else gaps1 := by
    show (if mapAt gaps1 a = 0 then mapErase gaps1 a else gaps1) = _
    rw [hat1]
  have hgm : ∀ g, g ∈ q.gaps ↔ (g ∈ gaps ∧ g.1 ≠ a) ∨
      (a < a + (len - back.codeLength) ∧ g = (a, a + (len - back.codeLength) - a)) ∨
      (0 < a + len - (a + (len - back.codeLength) + back.codeLength) ∧
        g = (a + (len - back.codeLength) + back.codeLength,
          a + len - (a + (len - back.codeLength) + back.codeLength))) := by
    intro g
    have e1 : a + (len - back.codeLength) - a = len - back.codeLength := by omega
    rw [hqg, e1]
    by_cases h0 : len - back.codeLength = 0
    · rw [if_pos h0, mem_mapErase, mem_mapAssign hgs, hat]
      constructor
      · rintro ⟨h | h, hne⟩
        · rw [h] at hne; exact absurd rfl hne
        · exact Or.inl h
      · rintro (h | ⟨h, _⟩ | ⟨h, _⟩)
        · exact ⟨Or.inr h, h.2⟩
        · omega
        · omega
    · rw [if_neg h0, mem_mapAssign hgs, hat]
      constructor
      · rintro (h | h)
        · exact Or.inr (Or.inl ⟨by omega, h⟩)
        · exact Or.inl h
      · rintro (h | ⟨_, h⟩ | ⟨h, _⟩)
        · exact Or.inr h
        · exact Or.inl h
        · omega
  have hfm : ∀ e, e ∈ q.fixedRoutines ↔
      e = (a + (len - back.codeLength), back) ∨ e ∈ fixedRoutines := by
    intro e
    rw [hqf, mem_mapAssign hinv.fixedSorted]
    constructor
    · rintro (h | ⟨h, _⟩)
      · exact Or.inl h
      · exact Or.inr h
    · rintro (h | h)
      · exact Or.inl h
      · exact Or.inr ⟨h, hfree e h⟩
  have hqs : KeysSorted q.gaps := by
    rw [hqg]
    split
    · exact keysSorted_mapErase hgs1 _
    · exact hgs1
  have hqfs : KeysSorted q.fixedRoutines := by
    rw [hqf]; exact keysSorted_mapAssign hinv.fixedSorted _ _
  refine ⟨hinv.carve hg hn (by omega) (by omega) hqfs hqs (fun e he => (hfm e).mp he)
    (fun g hg' => (hgm g).mp hg') ?_, ⟨?_, ?_, ?_, ?_⟩, ?_⟩
  · intro x hx
    show x ∈ (back :: rest).reverse
    have : x ∈ rest.reverse := hx
    simp only [List.mem_reverse] at this ⊢
    exact List.mem_cons_of_mem _ this
  · rw [hqg]
    have hl : gaps1.length = gaps.length := length_mapAssign_of_mem hgs hg _
    split
    · exact Nat.le_trans (length_mapErase_le _ _) (Nat.le_of_eq hl)
    · exact Nat.le_of_eq hl
  · exact fun e he => (hfm e).mpr (Or.inr he)
  · intro hnd
    have : (back :: rest).reverse.Nodup := hnd
    rw [List.nodup_reverse] at this
    show rest.reverse.Nodup
    rw [List.nodup_reverse]
    exact (List.nodup_cons.mp this).2
  · intro _
    show (q.fixedRoutines.map Prod.snd ++ rest.reverse).Perm
      (fixedRoutines.map Prod.snd ++ (back :: rest).reverse)
    rw [hqf]
    have h1 := (mapAssign_perm (a + (len - back.codeLength)) back hfree).map Prod.snd
    simp only [List.map_cons] at h1
    refine (List.Perm.append_right _ h1).trans ?_
    simp only [List.reverse_cons, List.cons_append]
    rw [← List.append_assoc]
    exact (List.perm_append_singleton _ _).symm.trans (List.Perm.refl _)
  · intro x hx
    refine Covered.afterCarve (p := ⟨fixedRoutines, gaps, (back :: rest).reverse⟩) (r := back)
      (by omega) (by omega) (fun e he => (hfm e).mpr he) (fun g hg' => (hgm g).mpr hg') ?_ hx
    intro g hg' hk
    exact keysSorted_unique hgs hg' hg hk

theorem performObviousStepsLoop_spec {lo hi : Int} :
    ∀ (rev : List SourceFile) (gaps : List (Int × Int))
      (fixedRoutines : List (Int × SourceFile)),
      Inv lo hi ⟨fixedRoutines, gaps, rev.reverse⟩ →
      Inv lo hi (performObviousStepsLoop rev gaps fixedRoutines) ∧
      Step ⟨fixedRoutines, gaps, rev.reverse⟩ (performObviousStepsLoop rev gaps fixedRoutines) ∧
      ∀ x, Covered ⟨fixedRoutines, gaps, rev.reverse⟩ x →
        Covered (performObviousStepsLoop rev gaps fixedRoutines) x := by
  intro rev
  induction rev with
  | nil =>
    intro gaps fixedRoutines hinv
    exact ⟨hinv, Step.refl _, fun _ h => h⟩
  | cons back rest ih =>
    intro gaps fixedRoutines hinv
    unfold performObviousStepsLoop
    by_cases he : gaps.isEmpty = true
    · rw [if_pos he]
      exact ⟨hinv, Step.refl _, fun _ h => h⟩
    · rw [if_neg he]
      simp only
      by_cases h1 : (countMatchingGaps gaps back.codeLength).1 = 1
      · rw [if_pos h1]
        obtain ⟨len, hg, hlen⟩ := countMatchingGaps_one h1
        obtain ⟨hq, hstep, hcov⟩ := forced_step hinv hg hlen
        obtain ⟨i1, i2, i3⟩ := ih _ _ hq
        exact ⟨i1, hstep.trans i2, fun x hx => i3 x (hcov x hx)⟩
      · rw [if_neg h1]
        exact ⟨hinv, Step.refl _, fun _ h => h⟩

/-- `performObviousSteps` keeps the layout invariant, is a step of the solver
and keeps every covered address covered. -/
theorem performObviousSteps_spec {lo hi : Int} {p : BinningProblem} (hinv : Inv lo hi p) :
    Inv lo hi (performObviousSteps p) ∧ Step p (performObviousSteps p) ∧
      ∀ x, Covered p x → Covered (performObviousSteps p) x := by
  have hp : p = ⟨p.fixedRoutines, p.gaps, p.floatingRoutines.reverse.reverse⟩ := by
    rw [List.reverse_reverse]
  have := @performObviousStepsLoop_spec lo hi p.floatingRoutines.reverse p.gaps
    p.fixedRoutines (by rw [← hp]; exact hinv)
  rw [← hp] at this
  exact this

/-! ## `removeUselessGaps` and `sortFloatingRoutinesBySize` -/

theorem removeUselessGapsLoop_sublist (minUsefulSize : Int) :
    ∀ (fuel : Nat) (gaps : List (Int × Int)),
      (removeUselessGapsLoop minUsefulSize fuel gaps).Sublist gaps := by
  intro fuel
  induction fuel with
  | zero => intro gaps; exact List.Sublist.refl _
  | succ fuel ih =>
    intro gaps
    unfold removeUselessGapsLoop
    split
    · exact List.Sublist.refl _
    · exact (ih _).trans (List.filter_sublist _)

theorem removeUselessGaps_ok {p p' : BinningProblem} (h : removeUselessGaps p = .ok p') :
    p.floatingRoutines ≠ [] ∧ p'.fixedRoutines = p.fixedRoutines ∧
      p'.floatingRoutines = p.floatingRoutines ∧ p'.gaps.Sublist p.gaps := by
  unfold removeUselessGaps at h
  split at h
  · cases h
  · rename_i first tl hfl
    cases h
    exact ⟨by simp [hfl], rfl, rfl, removeUselessGapsLoop_sublist _ _ _⟩

/-- `removeUselessGaps` keeps the layout invariant and is a step of the solver. -/
theorem removeUselessGaps_spec {lo hi : Int} {p p' : BinningProblem} (hinv : Inv lo hi p)
    (h : removeUselessGaps p = .ok p') : Inv lo hi p' ∧ Step p p' := by
  obtain ⟨-, hf, hp, hs⟩ := removeUselessGaps_ok h
  refine ⟨hinv.shrink (List.Pairwise.sublist hs hinv.gapsSorted) (fun g hg => hs.subset hg) hf
    (fun x hx => hp ▸ hx), ⟨hs.length_le, fun e he => hf ▸ he, fun hn => hp ▸ hn, ?_⟩⟩
  intro _
  rw [hf, hp]

/-- `sortFloatingRoutinesBySize` keeps the layout invariant and is a step of
the solver. -/
theorem sortFloatingRoutinesBySize_spec {lo hi : Int} {p : BinningProblem}
    (hinv : Inv lo hi p) :
    Inv lo hi (sortFloatingRoutinesBySize p) ∧ Step p (sortFloatingRoutinesBySize p) := by
  have hperm : (sortFloatingRoutinesBySize p).floatingRoutines.Perm p.floatingRoutines :=
    List.perm_insertionSort _ _
  refine ⟨hinv.shrink hinv.gapsSorted (fun g hg => hg) rfl (fun x hx => hperm.subset hx),
    ⟨Nat.le_refl _, fun e he => he, fun hn => hperm.nodup_iff.mpr hn, ?_⟩⟩
  intro _
  exact List.Perm.append_left _ hperm

/-! ## `selectGapToFill` -/

theorem selectGapToFill_foldl (gaps : List (Int × Int)) (acc : Int × Int) :
    gaps.foldl (fun (acc : Int × Int) gap =>
        if acc.2 < 0 ∨ gap.2 < acc.2 then (gap.1, gap.2) else acc) acc = acc ∨
      gaps.foldl (fun (acc : Int × Int) gap =>
        if acc.2 < 0 ∨ gap.2 < acc.2 then (gap.1, gap.2) else acc) acc ∈ gaps := by
  induction gaps generalizing acc with
  | nil => simp
  | cons g t ih =>
    simp only [List.foldl_cons]
    by_cases hc : acc.2 < 0 ∨ g.2 < acc.2
    · rw [if_pos hc]
      rcases ih (g.1, g.2) with h | h
      · right; rw [h]; exact List.mem_cons_self _ _
      · right; exact List.mem_cons_of_mem _ h
    · rw [if_neg hc]
      rcases ih acc with h | h
      · left; exact h
      · right; exact List.mem_cons_of_mem _ h

/-- With a gap present, `selectGapToFill` returns the address of a gap. -/
theorem selectGapToFill_mem {p : BinningProblem} (hne : p.gaps ≠ []) :
    ∃ len, (selectGapToFill p, len) ∈ p.gaps := by
  unfold selectGapToFill
  cases hg : p.gaps with
  | nil => exact absurd hg hne
  | cons g t =>
    simp only [List.foldl_cons]
    rw [if_pos (Or.inl (by decide))]
    rcases selectGapToFill_foldl t (g.1, g.2) with h | h
    · rw [h]; exact ⟨g.2, List.mem_cons_self _ _⟩
    · exact ⟨_, List.mem_cons_of_mem _ h⟩

/-! ## `fillGap` -/

theorem mem_virtualGaps {lo hi : Int} {p : BinningProblem} (hinv : Inv lo hi p) {g L : Int}
    (hg : (g, L) ∈ p.gaps) {off : Int} (hoff : 0 ≤ off) :
    KeysSorted (virtualGaps p.gaps g L off) ∧
      ∀ x, x ∈ virtualGaps p.gaps g L off ↔
        (x ∈ p.gaps ∧ x.1 ≠ g) ∨ (0 < L - off ∧ x = (g + off, L - off)) := by
  have hs := keysSorted_mapErase hinv.gapsSorted g
  unfold virtualGaps
  by_cases h : 0 < L - off
  · rw [if_pos h]
    refine ⟨keysSorted_mapAssign hs _ _, ?_⟩
    intro x
    rw [mem_mapAssign hs, mem_mapErase]
    constructor
    · rintro (h1 | ⟨h1, _⟩)
      · exact Or.inr ⟨h, h1⟩
      · exact Or.inl h1
    · rintro (h1 | ⟨_, h1⟩)
      · refine Or.inr ⟨h1, ?_⟩
        by_cases h0 : off = 0
        · rw [h0]; simpa using h1.2
        · exact hinv.gap_key_free hg (by omega) (by omega) x h1.1
      · exact Or.inl h1
  · rw [if_neg h]
    refine ⟨hs, ?_⟩
    intro x
    rw [mem_mapErase]
    constructor
    · exact fun h1 => Or.inl h1
    · rintro (h1 | ⟨h1, _⟩)
      · exact h1
      · exact absurd h1 h

theorem totalSize_cons (r : SourceFile) (rs : List SourceFile) :
    totalSize (r :: rs) = r.codeLength + totalSize rs := by
  simp [totalSize]

theorem fillGapLoop_spec {lo hi : Int} {p : BinningProblem} (hinv0 : Inv lo hi p) {g L : Int}
    (hg : (g, L) ∈ p.gaps) :
    ∀ (rs : List SourceFile) (off : Int) (F : List (Int × SourceFile)) (P : List SourceFile),
      0 ≤ off → off + totalSize rs ≤ L → (∀ r ∈ rs, 0 < r.codeLength) →
      Inv lo hi ⟨F, virtualGaps p.gaps g L off, P⟩ →
      ∃ off' F' P', fillGapLoop g L rs off F P = .ok (off', F', P') ∧ 0 ≤ off' ∧
        Inv lo hi ⟨F', virtualGaps p.gaps g L off', P'⟩ ∧
        (∀ e ∈ F, e ∈ F') ∧
        P' = P.filter (fun x => decide (x ∉ rs)) ∧
        (rs.Nodup → (∀ r ∈ rs, r ∈ P) → P.Nodup →
          (F'.map Prod.snd ++ P').Perm (F.map Prod.snd ++ P)) := by
  intro rs
  induction rs with
  | nil =>
    intro off F P h0 _ _ hinv
    exact ⟨off, F, P, rfl, h0, hinv, fun _ h => h, by simp, fun _ _ _ => List.Perm.refl _⟩
  | cons r rest ih =>
    intro off F P h0 htot hpos hinv
    have hn : 0 < r.codeLength := hpos r (List.mem_cons_self _ _)
    have hrest : 0 ≤ totalSize rest :=
      totalSize_nonneg (fun x hx => hpos x (List.mem_cons_of_mem _ hx))
    rw [totalSize_cons] at htot
    obtain ⟨hvs, hvm⟩ := mem_virtualGaps hinv0 hg h0
    obtain ⟨hvs1, hvm1⟩ := mem_virtualGaps hinv0 hg (show 0 ≤ off + r.codeLength by omega)
    have hcur : (g + off, L - off) ∈ virtualGaps p.gaps g L off :=
      (hvm _).mpr (Or.inr ⟨by omega, rfl⟩)
    have hfree := hinv.key_free hcur (Int.le_refl _) (by omega)
    have hFs : KeysSorted F := hinv.fixedSorted
    have hq : Inv lo hi ⟨mapAssign F (g + off) r,
        virtualGaps p.gaps g L (off + r.codeLength),
        P.filter (fun x => decide (x ≠ r))⟩ := by
      refine hinv.carve hcur hn (Int.le_refl _) (by omega)
        (keysSorted_mapAssign hFs _ _) hvs1 ?_ ?_ ?_
      · intro e he
        rcases (mem_mapAssign hFs _ _ e).mp he with h | ⟨h, _⟩
        · exact Or.inl h
        · exact Or.inr h
      · intro x hx
        rcases (hvm1 x).mp hx with h | ⟨h, hxe⟩
        · refine Or.inl ⟨(hvm x).mpr (Or.inl h), ?_⟩
          by_cases ho : off = 0
          · rw [ho]; simpa using h.2
          · exact hinv0.gap_key_free hg (by omega) (by omega) x h.1
        · refine Or.inr (Or.inr ⟨by omega, ?_⟩)
          rw [hxe]
          exact Prod.ext (by simp only; omega) (by simp only; omega)
      · intro x hx
        exact (List.mem_filter.mp hx).1
    obtain ⟨off', F', P', hloop, h0', hinv', hkeep, hP', hperm⟩ :=
      ih (off + r.codeLength) _ _ (by omega) (by omega)
        (fun x hx => hpos x (List.mem_cons_of_mem _ hx)) hq
    refine ⟨off', F', P', ?_, h0', hinv', ?_, ?_, ?_⟩
    · unfold fillGapLoop
      simp only
      rw [if_neg (by omega)]
      exact hloop
    · intro e he
      exact hkeep e ((mem_mapAssign hFs _ _ e).mpr (Or.inr ⟨he, hfree e he⟩))
    · rw [hP', List.filter_filter]
      congr 1
      funext x
      by_cases hx : x = r <;> simp [hx]
    · intro hnd hmem hPnd
      have hnd' := List.nodup_cons.mp hnd
      have h1 := hperm hnd'.2
        (fun x hx => List.mem_filter.mpr ⟨hmem x (List.mem_cons_of_mem _ hx), by
          simp only [ne_eq, decide_not, Bool.not_eq_true', decide_eq_false_iff_not]
          rintro rfl
          exact hnd'.1 hx⟩)
        (hPnd.filter _)
      refine h1.trans ?_
      have h2 := (mapAssign_perm (g + off) r hfree).map Prod.snd
      simp only [List.map_cons] at h2
      have h3 : (r :: P.filter (fun x => decide (x ≠ r))).Perm P := by
        have := List.perm_cons_erase (hmem r (List.mem_cons_self _ _))
        rw [hPnd.erase_eq_filter] at this
        have e : (fun x => decide (x ≠ r)) = (fun x => x != r) := by
          funext x
          by_cases hx : x = r <;> simp [hx]
        rw [e]
        exact this.symm
      refine (List.Perm.append_right _ h2).trans ?_
      simp only [List.cons_append]
      exact (List.perm_middle.symm).trans (List.Perm.append_left _ h3)

/-- `fillGap` on a gap of the ledger and routines of the pool that fit into
it: it succeeds, keeps the layout invariant, is a step of the solver and
erases the gap. -/
theorem fillGap_spec {lo hi : Int} {p : BinningProblem} (hinv : Inv lo hi p) {g L : Int}
    (hg : (g, L) ∈ p.gaps) {rs : List SourceFile} (hsub : rs.Sublist p.floatingRoutines)
    (htot : totalSize rs ≤ L) :
    ∃ p', fillGap p g rs = .ok p' ∧ Inv lo hi p' ∧ Step p p' ∧
      p'.gaps = mapErase p.gaps g ∧ p'.gaps.length < p.gaps.length ∧
      p'.floatingRoutines = p.floatingRoutines.filter (fun x => decide (x ∉ rs)) := by
  have hpos : ∀ r ∈ rs, 0 < r.codeLength := fun r hr => hinv.floatingPos r (hsub.subset hr)
  obtain ⟨hvs, hvm⟩ := mem_virtualGaps hinv hg (Int.le_refl 0)
  have hstart : Inv lo hi ⟨p.fixedRoutines, virtualGaps p.gaps g L 0, p.floatingRoutines⟩ := by
    refine hinv.shrink hvs ?_ rfl (fun x hx => hx)
    intro x hx
    rcases (hvm x).mp hx with h | ⟨_, h⟩
    · exact h.1
    · rw [h]; simpa using hg
  obtain ⟨off', F', P', hloop, h0', hinv', hkeep, hP', hperm⟩ :=
    fillGapLoop_spec hinv hg rs 0 p.fixedRoutines p.floatingRoutines (Int.le_refl 0)
      (by omega) hpos hstart
  obtain ⟨-, hvm'⟩ := mem_virtualGaps hinv hg h0'
  have hlen : (mapErase p.gaps g).length < p.gaps.length :=
    length_mapErase_lt (e := (g, L)) hg
  refine ⟨⟨F', mapErase p.gaps g, P'⟩, ?_, ?_, ⟨Nat.le_of_lt hlen, hkeep, ?_, ?_⟩, rfl, hlen, hP'⟩
  · unfold fillGap
    rw [mapAt_of_mem hinv.gapsSorted hg, hloop]
  · refine hinv'.shrink (keysSorted_mapErase hinv.gapsSorted g) ?_ rfl (fun x hx => hx)
    intro x hx
    exact (hvm' x).mpr (Or.inl ((mem_mapErase _ _ _).mp hx))
  · intro hnd
    show P'.Nodup
    rw [hP']
    exact hnd.filter _
  · intro hnd
    exact hperm (hnd.sublist hsub) (fun r hr => hsub.subset hr) hnd

/-- The `fillGap` that `Solver::run` issues: on the gap of `selectGapToFill`
with the selection of `findPartialSolution`. -/
theorem solver_fill_spec {lo hi : Int} {p : BinningProblem} (hinv : Inv lo hi p)
    (hne : p.gaps ≠ []) :
    ∃ sel p', findPartialSolution p (mapAt p.gaps (selectGapToFill p)) = .ok sel ∧
      fillGap p (selectGapToFill p) sel = .ok p' ∧ Inv lo hi p' ∧ Step p p' ∧
      p'.gaps.length < p.gaps.length := by
  obtain ⟨len, hg⟩ := selectGapToFill_mem hne
  have hat := mapAt_of_mem hinv.gapsSorted hg
  have hlen := (hinv.gapIn _ hg).1
  simp only at hlen
  obtain ⟨sel, h1, h2, h3, -⟩ :=
    findPartialSolution_spec p len hinv.floatingPos (by omega)
  obtain ⟨p', h4, h5, h6, -, h7, -⟩ :=
    fillGap_spec hinv hg (h2.trans (List.takeWhile_sublist _)) h3
  rw [hat]
  exact ⟨sel, p', h1, h4, h5, h6, h7⟩

/-- Every ledger of a run satisfies the layout invariant. -/
theorem Reach.inv {lo hi : Int} {p : BinningProblem} (h : Reach lo hi p) : Inv lo hi p := by
  induction h with
  | built hb => exact hb.wellFormed.1
  | sort _ ih => exact (sortFloatingRoutinesBySize_spec ih).1
  | obvious _ ih => exact (performObviousSteps_spec ih).1
  | useless _ hu ih => exact (removeUselessGaps_spec ih hu).1
  | fill _ hne hf hfill ih =>
    obtain ⟨sel, p', h1, h2, h3, -, -⟩ := solver_fill_spec ih hne
    rw [h1] at hf
    cases hf
    rw [h2] at hfill
    cases hfill
    exact h3

/-! ## Building a ledger -/

theorem addAll_built {lo hi : Int} :
    ∀ (routines : List SourceFile) (p p' : BinningProblem), Built lo hi p →
      (∀ r ∈ routines, 0 < r.codeLength) → addAll p routines = .ok p' → Built lo hi p' := by
  intro routines
  induction routines with
  | nil =>
    intro p p' hb _ h
    simp only [addAll] at h
    cases h
    exact hb
  | cons r rest ih =>
    intro p p' hb hpos h
    unfold addAll at h
    cases hadd : addToProblem p r with
    | mk q o =>
      cases o with
      | none =>
        simp only [hadd] at h
        exact ih q p' (Built.add hb (hpos r (List.mem_cons_self _ _)) hadd)
          (fun x hx => hpos x (List.mem_cons_of_mem _ hx)) h
      | some e => simp [hadd] at h

/-- The ledger of `prepareBinningProblem` on routines of positive size is a
built ledger. -/
theorem prepareBinningProblem_built {lo hi : Int} {sourceFiles : List SourceFile}
    {p : BinningProblem} (hpos : ∀ r ∈ sourceFiles, 0 < r.codeLength)
    (h : prepareBinningProblem lo hi sourceFiles = .ok p) : Built lo hi p := by
  unfold prepareBinningProblem at h
  cases hc : BinningProblem.create lo hi with
  | error e => simp [hc] at h
  | ok q =>
    simp only [hc] at h
    exact addAll_built sourceFiles q p (Built.create hc) hpos h

/-! ## Layout of the reachable ledgers (C3) -/

/-- C3: in every ledger reachable from a valid `BinningProblem(lo, hi)` by
successful `addToProblem` calls on routines of positive size and then by the
operations of `Solver::run`, the intervals `[addr, addr + size)` of the entries
of `fixedRoutines` are pairwise disjoint, are disjoint from every gap interval
and lie inside `[lo, hi]`; every gap has positive length and the gaps are
pairwise disjoint. -/
theorem reachable_layout {lo hi : Int} {p : BinningProblem} (h : Reach lo hi p) :
    p.fixedRoutines.Pairwise
        (fun e1 e2 => ∀ x, ¬ (placementHolds e1 x ∧ placementHolds e2 x)) ∧
      (∀ e ∈ p.fixedRoutines, ∀ g ∈ p.gaps, ∀ x, ¬ (placementHolds e x ∧ gapHolds g x)) ∧
      (∀ e ∈ p.fixedRoutines, ∀ x, placementHolds e x → lo ≤ x ∧ x ≤ hi) ∧
      (∀ g ∈ p.gaps, 0 < g.2) ∧
      p.gaps.Pairwise (fun g1 g2 => ∀ x, ¬ (gapHolds g1 x ∧ gapHolds g2 x)) := by
  have hinv := h.inv
  refine ⟨?_, ?_, ?_, fun g hg => (hinv.gapIn g hg).1, ?_⟩
  · refine List.Pairwise.imp_of_mem ?_ hinv.fixedSorted
    intro e1 e2 h1 h2 hlt x ⟨hx1, hx2⟩
    have := hinv.fixedFixed e1 h1 e2 h2 hlt
    unfold placementHolds at hx1 hx2
    omega
  · intro e he g hg x ⟨hx1, hx2⟩
    have := hinv.gapFixed g hg e he
    unfold placementHolds at hx1
    unfold gapHolds at hx2
    omega
  · intro e he x hx
    have := hinv.fixedIn e he
    unfold placementHolds at hx
    omega
  · refine List.Pairwise.imp_of_mem ?_ hinv.gapsSorted
    intro g1 g2 h1 h2 hlt x ⟨hx1, hx2⟩
    have := hinv.gapGap g1 h1 g2 h2 hlt
    unfold gapHolds at hx1 hx2
    omega

/-- C3 at the ledger for `0 .. 6` with a fixed routine at 3 and floating
routines of sizes 1 and 2, after the first pass of the solver has filled the
gap at 0. -/
theorem reachable_layout_witness :
    Reach 0 6 ⟨[(0, floatingOf 1 1), (1, floatingOf 2 2), (3, fixedAt 0 3 1)], [(4, 3)], []⟩ ∧
      (([(0, floatingOf 1 1), (1, floatingOf 2 2), (3, fixedAt 0 3 1)] :
          List (Int × SourceFile)).Pairwise
        (fun e1 e2 => ∀ x, ¬ (placementHolds e1 x ∧ placementHolds e2 x)) ∧
      (∀ e ∈ ([(0, floatingOf 1 1), (1, floatingOf 2 2), (3, fixedAt 0 3 1)] :
          List (Int × SourceFile)), ∀ g ∈ ([(4, 3)] : List (Int × Int)), ∀ x,
        ¬ (placementHolds e x ∧ gapHolds g x)) ∧
      (∀ e ∈ ([(0, floatingOf 1 1), (1, floatingOf 2 2), (3, fixedAt 0 3 1)] :
          List (Int × SourceFile)), ∀ x, placementHolds e x → (0 : Int) ≤ x ∧ x ≤ 6) ∧
      (∀ g ∈ ([(4, 3)] : List (Int × Int)), 0 < g.2) ∧
      ([(4, 3)] : List (Int × Int)).Pairwise
        (fun g1 g2 => ∀ x, ¬ (gapHolds g1 x ∧ gapHolds g2 x))) :=
  have hb : Built 0 6 ⟨[(3, fixedAt 0 3 1)], [(0, 3), (4, 3)], [floatingOf 1 1, floatingOf 2 2]⟩ :=
    @prepareBinningProblem_built 0 6 [fixedAt 0 3 1, floatingOf 1 1, floatingOf 2 2] _
      (by decide) rfl
  have hr : Reach 0 6
      ⟨[(0, floatingOf 1 1), (1, floatingOf 2 2), (3, fixedAt 0 3 1)], [(4, 3)], []⟩ :=
    @Reach.fill 0 6
      ⟨[(3, fixedAt 0 3 1)], [(0, 3), (4, 3)], [floatingOf 1 1, floatingOf 2 2]⟩ _
      [floatingOf 1 1, floatingOf 2 2]
      (Reach.useless (Reach.obvious (Reach.sort (Reach.built hb))) rfl)
      (by decide) rfl rfl
  ⟨hr, reachable_layout hr⟩

/-! ## Coverage of the range (C4) -/

theorem filter_length_le_one {α : Type} (P : α → Bool) (R : α → α → Prop) (l : List α)
    (hp : l.Pairwise R) (hex : ∀ a b, R a b → ¬ (P a = true ∧ P b = true)) :
    (l.filter P).length ≤ 1 := by
  induction l with
  | nil => simp
  | cons a t ih =>
    have hp' := List.pairwise_cons.mp hp
    by_cases ha : P a = true
    · have ht : t.filter P = [] := by
        rw [List.filter_eq_nil_iff]
        intro b hb hPb
        exact hex a b (hp'.1 b hb) ⟨ha, hPb⟩
      simp [List.filter_cons, ha, ht]
    · simpa [List.filter_cons, ha] using ih hp'.2

/-- In a well-formed ledger an address lies in at most one gap or placed
routine, and only addresses of the range lie in one. -/
theorem Inv.occupancy_le_one {lo hi : Int} {p : BinningProblem} (hinv : Inv lo hi p) (x : Int) :
    occupancy p x ≤ 1 ∧ (occupancy p x = 1 → lo ≤ x ∧ x ≤ hi) := by
  have hg : (p.gaps.filter (fun g => decide (g.1 ≤ x ∧ x < g.1 + g.2))).length ≤ 1 := by
    refine filter_length_le_one _ (fun g1 g2 => g1.1 + g1.2 ≤ g2.1) _ ?_ ?_
    · exact List.Pairwise.imp_of_mem (fun h1 h2 hlt => hinv.gapGap _ h1 _ h2 hlt) hinv.gapsSorted
    · intro a b hab ⟨h1, h2⟩
      simp only [decide_eq_true_eq] at h1 h2
      omega
  have hf : (p.fixedRoutines.filter
      (fun e => decide (e.1 ≤ x ∧ x < e.1 + e.2.codeLength))).length ≤ 1 := by
    refine filter_length_le_one _ (fun e1 e2 => e1.1 + e1.2.codeLength ≤ e2.1) _ ?_ ?_
    · exact List.Pairwise.imp_of_mem (fun h1 h2 hlt => hinv.fixedFixed _ h1 _ h2 hlt)
        hinv.fixedSorted
    · intro a b hab ⟨h1, h2⟩
      simp only [decide_eq_true_eq] at h1 h2
      omega
  have hboth : 0 < (p.gaps.filter (fun g => decide (g.1 ≤ x ∧ x < g.1 + g.2))).length →
      0 < (p.fixedRoutines.filter
        (fun e => decide (e.1 ≤ x ∧ x < e.1 + e.2.codeLength))).length → False := by
    intro h1 h2
    obtain ⟨g, hgm⟩ := List.exists_mem_of_length_pos h1
    obtain ⟨e, hem⟩ := List.exists_mem_of_length_pos h2
    rw [List.mem_filter] at hgm hem
    have := hinv.gapFixed g hgm.1 e hem.1
    have hg2 := hgm.2
    have he2 := hem.2
    simp only [decide_eq_true_eq] at hg2 he2
    omega
  unfold occupancy
  refine ⟨?_, ?_⟩
  · by_contra hcon
    exact hboth (by omega) (by omega)
  · intro h1
    by_cases h0 : 0 < (p.gaps.filter (fun g => decide (g.1 ≤ x ∧ x < g.1 + g.2))).length
    · obtain ⟨g, hgm⟩ := List.exists_mem_of_length_pos h0
      rw [List.mem_filter] at hgm
      have := hinv.gapIn g hgm.1
      have hg2 := hgm.2
      simp only [decide_eq_true_eq] at hg2
      omega
    · have h0' : 0 < (p.fixedRoutines.filter
          (fun e => decide (e.1 ≤ x ∧ x < e.1 + e.2.codeLength))).length := by omega
      obtain ⟨e, hem⟩ := List.exists_mem_of_length_pos h0'
      rw [List.mem_filter] at hem
      have := hinv.fixedIn e hem.1
      have he2 := hem.2
      simp only [decide_eq_true_eq] at he2
      omega

theorem covered_iff_occupancy_pos (p : BinningProblem) (x : Int) :
    Covered p x ↔ 0 < occupancy p x := by
  unfold Covered occupancy gapHolds placementHolds
  constructor
  · rintro (⟨g, hg, hx⟩ | ⟨e, he, hx⟩)
    · have : g ∈ p.gaps.filter (fun g => decide (g.1 ≤ x ∧ x < g.1 + g.2)) :=
        List.mem_filter.mpr ⟨hg, by simpa using hx⟩
      have := List.length_pos_of_mem this
      omega
    · have : e ∈ p.fixedRoutines.filter
          (fun e => decide (e.1 ≤ x ∧ x < e.1 + e.2.codeLength)) :=
        List.mem_filter.mpr ⟨he, by simpa using hx⟩
      have := List.length_pos_of_mem this
      omega
  · intro h
    by_cases h0 : 0 < (p.gaps.filter (fun g => decide (g.1 ≤ x ∧ x < g.1 + g.2))).length
    · obtain ⟨g, hgm⟩ := List.exists_mem_of_length_pos h0
      rw [List.mem_filter] at hgm
      exact Or.inl ⟨g, hgm.1, by simpa using hgm.2⟩
    · have h0' : 0 < (p.fixedRoutines.filter
          (fun e => decide (e.1 ≤ x ∧ x < e.1 + e.2.codeLength))).length := by omega
      obtain ⟨e, hem⟩ := List.exists_mem_of_length_pos h0'
      rw [List.mem_filter] at hem
      exact Or.inr ⟨e, hem.1, by simpa using hem.2⟩

/-- C4, as the code has it: at every point of a run every address lies in at
most one gap or placed routine, and only addresses of `[lo, hi]` lie in one;
after construction and after each successful `addToProblem` every address of
`[lo, hi]` lies in exactly one; and `performObviousSteps` keeps that exact
partition wherever it holds before the call. -/
theorem partition_until_gaps_dropped {lo hi : Int} {p : BinningProblem} (h : Reach lo hi p) :
    (∀ x, occupancy p x ≤ 1) ∧ (∀ x, occupancy p x = 1 → lo ≤ x ∧ x ≤ hi) ∧
      (Built lo hi p → ∀ x, lo ≤ x → x ≤ hi → occupancy p x = 1) ∧
      ((∀ x, lo ≤ x → x ≤ hi → occupancy p x = 1) →
        ∀ x, lo ≤ x → x ≤ hi → occupancy (performObviousSteps p) x = 1) := by
  have hinv := h.inv
  refine ⟨fun x => (hinv.occupancy_le_one x).1, fun x => (hinv.occupancy_le_one x).2, ?_, ?_⟩
  · intro hb x h1 h2
    have hc := (covered_iff_occupancy_pos p x).mp (hb.wellFormed.2 x h1 h2)
    have := (hinv.occupancy_le_one x).1
    omega
  · intro hall x h1 h2
    obtain ⟨hinv', -, hcov⟩ := performObviousSteps_spec hinv
    have hc : Covered p x := (covered_iff_occupancy_pos p x).mpr (by rw [hall x h1 h2]; decide)
    have := (covered_iff_occupancy_pos _ x).mp (hcov x hc)
    have := (hinv'.occupancy_le_one x).1
    omega

/-- The amended C4 at the ledger for `0 .. 10` with fixed routines at 1 and 6
and two floating routines of size 2. -/
theorem partition_until_gaps_dropped_witness :
    (∀ x, occupancy ⟨[(1, fixedAt 0 1 1), (6, fixedAt 1 6 1)], [(0, 1), (2, 4), (7, 4)],
        [floatingOf 2 2, floatingOf 3 2]⟩ x ≤ 1) ∧
      (∀ x, occupancy ⟨[(1, fixedAt 0 1 1), (6, fixedAt 1 6 1)], [(0, 1), (2, 4), (7, 4)],
        [floatingOf 2 2, floatingOf 3 2]⟩ x = 1 → (0 : Int) ≤ x ∧ x ≤ 10) ∧
      (Built 0 10 ⟨[(1, fixedAt 0 1 1), (6, fixedAt 1 6 1)], [(0, 1), (2, 4), (7, 4)],
        [floatingOf 2 2, floatingOf 3 2]⟩ → ∀ x, (0 : Int) ≤ x → x ≤ 10 →
        occupancy ⟨[(1, fixedAt 0 1 1), (6, fixedAt 1 6 1)], [(0, 1), (2, 4), (7, 4)],
          [floatingOf 2 2, floatingOf 3 2]⟩ x = 1) ∧
      ((∀ x, (0 : Int) ≤ x → x ≤ 10 →
          occupancy ⟨[(1, fixedAt 0 1 1), (6, fixedAt 1 6 1)], [(0, 1), (2, 4), (7, 4)],
            [floatingOf 2 2, floatingOf 3 2]⟩ x = 1) →
        ∀ x, (0 : Int) ≤ x → x ≤ 10 →
          occupancy (performObviousSteps ⟨[(1, fixedAt 0 1 1), (6, fixedAt 1 6 1)],
            [(0, 1), (2, 4), (7, 4)], [floatingOf 2 2, floatingOf 3 2]⟩) x = 1) :=
  partition_until_gaps_dropped
    (Reach.built
      (@prepareBinningProblem_built 0 10
        [fixedAt 0 1 1, fixedAt 1 6 1, floatingOf 2 2, floatingOf 3 2] _ (by decide) rfl))

/-- C4 fails after `removeUselessGaps`: in the ledger for `0 .. 10` with fixed
routines at 1 and 6 and two floating routines of size 2, the first call of
`removeUselessGaps` in the run drops the gap at 0, and address 0 is then in no
gap and in no placed routine. -/
theorem partition_lost_after_removeUselessGaps :
    prepareBinningProblem 0 10 [fixedAt 0 1 1, fixedAt 1 6 1, floatingOf 2 2, floatingOf 3 2]
        = .ok ⟨[(1, fixedAt 0 1 1), (6, fixedAt 1 6 1)], [(0, 1), (2, 4), (7, 4)],
            [floatingOf 2 2, floatingOf 3 2]⟩ ∧
      removeUselessGaps (performObviousSteps (sortFloatingRoutinesBySize
          ⟨[(1, fixedAt 0 1 1), (6, fixedAt 1 6 1)], [(0, 1), (2, 4), (7, 4)],
            [floatingOf 2 2, floatingOf 3 2]⟩))
        = .ok ⟨[(1, fixedAt 0 1 1), (6, fixedAt 1 6 1)], [(2, 4), (7, 4)],
            [floatingOf 2 2, floatingOf 3 2]⟩ ∧
      Reach 0 10 ⟨[(1, fixedAt 0 1 1), (6, fixedAt 1 6 1)], [(2, 4), (7, 4)],
        [floatingOf 2 2, floatingOf 3 2]⟩ ∧
      occupancy ⟨[(1, fixedAt 0 1 1), (6, fixedAt 1 6 1)], [(2, 4), (7, 4)],
        [floatingOf 2 2, floatingOf 3 2]⟩ 0 = 0 :=
  ⟨rfl, rfl,
    Reach.useless (Reach.obvious (Reach.sort (Reach.built
      (@prepareBinningProblem_built 0 10
        [fixedAt 0 1 1, fixedAt 1 6 1, floatingOf 2 2, floatingOf 3 2] _ (by decide) rfl))))
      rfl,
    by decide⟩

/-! ## Registration of fixed routines (C5, C6, C7) -/

/-- C5: when `addToProblem` is called on a built ledger with a fixed routine of
start address `s` and size `n > 0`, and a gap `(a, len)` has `a ≤ s` and
`s + n ≤ a + len`, the call succeeds and the new ledger differs from the old one
only in this: the gap `(a, len)` is replaced by the left gap `(a, s - a)` if
`s > a` and the right gap `(s + n, a + len - s - n)` if that length is positive,
and `fixedRoutines` gains the entry `s ↦ routine`; the other gaps, the other
placements and the pool are unchanged. -/
theorem addToProblem_fixed_splits_gap {lo hi : Int} {p : BinningProblem} (hb : Built lo hi p)
    (routine : SourceFile) (hfl : routine.floating = false) (hn : 0 < routine.codeLength)
    {a len : Int} (hg : (a, len) ∈ p.gaps) (has : a ≤ routine.startAddr)
    (hfit : routine.startAddr + routine.codeLength ≤ a + len) :
    ∃ p', addToProblem p routine = (p', none) ∧
      (∀ g, g ∈ p'.gaps ↔ (g ∈ p.gaps ∧ g ≠ (a, len)) ∨
        (a < routine.startAddr ∧ g = (a, routine.startAddr - a)) ∨
        (0 < a + len - routine.startAddr - routine.codeLength ∧
          g = (routine.startAddr + routine.codeLength,
            a + len - routine.startAddr - routine.codeLength))) ∧
      KeysSorted p'.gaps ∧
      (∀ e ∈ p.fixedRoutines, e.1 ≠ routine.startAddr) ∧
      (∀ e, e ∈ p'.fixedRoutines ↔ e ∈ p.fixedRoutines ∨ e = (routine.startAddr, routine)) ∧
      p'.fixedRoutines.length = p.fixedRoutines.length + 1 ∧
      KeysSorted p'.fixedRoutines ∧
      p'.floatingRoutines = p.floatingRoutines := by
  have hinv := hb.wellFormed.1
  obtain ⟨p', h1, h2, h3, h4, h5, h6, h7⟩ := addToProblem_fixed_spec hinv hfl hn hg has hfit
  refine ⟨p', h1, ?_, h2, hinv.key_free hg has (by omega), ?_, ?_, h3, h7⟩
  · intro g
    rw [h4 g]
    have e1 : a + len - (routine.startAddr + routine.codeLength)
        = a + len - routine.startAddr - routine.codeLength := by omega
    rw [e1]
    have hkey : g ∈ p.gaps → (g.1 ≠ a ↔ g ≠ (a, len)) := by
      intro hgm
      constructor
      · rintro hne rfl; exact hne rfl
      · intro hne hk
        exact hne (keysSorted_unique hinv.gapsSorted hgm hg hk)
    constructor
    · rintro (⟨h, hk⟩ | h)
      · exact Or.inl ⟨h, (hkey h).mp hk⟩
      · exact Or.inr h
    · rintro (⟨h, hk⟩ | h)
      · exact Or.inl ⟨h, (hkey h).mpr hk⟩
      · exact Or.inr h
  · intro e
    rw [h5 e]
    exact Or.comm
  · simpa using h6.length_eq

/-- C5 at the fresh ledger for `0 .. 9` and a fixed routine of size 2 at 4:
the gap `(0, 10)` becomes the gaps `(0, 4)` and `(6, 4)`. -/
theorem addToProblem_fixed_splits_gap_witness :
    ∃ p', addToProblem ⟨[], [(0, 10)], []⟩ (fixedAt 0 4 2) = (p', none) ∧
      (∀ g, g ∈ p'.gaps ↔ (g ∈ ([(0, 10)] : List (Int × Int)) ∧ g ≠ (0, 10)) ∨
        ((0 : Int) < (fixedAt 0 4 2).startAddr ∧ g = (0, (fixedAt 0 4 2).startAddr - 0)) ∨
        (0 < 0 + 10 - (fixedAt 0 4 2).startAddr - (fixedAt 0 4 2).codeLength ∧
          g = ((fixedAt 0 4 2).startAddr + (fixedAt 0 4 2).codeLength,
            0 + 10 - (fixedAt 0 4 2).startAddr - (fixedAt 0 4 2).codeLength))) ∧
      KeysSorted p'.gaps ∧
      (∀ e ∈ ([] : List (Int × SourceFile)), e.1 ≠ (fixedAt 0 4 2).startAddr) ∧
      (∀ e, e ∈ p'.fixedRoutines ↔
        e ∈ ([] : List (Int × SourceFile)) ∨ e = ((fixedAt 0 4 2).startAddr, fixedAt 0 4 2)) ∧
      p'.fixedRoutines.length = ([] : List (Int × SourceFile)).length + 1 ∧
      KeysSorted p'.fixedRoutines ∧
      p'.floatingRoutines = [] :=
  addToProblem_fixed_splits_gap (Built.create (show BinningProblem.create 0 9 = _ from rfl))
    (fixedAt 0 4 2) rfl (by decide) (by decide) (by decide) (by decide)

/-- C6: on a ledger whose gaps are pairwise disjoint, `addToProblem` with a
fixed routine of start address `s` and size `n > 0` has one of three outcomes:
the overlap fault iff no gap `(a, len)` has `a ≤ s ≤ a + len - 1`; the fit fault
iff such a gap exists and `s + n > a + len`; success iff such a gap exists and
`s + n ≤ a + len`. -/
theorem addToProblem_outcomes (p : BinningProblem) (routine : SourceFile)
    (hdisj : p.gaps.Pairwise (fun g1 g2 => ∀ x, ¬ (gapHolds g1 x ∧ gapHolds g2 x)))
    (hfl : routine.floating = false) (_hn : 0 < routine.codeLength) :
    ((addToProblem p routine).2 = some .alreadyOccupied ∨
        (addToProblem p routine).2 = some .wontFit ∨ (addToProblem p routine).2 = none) ∧
      ((addToProblem p routine).2 = some .alreadyOccupied ↔
        ¬ ∃ g ∈ p.gaps, g.1 ≤ routine.startAddr ∧ routine.startAddr ≤ g.1 + g.2 - 1) ∧
      ((addToProblem p routine).2 = some .wontFit ↔
        ∃ g ∈ p.gaps, (g.1 ≤ routine.startAddr ∧ routine.startAddr ≤ g.1 + g.2 - 1) ∧
          routine.startAddr + routine.codeLength > g.1 + g.2) ∧
      ((addToProblem p routine).2 = none ↔
        ∃ g ∈ p.gaps, (g.1 ≤ routine.startAddr ∧ routine.startAddr ≤ g.1 + g.2 - 1) ∧
          routine.startAddr + routine.codeLength ≤ g.1 + g.2) := by
  cases hf : p.gaps.find? (suitableGap routine.startAddr) with
  | none =>
    have hnone : ¬ ∃ g ∈ p.gaps, g.1 ≤ routine.startAddr ∧ routine.startAddr ≤ g.1 + g.2 - 1 := by
      rintro ⟨g, hg, h1, h2⟩
      have := List.find?_eq_none.mp hf g hg
      simp [suitableGap] at this
      omega
    have hres : (addToProblem p routine).2 = some .alreadyOccupied := by
      simp [addToProblem, hfl, hf]
    rw [hres]
    refine ⟨Or.inl rfl, ⟨fun _ => hnone, fun _ => rfl⟩, ⟨(fun h => by cases h), ?_⟩,
      ⟨(fun h => by cases h), ?_⟩⟩
    · rintro ⟨g, hg, h, _⟩; exact absurd ⟨g, hg, h⟩ hnone
    · rintro ⟨g, hg, h, _⟩; exact absurd ⟨g, hg, h⟩ hnone
  | some gap =>
    obtain ⟨hm, h1, h2⟩ := find?_suitableGap hf
    -- the gap found is the only gap that holds the start address
    have huniq : ∀ g ∈ p.gaps, g.1 ≤ routine.startAddr → routine.startAddr ≤ g.1 + g.2 - 1 →
        g = gap := by
      intro g hg h3 h4
      by_contra hne
      have hsym : Symmetric (fun g1 g2 : Int × Int =>
          ∀ x, ¬ (gapHolds g1 x ∧ gapHolds g2 x)) :=
        fun _ _ h x hx => h x ⟨hx.2, hx.1⟩
      have := hdisj.forall hsym hg hm hne routine.startAddr
      apply this
      unfold gapHolds
      exact ⟨⟨h3, by omega⟩, ⟨h1, by omega⟩⟩
    have hsome : ∃ g ∈ p.gaps, g.1 ≤ routine.startAddr ∧ routine.startAddr ≤ g.1 + g.2 - 1 :=
      ⟨gap, hm, h1, h2⟩
    by_cases hfit : gap.1 + gap.2 < routine.startAddr + routine.codeLength
    · have hres : (addToProblem p routine).2 = some .wontFit := by
        simp [addToProblem, hfl, hf, hfit]
      rw [hres]
      refine ⟨Or.inr (Or.inl rfl), ⟨(fun h => by cases h), fun h => absurd hsome h⟩,
        ⟨fun _ => ⟨gap, hm, ⟨h1, h2⟩, hfit⟩, fun _ => rfl⟩, ⟨(fun h => by cases h), ?_⟩⟩
      rintro ⟨g, hg, ⟨h3, h4⟩, h5⟩
      rw [huniq g hg h3 h4] at h5
      omega
    · have hres : (addToProblem p routine).2 = none := by
        simp [addToProblem, hfl, hf, hfit]
      rw [hres]
      refine ⟨Or.inr (Or.inr rfl), ⟨(fun h => by cases h), fun h => absurd hsome h⟩,
        ⟨(fun h => by cases h), ?_⟩, ⟨fun _ => ⟨gap, hm, ⟨h1, h2⟩, by omega⟩, fun _ => rfl⟩⟩
      rintro ⟨g, hg, ⟨h3, h4⟩, h5⟩
      rw [huniq g hg h3 h4] at h5
      omega

/-- C6 at a ledger with the gaps `(0, 3)` and `(4, 3)` and a fixed routine of
size 2 at 4. -/
theorem addToProblem_outcomes_witness :
    ((addToProblem ⟨[], [(0, 3), (4, 3)], []⟩ (fixedAt 0 4 2)).2 = some .alreadyOccupied ∨
        (addToProblem ⟨[], [(0, 3), (4, 3)], []⟩ (fixedAt 0 4 2)).2 = some .wontFit ∨
        (addToProblem ⟨[], [(0, 3), (4, 3)], []⟩ (fixedAt 0 4 2)).2 = none) ∧
      ((addToProblem ⟨[], [(0, 3), (4, 3)], []⟩ (fixedAt 0 4 2)).2 = some .alreadyOccupied ↔
        ¬ ∃ g ∈ ([(0, 3), (4, 3)] : List (Int × Int)),
          g.1 ≤ (fixedAt 0 4 2).startAddr ∧ (fixedAt 0 4 2).startAddr ≤ g.1 + g.2 - 1) ∧
      ((addToProblem ⟨[], [(0, 3), (4, 3)], []⟩ (fixedAt 0 4 2)).2 = some .wontFit ↔
        ∃ g ∈ ([(0, 3), (4, 3)] : List (Int × Int)),
          (g.1 ≤ (fixedAt 0 4 2).startAddr ∧ (fixedAt 0 4 2).startAddr ≤ g.1 + g.2 - 1) ∧
          (fixedAt 0 4 2).startAddr + (fixedAt 0 4 2).codeLength > g.1 + g.2) ∧
      ((addToProblem ⟨[], [(0, 3), (4, 3)], []⟩ (fixedAt 0 4 2)).2 = none ↔
        ∃ g ∈ ([(0, 3), (4, 3)] : List (Int × Int)),
          (g.1 ≤ (fixedAt 0 4 2).startAddr ∧ (fixedAt 0 4 2).startAddr ≤ g.1 + g.2 - 1) ∧
          (fixedAt 0 4 2).startAddr + (fixedAt 0 4 2).codeLength ≤ g.1 + g.2) :=
  addToProblem_outcomes ⟨[], [(0, 3), (4, 3)], []⟩ (fixedAt 0 4 2)
    (List.pairwise_pair.mpr (fun x hx => by
      have h1 := hx.1.2
      have h2 := hx.2.1
      simp only at h1 h2
      omega))
    rfl (by decide)

/-- What a successful `addToProblem` with a routine of positive size does to
the placements and the pool of a well-formed ledger. -/
theorem addToProblem_step {lo hi : Int} {p p' : BinningProblem} {routine : SourceFile}
    (hinv : Inv lo hi p) (hn : 0 < routine.codeLength)
    (h : addToProblem p routine = (p', none)) :
    (∀ e ∈ p.fixedRoutines, e ∈ p'.fixedRoutines) ∧
      (routine.floating = false → (routine.startAddr, routine) ∈ p'.fixedRoutines) ∧
      (p'.fixedRoutines.map Prod.snd ++ p'.floatingRoutines).Perm
        (routine :: (p.fixedRoutines.map Prod.snd ++ p.floatingRoutines)) ∧
      p'.floatingRoutines = p.floatingRoutines ++ (if routine.floating then [routine] else []) := by
  cases hfl : routine.floating with
  | true =>
    rw [addToProblem_floating hfl] at h
    have hp : p' = { p with floatingRoutines := p.floatingRoutines ++ [routine] } :=
      (Prod.mk.inj h).1.symm
    subst hp
    refine ⟨fun e he => he, (fun hc => by cases hc), ?_, by simp⟩
    simp only
    rw [← List.append_assoc]
    exact List.perm_append_singleton _ _
  | false =>
    obtain ⟨⟨a, len⟩, hg, h1, h2, h3⟩ := addToProblem_fixed_success hfl h
    simp only at h1 h2 h3
    obtain ⟨q, hq, -, -, -, hfm, hperm, hfloat⟩ :=
      addToProblem_fixed_spec hinv hfl hn hg h1 h3
    have hp : q = p' := by
      rw [hq] at h
      exact (Prod.mk.inj h).1
    subst hp
    refine ⟨fun e he => (hfm e).mpr (Or.inr he), fun _ => (hfm _).mpr (Or.inl rfl), ?_, ?_⟩
    · rw [hfloat]
      have := (hperm.map Prod.snd).append_right p.floatingRoutines
      simpa using this
    · rw [hfloat]; simp

/-- What `addAll` does to a built ledger. -/
theorem addAll_spec {lo hi : Int} :
    ∀ (routines : List SourceFile) (p p' : BinningProblem), Built lo hi p →
      (∀ r ∈ routines, 0 < r.codeLength) → addAll p routines = .ok p' →
      (∀ e ∈ p.fixedRoutines, e ∈ p'.fixedRoutines) ∧
        (∀ r ∈ routines, r.floating = false → (r.startAddr, r) ∈ p'.fixedRoutines) ∧
        (p'.fixedRoutines.map Prod.snd ++ p'.floatingRoutines).Perm
          (routines ++ (p.fixedRoutines.map Prod.snd ++ p.floatingRoutines)) ∧
        p'.floatingRoutines = p.floatingRoutines ++ routines.filter (fun r => r.floating) := by
  intro routines
  induction routines with
  | nil =>
    intro p p' _ _ h
    simp only [addAll] at h
    cases h
    exact ⟨fun e he => he, by simp, by simp, by simp⟩
  | cons r rest ih =>
    intro p p' hb hpos h
    unfold addAll at h
    cases hadd : addToProblem p r with
    | mk q o =>
      cases o with
      | some e => simp [hadd] at h
      | none =>
        simp only [hadd] at h
        have hr := hpos r (List.mem_cons_self _ _)
        obtain ⟨s1, s2, s3, s4⟩ := addToProblem_step hb.wellFormed.1 hr hadd
        obtain ⟨i1, i2, i3, i4⟩ := ih q p' (Built.add hb hr hadd)
          (fun x hx => hpos x (List.mem_cons_of_mem _ hx)) h
        refine ⟨fun e he => i1 e (s1 e he), ?_, ?_, ?_⟩
        · intro x hx hfl
          rcases List.mem_cons.mp hx with rfl | hx'
          · exact i1 _ (s2 hfl)
          · exact i2 x hx' hfl
        · refine i3.trans ?_
          refine (List.Perm.append_left rest s3).trans ?_
          simp only [List.cons_append]
          exact List.perm_middle
        · rw [i4, s4]
          cases hfl : r.floating <;> simp [List.filter_cons, hfl]

/-- A failed `addToProblem` leaves the ledger as it was. -/
theorem addToProblem_failed (p : BinningProblem) (routine : SourceFile) (e : Fault)
    (h : (addToProblem p routine).2 = some e) : (addToProblem p routine).1 = p := by
  unfold addToProblem at h ⊢
  split
  · rename_i hfl
    simp [hfl] at h
  · rename_i hfl
    simp only [hfl, if_false] at h
    split
    · rfl
    · rename_i gap hf
      simp only [hf] at h
      split
      · rfl
      · rename_i hfit
        simp [hfit] at h

/-- C7: once a fixed routine of positive size has been registered at address
`s` in a built ledger, then, also after further successful registrations,
registering a second fixed routine with start address `s` fails with the
overlap fault and leaves the ledger as it was, the first routine still being
placed at `s`; and any failed `addToProblem` (overlap or fit) leaves gaps,
placements and pool as they were before the call. -/
theorem second_registration_fails {lo hi : Int} {p p1 p2 : BinningProblem}
    (hb : Built lo hi p) (first : SourceFile) (hfl : first.floating = false)
    (hn : 0 < first.codeLength) (hadd : addToProblem p first = (p1, none))
    (later : List SourceFile) (hpos : ∀ r ∈ later, 0 < r.codeLength)
    (hlater : addAll p1 later = .ok p2) :
    (∀ second : SourceFile, second.floating = false → second.startAddr = first.startAddr →
        addToProblem p2 second = (p2, some .alreadyOccupied)) ∧
      (first.startAddr, first) ∈ p2.fixedRoutines ∧
      (∀ (q : BinningProblem) (r : SourceFile) (e : Fault),
        (addToProblem q r).2 = some e → (addToProblem q r).1 = q) := by
  have hb1 : Built lo hi p1 := Built.add hb hn hadd
  have hm1 := (addToProblem_step hb.wellFormed.1 hn hadd).2.1 hfl
  have hb2 : Built lo hi p2 := addAll_built later p1 p2 hb1 hpos hlater
  have hm2 := (addAll_spec later p1 p2 hb1 hpos hlater).1 _ hm1
  have hinv := hb2.wellFormed.1
  refine ⟨?_, hm2, addToProblem_failed⟩
  intro second hfl2 hs
  have hnone : p2.gaps.find? (suitableGap second.startAddr) = none := by
    rw [List.find?_eq_none]
    intro g hg
    have h1 := hinv.gapFixed g hg _ hm2
    simp only at h1
    rw [hs]
    have hg1 := (hinv.gapIn g hg).1
    have hout : g.1 > first.startAddr ∨ g.1 + g.2 - 1 < first.startAddr := by omega
    simp only [suitableGap, Bool.not_eq_true', Bool.not_eq_false', Bool.or_eq_true,
      decide_eq_true_eq, Bool.not_eq_eq_eq_not, Bool.not_true, Bool.not_not]
    simp only [gt_iff_lt, Bool.or_eq_false_iff, decide_eq_false_iff_not, not_and, not_lt,
      not_not, not_le]
    intro h2
    omega
  simp [addToProblem, hfl2, hnone]

/-- C7 at the ledger for `0x0000 .. 0x01FF`: a fixed routine of size 16 at
`0x0100`, then a floating routine, then a second fixed routine at `0x0100`. -/
theorem second_registration_fails_witness :
    (∀ second : SourceFile, second.floating = false →
        second.startAddr = (fixedAt 0 0x0100 16).startAddr →
        addToProblem ⟨[(0x0100, fixedAt 0 0x0100 16)], [(0, 0x0100), (0x0110, 0xF0)],
            [floatingOf 1 8]⟩ second
          = (⟨[(0x0100, fixedAt 0 0x0100 16)], [(0, 0x0100), (0x0110, 0xF0)],
            [floatingOf 1 8]⟩, some .alreadyOccupied)) ∧
      ((fixedAt 0 0x0100 16).startAddr, fixedAt 0 0x0100 16) ∈
        ([(0x0100, fixedAt 0 0x0100 16)] : List (Int × SourceFile)) ∧
      (∀ (q : BinningProblem) (r : SourceFile) (e : Fault),
        (addToProblem q r).2 = some e → (addToProblem q r).1 = q) :=
  @second_registration_fails 0 0x01FF ⟨[], [(0, 0x0200)], []⟩
    ⟨[(0x0100, fixedAt 0 0x0100 16)], [(0, 0x0100), (0x0110, 0xF0)], []⟩
    ⟨[(0x0100, fixedAt 0 0x0100 16)], [(0, 0x0100), (0x0110, 0xF0)], [floatingOf 1 8]⟩
    (Built.create rfl) (fixedAt 0 0x0100 16) rfl (by decide) rfl [floatingOf 1 8] (by decide) rfl

/-! ## The loop of `Solver::run` (C8, C9, C10) -/

theorem performObviousStepsLoop_gaps :
    ∀ (rev : List SourceFile) (gaps : List (Int × Int))
      (fixedRoutines : List (Int × SourceFile)), KeysSorted gaps →
      KeysSorted (performObviousStepsLoop rev gaps fixedRoutines).gaps ∧
        (performObviousStepsLoop rev gaps fixedRoutines).gaps.length ≤ gaps.length := by
  intro rev
  induction rev with
  | nil => intro gaps _ hs; exact ⟨hs, Nat.le_refl _⟩
  | cons back rest ih =>
    intro gaps fixedRoutines hs
    unfold performObviousStepsLoop
    by_cases he : gaps.isEmpty = true
    · rw [if_pos he]; exact ⟨hs, Nat.le_refl _⟩
    · rw [if_neg he]
      simp only
      by_cases h1 : (countMatchingGaps gaps back.codeLength).1 = 1
      · rw [if_pos h1]
        obtain ⟨len, hg, -⟩ := countMatchingGaps_one h1
        have hs1 := keysSorted_mapAssign hs (countMatchingGaps gaps back.codeLength).2
          (mapAt gaps (countMatchingGaps gaps back.codeLength).2 - back.codeLength)
        have hl1 := length_mapAssign_of_mem hs hg
          (mapAt gaps (countMatchingGaps gaps back.codeLength).2 - back.codeLength)
        simp only at hl1
        split
        · obtain ⟨i1, i2⟩ := ih _ (mapAssign fixedRoutines _ back) (keysSorted_mapErase hs1 _)
          refine ⟨i1, Nat.le_trans i2 ?_⟩
          exact Nat.le_trans (length_mapErase_le _ _) (Nat.le_of_eq hl1)
        · obtain ⟨i1, i2⟩ := ih _ (mapAssign fixedRoutines _ back) hs1
          exact ⟨i1, Nat.le_trans i2 (Nat.le_of_eq hl1)⟩
      · rw [if_neg h1]; exact ⟨hs, Nat.le_refl _⟩

theorem fillGap_gaps {p p' : BinningProblem} {g : Int} {rs : List SourceFile}
    (h : fillGap p g rs = .ok p') : p'.gaps = mapErase p.gaps g := by
  unfold fillGap at h
  split at h
  · cases h
  · cases h; rfl

/-- The rounds `removeUselessGaps` is given are enough: in its result no gap
is shorter than `minUsefulSize`, which is when the `while (repeat)` ends. -/
theorem removeUselessGapsLoop_done (minUsefulSize : Int) :
    ∀ (fuel : Nat) (gaps : List (Int × Int)), gaps.length ≤ fuel →
      (removeUselessGapsLoop minUsefulSize fuel gaps).find?
        (fun gap => decide (gap.2 < minUsefulSize)) = none := by
  intro fuel
  induction fuel with
  | zero =>
    intro gaps hl
    have hnil : gaps = [] := List.length_eq_zero.mp (by omega)
    simp [hnil, removeUselessGapsLoop]
  | succ fuel ih =>
    intro gaps hl
    unfold removeUselessGapsLoop
    cases hf : gaps.find? (fun gap => decide (gap.2 < minUsefulSize)) with
    | none => simpa using hf
    | some gap =>
      simp only
      have hm := List.mem_of_find?_eq_some hf
      have := length_mapErase_lt hm
      exact ih _ (by omega)

/-- One pass through the body of the loop never adds a gap, and a pass that
reaches `fillGap` leaves fewer gaps than it found. -/
theorem runBody_gaps {p p' : BinningProblem} {b : Bool} (hs : KeysSorted p.gaps)
    (h : Solver.runBody p = .ok (b, p')) :
    KeysSorted p'.gaps ∧ p'.gaps.length ≤ p.gaps.length ∧
      (b = true → p'.gaps.length < p.gaps.length) := by
  obtain ⟨hs1, hl1⟩ := performObviousStepsLoop_gaps p.floatingRoutines.reverse p.gaps
    p.fixedRoutines hs
  unfold Solver.runBody at h
  simp only at h
  cases hu : removeUselessGaps (performObviousSteps p) with
  | error e => simp [hu] at h
  | ok p2 =>
    simp only [hu] at h
    obtain ⟨-, -, -, hsub⟩ := removeUselessGaps_ok hu
    have hs2 : KeysSorted p2.gaps := List.Pairwise.sublist hsub hs1
    have hl2 : p2.gaps.length ≤ p.gaps.length := Nat.le_trans hsub.length_le hl1
    split at h
    · cases h
      exact ⟨hs2, hl2, fun hb => by cases hb⟩
    · rename_i hguard
      cases hf : findPartialSolution p2 (mapAt p2.gaps (selectGapToFill p2)) with
      | error e => simp [hf] at h
      | ok sel =>
        simp only [hf] at h
        cases hfill : fillGap p2 (selectGapToFill p2) sel with
        | error e => simp [hfill] at h
        | ok p3 =>
          simp only [hfill] at h
          cases h
          have hne : p2.gaps ≠ [] := by
            intro hnil
            apply hguard
            left
            simp [hnil]
          obtain ⟨len, hm⟩ := selectGapToFill_mem hne
          have hg3 := fillGap_gaps hfill
          have hlt : p'.gaps.length < p2.gaps.length := by
            rw [hg3]; exact length_mapErase_lt (e := (selectGapToFill p2, len)) hm
          refine ⟨hg3 ▸ keysSorted_mapErase hs2 _, by omega, fun _ => by omega⟩

/-- With one unit of fuel per gap the loop comes to its end, and more fuel
does not change its result. -/
theorem runLoop_fuel :
    ∀ (fuel : Nat) (p : BinningProblem), KeysSorted p.gaps → p.gaps.length ≤ fuel →
      ∃ r, Solver.runLoop fuel p = some r ∧
        ∀ fuel', p.gaps.length ≤ fuel' → Solver.runLoop fuel' p = some r := by
  intro fuel
  induction fuel with
  | zero =>
    intro p _ hl
    have hnil : p.gaps = [] := List.length_eq_zero.mp (by omega)
    refine ⟨.ok p, ?_, ?_⟩
    · unfold Solver.runLoop; simp [hnil]
    · intro fuel' _
      unfold Solver.runLoop; simp [hnil]
  | succ fuel ih =>
    intro p hs hl
    by_cases hguard : p.gaps.isEmpty ∨ p.floatingRoutines.isEmpty
    · refine ⟨.ok p, ?_, ?_⟩
      · unfold Solver.runLoop; rw [if_pos hguard]
      · intro fuel' _
        unfold Solver.runLoop; rw [if_pos hguard]
    · have hpos : 0 < p.gaps.length := by
        rcases Nat.eq_zero_or_pos p.gaps.length with h0 | h0
        · exfalso
          apply hguard
          left
          simp [List.length_eq_zero.mp h0]
        · exact h0
      cases hbody : Solver.runBody p with
      | error e =>
        refine ⟨.error e, ?_, ?_⟩
        · unfold Solver.runLoop; rw [if_neg hguard]; simp [hbody]
        · intro fuel' hf'
          obtain ⟨f, rfl⟩ : ∃ f, fuel' = f + 1 := ⟨fuel' - 1, by omega⟩
          unfold Solver.runLoop; rw [if_neg hguard]; simp [hbody]
      | ok res =>
        obtain ⟨b, p'⟩ := res
        obtain ⟨hs', hle, hlt⟩ := runBody_gaps hs hbody
        cases b with
        | false =>
          refine ⟨.ok p', ?_, ?_⟩
          · unfold Solver.runLoop; rw [if_neg hguard]; simp [hbody]
          · intro fuel' hf'
            obtain ⟨f, rfl⟩ : ∃ f, fuel' = f + 1 := ⟨fuel' - 1, by omega⟩
            unfold Solver.runLoop; rw [if_neg hguard]; simp [hbody]
        | true =>
          have hlt' := hlt rfl
          obtain ⟨r, hr, hall⟩ := ih p' hs' (by omega)
          refine ⟨r, ?_, ?_⟩
          · unfold Solver.runLoop; rw [if_neg hguard]; simp [hbody, hr]
          · intro fuel' hf'
            obtain ⟨f, rfl⟩ : ∃ f, fuel' = f + 1 := ⟨fuel' - 1, by omega⟩
            unfold Solver.runLoop; rw [if_neg hguard]; simp [hbody]
            exact hall f (by omega)

/-- C10: `Solver::run` terminates on every ledger (the gaps being a `std::map`,
in key order): a pass through the body of the loop that reaches `fillGap`
leaves strictly fewer gaps than it found, so as many passes as there are gaps
at the start bring the loop to its end, and allowing more passes (such as the
one more of the final exiting pass) gives the same result; the inner loop of
`removeUselessGaps` comes to its end as well. -/
theorem run_terminates (p : BinningProblem) (hs : KeysSorted p.gaps) :
    (∀ p', Solver.runBody p = .ok (true, p') → p'.gaps.length < p.gaps.length) ∧
      (∃ r, Solver.run p = some r ∧
        ∀ fuel, p.gaps.length ≤ fuel →
          Solver.runLoop fuel (sortFloatingRoutinesBySize p) = some r) ∧
      (∀ minUsefulSize : Int,
        (removeUselessGapsLoop minUsefulSize p.gaps.length p.gaps).find?
          (fun gap => decide (gap.2 < minUsefulSize)) = none) := by
  refine ⟨fun p' h => (runBody_gaps hs h).2.2 rfl, ?_,
    fun m => removeUselessGapsLoop_done m _ _ (Nat.le_refl _)⟩
  exact runLoop_fuel p.gaps.length (sortFloatingRoutinesBySize p) hs (Nat.le_refl _)

/-- C10 at the ledger for `0 .. 6` with the gaps `(0, 3)` and `(4, 3)` and
floating routines of sizes 1 and 2. -/
theorem run_terminates_witness :
    (∀ p', Solver.runBody
          ⟨[(3, fixedAt 0 3 1)], [(0, 3), (4, 3)], [floatingOf 1 1, floatingOf 2 2]⟩
          = .ok (true, p') →
        p'.gaps.length < ([(0, 3), (4, 3)] : List (Int × Int)).length) ∧
      (∃ r, Solver.run ⟨[(3, fixedAt 0 3 1)], [(0, 3), (4, 3)],
          [floatingOf 1 1, floatingOf 2 2]⟩ = some r ∧
        ∀ fuel, ([(0, 3), (4, 3)] : List (Int × Int)).length ≤ fuel →
          Solver.runLoop fuel (sortFloatingRoutinesBySize
            ⟨[(3, fixedAt 0 3 1)], [(0, 3), (4, 3)], [floatingOf 1 1, floatingOf 2 2]⟩)
            = some r) ∧
      (∀ minUsefulSize : Int,
        (removeUselessGapsLoop minUsefulSize ([(0, 3), (4, 3)] : List (Int × Int)).length
            [(0, 3), (4, 3)]).find?
          (fun gap => decide (gap.2 < minUsefulSize)) = none) :=
  run_terminates ⟨[(3, fixedAt 0 3 1)], [(0, 3), (4, 3)], [floatingOf 1 1, floatingOf 2 2]⟩
    (by unfold KeysSorted; decide)

/-- One pass through the body of the loop keeps the layout invariant and is a
step of the solver. -/
theorem runBody_spec {lo hi : Int} {p p' : BinningProblem} {b : Bool} (hinv : Inv lo hi p)
    (h : Solver.runBody p = .ok (b, p')) : Inv lo hi p' ∧ Step p p' := by
  obtain ⟨hinv1, hstep1, -⟩ := performObviousSteps_spec hinv
  unfold Solver.runBody at h
  simp only at h
  cases hu : removeUselessGaps (performObviousSteps p) with
  | error e => simp [hu] at h
  | ok p2 =>
    simp only [hu] at h
    obtain ⟨hinv2, hstep2⟩ := removeUselessGaps_spec hinv1 hu
    split at h
    · cases h
      exact ⟨hinv2, hstep1.trans hstep2⟩
    · rename_i hguard
      have hne : p2.gaps ≠ [] := by
        intro hnil
        apply hguard
        left
        simp [hnil]
      obtain ⟨sel, p3, h1, h2, h3, h4, -⟩ := solver_fill_spec hinv2 hne
      simp only [h1, h2] at h
      cases h
      exact ⟨h3, (hstep1.trans hstep2).trans h4⟩

theorem runLoop_spec {lo hi : Int} :
    ∀ (fuel : Nat) (p p' : BinningProblem), Inv lo hi p →
      Solver.runLoop fuel p = some (.ok p') → Inv lo hi p' ∧ Step p p' := by
  intro fuel
  induction fuel with
  | zero =>
    intro p p' hinv h
    unfold Solver.runLoop at h
    split at h
    · cases h; exact ⟨hinv, Step.refl _⟩
    · cases h
  | succ fuel ih =>
    intro p p' hinv h
    unfold Solver.runLoop at h
    split at h
    · cases h; exact ⟨hinv, Step.refl _⟩
    · simp only at h
      cases hbody : Solver.runBody p with
      | error e => simp [hbody] at h
      | ok res =>
        obtain ⟨b, q⟩ := res
        obtain ⟨hinvq, hstepq⟩ := runBody_spec hinv hbody
        cases b with
        | false =>
          simp only [hbody] at h
          cases h
          exact ⟨hinvq, hstepq⟩
        | true =>
          simp only [hbody] at h
          obtain ⟨i1, i2⟩ := ih q p' hinvq h
          exact ⟨i1, hstepq.trans i2⟩

/-- C9: an input that can be packed and that `Solver::run` leaves unsolved.
Range `0 .. 35`; fixed routines of size 1 at 8, 21 and 34, which leave the
gaps `(0, 8)`, `(9, 12)`, `(22, 12)` and `(35, 1)`; floating routines of sizes
2, 4, 4, 6, 6 and 10 (35 bytes in all, which is not more than `hi - lo`).
Placing 4 + 4 in the first gap, 2 + 10 in the second and 6 + 6 in the third
puts every floating routine inside a gap without overlap, yet the run fills
the first gap with 2 + 6, the second with 10 alone, the third with 6 and 4, and
ends with a routine of size 4 in the pool and no gap. -/
theorem run_unsolved_on_packable_input :
    (∀ r ∈ [fixedAt 0 8 1, fixedAt 1 21 1, fixedAt 2 34 1, floatingOf 3 2, floatingOf 4 4,
        floatingOf 5 4, floatingOf 6 6, floatingOf 7 6, floatingOf 8 10], 0 < r.codeLength) ∧
      totalSize [fixedAt 0 8 1, fixedAt 1 21 1, fixedAt 2 34 1, floatingOf 3 2, floatingOf 4 4,
        floatingOf 5 4, floatingOf 6 6, floatingOf 7 6, floatingOf 8 10] ≤ 35 - 0 ∧
      prepareBinningProblem 0 35
          [fixedAt 0 8 1, fixedAt 1 21 1, fixedAt 2 34 1, floatingOf 3 2, floatingOf 4 4,
            floatingOf 5 4, floatingOf 6 6, floatingOf 7 6, floatingOf 8 10]
        = .ok ⟨[(8, fixedAt 0 8 1), (21, fixedAt 1 21 1), (34, fixedAt 2 34 1)],
            [(0, 8), (9, 12), (22, 12), (35, 1)],
            [floatingOf 3 2, floatingOf 4 4, floatingOf 5 4, floatingOf 6 6, floatingOf 7 6,
              floatingOf 8 10]⟩ ∧
      (([(0, floatingOf 4 4), (4, floatingOf 5 4), (9, floatingOf 3 2), (11, floatingOf 8 10),
          (22, floatingOf 6 6), (28, floatingOf 7 6)] : List (Int × SourceFile)).map
          Prod.snd).Perm
        [floatingOf 3 2, floatingOf 4 4, floatingOf 5 4, floatingOf 6 6, floatingOf 7 6,
          floatingOf 8 10] ∧
      (∀ e ∈ ([(0, floatingOf 4 4), (4, floatingOf 5 4), (9, floatingOf 3 2),
          (11, floatingOf 8 10), (22, floatingOf 6 6), (28, floatingOf 7 6)] :
          List (Int × SourceFile)),
        ∃ g ∈ ([(0, 8), (9, 12), (22, 12), (35, 1)] : List (Int × Int)),
          g.1 ≤ e.1 ∧ e.1 + e.2.codeLength ≤ g.1 + g.2) ∧
      ([(0, floatingOf 4 4), (4, floatingOf 5 4), (9, floatingOf 3 2), (11, floatingOf 8 10),
          (22, floatingOf 6 6), (28, floatingOf 7 6)] : List (Int × SourceFile)).Pairwise
        (fun e1 e2 => e1.1 + e1.2.codeLength ≤ e2.1 ∨ e2.1 + e2.2.codeLength ≤ e1.1) ∧
      Solver.run ⟨[(8, fixedAt 0 8 1), (21, fixedAt 1 21 1), (34, fixedAt 2 34 1)],
          [(0, 8), (9, 12), (22, 12), (35, 1)],
          [floatingOf 3 2, floatingOf 4 4, floatingOf 5 4, floatingOf 6 6, floatingOf 7 6,
            floatingOf 8 10]⟩
        = some (.ok ⟨[(0, floatingOf 3 2), (2, floatingOf 7 6), (8, fixedAt 0 8 1),
            (9, floatingOf 8 10), (21, fixedAt 1 21 1), (24, floatingOf 5 4),
            (28, floatingOf 6 6), (34, fixedAt 2 34 1)], [], [floatingOf 4 4]⟩) ∧
      isSolved ⟨[(0, floatingOf 3 2), (2, floatingOf 7 6), (8, fixedAt 0 8 1),
          (9, floatingOf 8 10), (21, fixedAt 1 21 1), (24, floatingOf 5 4),
          (28, floatingOf 6 6), (34, fixedAt 2 34 1)], [], [floatingOf 4 4]⟩ = false :=
  ⟨by decide, by decide, rfl, by decide, by decide, by decide, rfl, rfl⟩

/-! ## The constructor and the size check (C11, C12) -/

/-- C11: `BinningProblem(lo, hi)` is rejected with "invalid lo/hi address" iff
`hi < lo` or `lo < 0` or `hi < 0` or `lo > 0xFFFF` or `hi > 0xFFFF`; otherwise
the ledger it builds has exactly one gap, at `lo` with length `hi - lo + 1`, no
placed routine and an empty pool. -/
theorem create_rejects_iff (lo hi : Int) :
    (BinningProblem.create lo hi = .error .invalidLoHi ↔
        hi < lo ∨ lo < 0 ∨ hi < 0 ∨ lo > 0xFFFF ∨ hi > 0xFFFF) ∧
      ((∃ e, BinningProblem.create lo hi = .error e) ↔
        hi < lo ∨ lo < 0 ∨ hi < 0 ∨ lo > 0xFFFF ∨ hi > 0xFFFF) ∧
      (¬ (hi < lo ∨ lo < 0 ∨ hi < 0 ∨ lo > 0xFFFF ∨ hi > 0xFFFF) →
        BinningProblem.create lo hi = .ok ⟨[], [(lo, hi - lo + 1)], []⟩) := by
  by_cases h : hi < lo ∨ hi < 0 ∨ lo < 0 ∨ hi > 0xFFFF ∨ lo > 0xFFFF
  · have hc : BinningProblem.create lo hi = .error .invalidLoHi := by
      unfold BinningProblem.create
      rw [if_pos h]
    have h' : hi < lo ∨ lo < 0 ∨ hi < 0 ∨ lo > 0xFFFF ∨ hi > 0xFFFF := by omega
    rw [hc]
    exact ⟨⟨fun _ => h', fun _ => rfl⟩, ⟨fun _ => h', fun _ => ⟨_, rfl⟩⟩, fun hn => absurd h' hn⟩
  · have hc : BinningProblem.create lo hi = .ok ⟨[], [(lo, hi - lo + 1)], []⟩ := by
      unfold BinningProblem.create
      rw [if_neg h]
      rfl
    have h' : ¬ (hi < lo ∨ lo < 0 ∨ hi < 0 ∨ lo > 0xFFFF ∨ hi > 0xFFFF) := by omega
    rw [hc]
    refine ⟨⟨(fun hcon => by cases hcon), fun hcon => absurd hcon h'⟩,
      ⟨?_, fun hcon => absurd hcon h'⟩, fun _ => rfl⟩
    rintro ⟨e, he⟩
    cases he

/-- What the size check of `calcRoutineSizes` does: it rejects with "too much
for this segment" exactly when the non-zero total exceeds `hi - lo`. -/
theorem checkTotalSize_rejects_iff (sourceFiles : List SourceFile) (lo hi : Int) :
    checkTotalSize sourceFiles lo hi = .error .tooMuchForSegment ↔
      totalSize sourceFiles ≠ 0 ∧ totalSize sourceFiles > hi - lo := by
  unfold checkTotalSize
  by_cases h0 : 0 = totalSize sourceFiles
  · rw [if_pos h0]
    constructor
    · intro h; cases h
    · intro h; exact absurd h0.symm h.1
  · rw [if_neg h0]
    by_cases h1 : totalSize sourceFiles > hi - lo
    · rw [if_pos h1]
      exact ⟨fun _ => ⟨fun h => h0 h.symm, h1⟩, fun _ => rfl⟩
    · rw [if_neg h1]
      constructor
      · intro h; cases h
      · intro h; exact absurd h.2 h1

/-- C12 fails on the code: for the range `0xC000 .. 0xCFFF`, whose ledger
starts with one gap of `0x1000` bytes, routines of `0x1000` bytes in all (the
capacity `hi - lo + 1`) are rejected with "too much for this segment", although
the sum does not exceed the capacity. -/
theorem checkTotalSize_rejects_full_segment :
    totalSize [fixedAt 0 0xC000 0x0800, floatingOf 1 0x0800] = 0xCFFF - 0xC000 + 1 ∧
      checkTotalSize [fixedAt 0 0xC000 0x0800, floatingOf 1 0x0800] 0xC000 0xCFFF
        = .error .tooMuchForSegment ∧
      BinningProblem.create 0xC000 0xCFFF = .ok ⟨[], [(0xC000, 0x1000)], []⟩ :=
  ⟨by decide, rfl, rfl⟩

/-! ## One forced placement (C13) -/

/-- `performObviousSteps` is its one-pass body repeated until the body ends
the loop. -/
theorem performObviousSteps_unfold (p : BinningProblem) :
    performObviousSteps p
      = match performObviousStep p with
        | none => p
        | some q => performObviousSteps q := by
  obtain ⟨fixedRoutines, gaps, floatingRoutines⟩ := p
  unfold performObviousSteps performObviousStep
  simp only
  cases hrev : floatingRoutines.reverse with
  | nil =>
    have : floatingRoutines = [] := by simpa using hrev
    simp [performObviousStepsLoop, this]
  | cons back rest =>
    have hfl : floatingRoutines = (back :: rest).reverse := by
      rw [← hrev, List.reverse_reverse]
    simp only
    rw [performObviousStepsLoop.eq_2]
    by_cases he : gaps.isEmpty = true
    · rw [if_pos he, if_pos he, hfl]
    · rw [if_neg he, if_neg he]
      simp only
      by_cases h1 : (countMatchingGaps gaps back.codeLength).1 = 1
      · rw [if_pos h1, if_pos h1]
        simp only [List.reverse_reverse]
      · rw [if_neg h1, if_neg h1, hfl]

/-- When exactly one gap is large enough, the inner `for` of
`performObviousSteps` counts one gap and leaves its address in `gapAddress`. -/
theorem countMatchingGaps_unique {gaps : List (Int × Int)} (hs : KeysSorted gaps)
    {routineSize a len : Int} (hg : (a, len) ∈ gaps) (hlen : len ≥ routineSize)
    (huniq : ∀ g ∈ gaps, g.2 ≥ routineSize → g = (a, len)) :
    countMatchingGaps gaps routineSize = (1, a) := by
  obtain ⟨h1, h2⟩ := countMatchingGaps_foldl routineSize gaps (0, 0)
  have hmemf : (a, len) ∈ gaps.filter (fun g => decide (g.2 ≥ routineSize)) :=
    List.mem_filter.mpr ⟨hg, by simpa using hlen⟩
  have hall : ∀ g ∈ gaps.filter (fun g => decide (g.2 ≥ routineSize)), g = (a, len) := by
    intro g hgm
    rw [List.mem_filter] at hgm
    exact huniq g hgm.1 (by simpa using hgm.2)
  have hpw : KeysSorted (gaps.filter (fun g => decide (g.2 ≥ routineSize))) :=
    List.Pairwise.sublist (List.filter_sublist _) hs
  have hlen1 : (gaps.filter (fun g => decide (g.2 ≥ routineSize))).length = 1 := by
    cases hf : gaps.filter (fun g => decide (g.2 ≥ routineSize)) with
    | nil => rw [hf] at hmemf; simp at hmemf
    | cons x t =>
      cases t with
      | nil => rfl
      | cons y t' =>
        exfalso
        rw [hf] at hall hpw
        have hx := hall x (by simp)
        have hy := hall y (by simp)
        have hlt : x.1 < y.1 := (List.pairwise_cons.mp hpw).1 y (by simp)
        rw [hx, hy] at hlt
        exact lt_irrefl _ hlt
  unfold countMatchingGaps
  refine Prod.ext ?_ ?_
  · simp only [h1, hlen1]
  · rcases h2 with ⟨h0, -⟩ | ⟨len', hm, hl'⟩
    · rw [hlen1] at h0; cases h0
    · have := huniq _ hm (by simpa using hl')
      exact (Prod.mk.inj this).1

/-- C13: in a ledger of a run whose pool is sorted ascending and ends with the
routine `r`, when exactly one gap `(a, len)` has `len ≥ size(r)`, the pass of
`performObviousSteps` maps `r` at `a + len - size(r)`, keeps the gap's start `a`
and sets its length to `len - size(r)` (the gap is removed when that is 0) and
removes `r` from the pool, all else unchanged; so the interval of `r` lies
inside `[a, a + len)`; and `performObviousSteps` goes on from that ledger. -/
theorem forced_placement_at_tail {lo hi : Int} {p : BinningProblem} (h : Reach lo hi p)
    {front : List SourceFile} {r : SourceFile} (hpool : p.floatingRoutines = front ++ [r])
    (_hsorted : p.floatingRoutines.Pairwise (fun x y => x.codeLength ≤ y.codeLength))
    {a len : Int} (hg : (a, len) ∈ p.gaps) (hlen : len ≥ r.codeLength)
    (huniq : ∀ g ∈ p.gaps, g.2 ≥ r.codeLength → g = (a, len)) :
    ∃ q, performObviousStep p = some q ∧
      (∀ e, e ∈ q.fixedRoutines ↔ e ∈ p.fixedRoutines ∨ e = (a + len - r.codeLength, r)) ∧
      (∀ e ∈ p.fixedRoutines, e.1 ≠ a + len - r.codeLength) ∧
      (∀ g, g ∈ q.gaps ↔ (g ∈ p.gaps ∧ g ≠ (a, len)) ∨
        (len - r.codeLength ≠ 0 ∧ g = (a, len - r.codeLength))) ∧
      KeysSorted q.gaps ∧ KeysSorted q.fixedRoutines ∧
      q.floatingRoutines = front ∧
      (a ≤ a + len - r.codeLength ∧ a + len - r.codeLength + r.codeLength ≤ a + len) ∧
      performObviousSteps p = performObviousSteps q := by
  have hinv := h.inv
  have hn : 0 < r.codeLength := hinv.floatingPos r (by rw [hpool]; simp)
  have hgs : KeysSorted p.gaps := hinv.gapsSorted
  have hrev : p.floatingRoutines.reverse = r :: front.reverse := by rw [hpool]; simp
  have hcount := countMatchingGaps_unique hgs hg hlen huniq
  have hne : ¬ p.gaps.isEmpty = true := by
    intro he
    rw [List.isEmpty_iff] at he
    rw [he] at hg
    simp at hg
  have hat : mapAt p.gaps a = len := mapAt_of_mem hgs hg
  have hgs1 : KeysSorted (mapAssign p.gaps a (len - r.codeLength)) :=
    keysSorted_mapAssign hgs _ _
  have hat1 : mapAt (mapAssign p.gaps a (len - r.codeLength)) a = len - r.codeLength :=
    mapAt_of_mem hgs1 ((mem_mapAssign hgs _ _ _).mpr (Or.inl rfl))
  have hfree := hinv.key_free (t := a + (len - r.codeLength)) hg (by omega) (by omega)
  have hstep : performObviousStep p
      = some ⟨mapAssign p.fixedRoutines (a + (len - r.codeLength)) r,
          if len - r.codeLength = 0 then mapErase (mapAssign p.gaps a (len - r.codeLength)) a
          else mapAssign p.gaps a (len - r.codeLength), front⟩ := by
    unfold performObviousStep
    rw [hrev]
    simp only
    rw [if_neg hne, hcount]
    simp only [if_true, hat, hat1, List.reverse_reverse]
  have hkey : ∀ g ∈ p.gaps, (g.1 ≠ a ↔ g ≠ (a, len)) := by
    intro g hgm
    constructor
    · rintro hne' rfl; exact hne' rfl
    · intro hne' hk
      exact hne' (keysSorted_unique hgs hgm hg hk)
  have e1 : a + (len - r.codeLength) = a + len - r.codeLength := by omega
  refine ⟨_, hstep, ?_, ?_, ?_, ?_, keysSorted_mapAssign hinv.fixedSorted _ _, rfl,
    ⟨by omega, by omega⟩, ?_⟩
  · intro e
    simp only
    rw [mem_mapAssign hinv.fixedSorted, e1]
    constructor
    · rintro (h1 | ⟨h1, _⟩)
      · exact Or.inr h1
      · exact Or.inl h1
    · rintro (h1 | h1)
      · exact Or.inr ⟨h1, e1 ▸ hfree e h1⟩
      · exact Or.inl h1
  · intro e he
    rw [← e1]
    exact hfree e he
  · intro g
    simp only
    by_cases h0 : len - r.codeLength = 0
    · rw [if_pos h0, mem_mapErase, mem_mapAssign hgs]
      constructor
      · rintro ⟨h1 | h1, hk⟩
        · rw [h1] at hk; exact absurd rfl hk
        · exact Or.inl ⟨h1.1, (hkey g h1.1).mp h1.2⟩
      · rintro (⟨h1, h2⟩ | ⟨h1, _⟩)
        · exact ⟨Or.inr ⟨h1, (hkey g h1).mpr h2⟩, (hkey g h1).mpr h2⟩
        · exact absurd h0 h1
    · rw [if_neg h0, mem_mapAssign hgs]
      constructor
      · rintro (h1 | h1)
        · exact Or.inr ⟨h0, h1⟩
        · exact Or.inl ⟨h1.1, (hkey g h1.1).mp h1.2⟩
      · rintro (⟨h1, h2⟩ | ⟨_, h1⟩)
        · exact Or.inr ⟨h1, (hkey g h1).mpr h2⟩
        · exact Or.inl h1
  · simp only
    split
    · exact keysSorted_mapErase hgs1 _
    · exact hgs1
  · rw [performObviousSteps_unfold p, hstep]

/-- C13 at the ledger of scenario A: the routine of 240 bytes is forced into
the gap `(0x0110, 240)`, at `0x0110`, and the gap is removed. -/
theorem forced_placement_at_tail_witness :
    ∃ q, performObviousStep ⟨[(0x0100, fixedAt 0 0x0100 16)], [(0x0110, 240)],
        [floatingOf 2 16, floatingOf 1 240]⟩ = some q ∧
      (∀ e, e ∈ q.fixedRoutines ↔ e ∈ ([(0x0100, fixedAt 0 0x0100 16)] :
          List (Int × SourceFile)) ∨
        e = (0x0110 + 240 - (floatingOf 1 240).codeLength, floatingOf 1 240)) ∧
      (∀ e ∈ ([(0x0100, fixedAt 0 0x0100 16)] : List (Int × SourceFile)),
        e.1 ≠ 0x0110 + 240 - (floatingOf 1 240).codeLength) ∧
      (∀ g, g ∈ q.gaps ↔ (g ∈ ([(0x0110, 240)] : List (Int × Int)) ∧ g ≠ (0x0110, 240)) ∨
        (240 - (floatingOf 1 240).codeLength ≠ 0 ∧
          g = (0x0110, 240 - (floatingOf 1 240).codeLength))) ∧
      KeysSorted q.gaps ∧ KeysSorted q.fixedRoutines ∧
      q.floatingRoutines = [floatingOf 2 16] ∧
      ((0x0110 : Int) ≤ 0x0110 + 240 - (floatingOf 1 240).codeLength ∧
        0x0110 + 240 - (floatingOf 1 240).codeLength + (floatingOf 1 240).codeLength
          ≤ 0x0110 + 240) ∧
      performObviousSteps ⟨[(0x0100, fixedAt 0 0x0100 16)], [(0x0110, 240)],
        [floatingOf 2 16, floatingOf 1 240]⟩ = performObviousSteps q :=
  @forced_placement_at_tail 0x0100 0x01FF
    ⟨[(0x0100, fixedAt 0 0x0100 16)], [(0x0110, 240)], [floatingOf 2 16, floatingOf 1 240]⟩
    (Reach.sort (Reach.built
      (@prepareBinningProblem_built 0x0100 0x01FF
        [fixedAt 0 0x0100 16, floatingOf 1 240, floatingOf 2 16] _ (by decide) rfl)))
    [floatingOf 2 16] (floatingOf 1 240) rfl (by decide) 0x0110 240 (by decide) (by decide)
    (by decide)

/-! ## Pruning and gap selection (C14, C15) -/

/-- With enough rounds the `while (repeat)` of `removeUselessGaps` leaves the
gaps that are not shorter than `minUsefulSize`, each as it was. -/
theorem removeUselessGapsLoop_eq_filter (minUsefulSize : Int) :
    ∀ (fuel : Nat) (gaps : List (Int × Int)), KeysSorted gaps → gaps.length ≤ fuel →
      removeUselessGapsLoop minUsefulSize fuel gaps
        = gaps.filter (fun g => decide (g.2 ≥ minUsefulSize)) := by
  intro fuel
  induction fuel with
  | zero =>
    intro gaps _ hl
    have hnil : gaps = [] := List.length_eq_zero.mp (by omega)
    simp [hnil, removeUselessGapsLoop]
  | succ fuel ih =>
    intro gaps hs hl
    unfold removeUselessGapsLoop
    cases hf : gaps.find? (fun gap => decide (gap.2 < minUsefulSize)) with
    | none =>
      simp only
      symm
      rw [List.filter_eq_self]
      intro g hg
      have := List.find?_eq_none.mp hf g hg
      simp only [decide_eq_true_eq, not_lt] at this
      simpa using this
    | some gap =>
      simp only
      have hm := List.mem_of_find?_eq_some hf
      have hshort : gap.2 < minUsefulSize := by simpa using List.find?_some hf
      have hlt := length_mapErase_lt hm
      rw [ih _ (keysSorted_mapErase hs _) (by omega)]
      unfold mapErase
      rw [List.filter_filter]
      apply List.filter_congr
      intro g hg
      by_cases hk : g.1 = gap.1
      · have := keysSorted_unique hs hg hm hk
        subst this
        have h1 : ¬ g.2 ≥ minUsefulSize := by omega
        simp [h1]
      · simp [hk]

/-- C14: for a ledger (its gaps a `std::map`, in key order) with a non-empty
pool sorted ascending by size, `removeUselessGaps` comes to its end and leaves
exactly the gaps whose length is at least the size of the smallest routine of
the pool, each as it was; `fixedRoutines` and the pool are unchanged. -/
theorem removeUselessGaps_keeps_useful (p : BinningProblem) (hs : KeysSorted p.gaps)
    (hne : p.floatingRoutines ≠ [])
    (hsorted : p.floatingRoutines.Pairwise (fun x y => x.codeLength ≤ y.codeLength)) :
    ∃ smallest ∈ p.floatingRoutines,
      (∀ r ∈ p.floatingRoutines, smallest.codeLength ≤ r.codeLength) ∧
      removeUselessGaps p
        = .ok ⟨p.fixedRoutines,
            p.gaps.filter (fun g => decide (g.2 ≥ smallest.codeLength)),
            p.floatingRoutines⟩ ∧
      (∀ fuel, p.gaps.length ≤ fuel →
        removeUselessGapsLoop smallest.codeLength fuel p.gaps
          = p.gaps.filter (fun g => decide (g.2 ≥ smallest.codeLength))) := by
  cases hfl : p.floatingRoutines with
  | nil => exact absurd hfl hne
  | cons first rest =>
    rw [hfl] at hsorted
    have hp := List.pairwise_cons.mp hsorted
    refine ⟨first, List.mem_cons_self _ _, ?_, ?_, ?_⟩
    · intro r hr
      rcases List.mem_cons.mp hr with rfl | hr'
      · exact Int.le_refl _
      · exact hp.1 r hr'
    · unfold removeUselessGaps
      rw [hfl]
      simp only
      rw [removeUselessGapsLoop_eq_filter _ _ _ hs (Nat.le_refl _)]
    · intro fuel hf
      exact removeUselessGapsLoop_eq_filter _ _ _ hs hf

/-- C14 at the ledger for `0 .. 10` with the gaps `(0, 1)`, `(2, 4)`, `(7, 4)` and
a pool of two routines of size 2: the gap `(0, 1)` is dropped. -/
theorem removeUselessGaps_keeps_useful_witness :
    ∃ smallest ∈ [floatingOf 2 2, floatingOf 3 2],
      (∀ r ∈ [floatingOf 2 2, floatingOf 3 2], smallest.codeLength ≤ r.codeLength) ∧
      removeUselessGaps ⟨[(1, fixedAt 0 1 1), (6, fixedAt 1 6 1)], [(0, 1), (2, 4), (7, 4)],
          [floatingOf 2 2, floatingOf 3 2]⟩
        = .ok ⟨[(1, fixedAt 0 1 1), (6, fixedAt 1 6 1)],
            ([(0, 1), (2, 4), (7, 4)] : List (Int × Int)).filter
              (fun g => decide (g.2 ≥ smallest.codeLength)),
            [floatingOf 2 2, floatingOf 3 2]⟩ ∧
      (∀ fuel, ([(0, 1), (2, 4), (7, 4)] : List (Int × Int)).length ≤ fuel →
        removeUselessGapsLoop smallest.codeLength fuel [(0, 1), (2, 4), (7, 4)]
          = ([(0, 1), (2, 4), (7, 4)] : List (Int × Int)).filter
              (fun g => decide (g.2 ≥ smallest.codeLength))) :=
  removeUselessGaps_keeps_useful
    ⟨[(1, fixedAt 0 1 1), (6, fixedAt 1 6 1)], [(0, 1), (2, 4), (7, 4)],
      [floatingOf 2 2, floatingOf 3 2]⟩
    (by unfold KeysSorted; decide) (by decide) (by decide)

/-- The scan of `selectGapToFill` from a gap `acc` on, over the gaps `t` that
follow it in key order: the result is `acc` or a gap of `t`, no gap is
shorter, and it is the first one of its length. -/
theorem selectGapToFill_fold_min (f : Int × Int → Int × Int → Int × Int)
    (hf : ∀ acc gap, f acc gap = if acc.2 < 0 ∨ gap.2 < acc.2 then (gap.1, gap.2) else acc) :
    ∀ (t : List (Int × Int)) (acc : Int × Int), 0 ≤ acc.2 → (∀ g ∈ t, 0 ≤ g.2) →
      (∀ g ∈ t, acc.1 < g.1) → KeysSorted t →
      (t.foldl f acc = acc ∨ t.foldl f acc ∈ t) ∧
      (t.foldl f acc).2 ≤ acc.2 ∧
      (∀ g ∈ t, (t.foldl f acc).2 ≤ g.2) ∧
      ((t.foldl f acc).2 = acc.2 → t.foldl f acc = acc) ∧
      (∀ g ∈ t, g.2 = (t.foldl f acc).2 → (t.foldl f acc).1 ≤ g.1) := by
  intro t
  induction t with
  | nil =>
    intro acc _ _ _ _
    simp
  | cons g t ih =>
    intro acc h0 hpos hkey hs
    have hs' := List.pairwise_cons.mp hs
    have hg0 : 0 ≤ g.2 := hpos g (List.mem_cons_self _ _)
    have hpos' : ∀ x ∈ t, 0 ≤ x.2 := fun x hx => hpos x (List.mem_cons_of_mem _ hx)
    simp only [List.foldl_cons]
    by_cases hc : acc.2 < 0 ∨ g.2 < acc.2
    · have hlt : g.2 < acc.2 := by omega
      have hfg : f acc g = g := by rw [hf, if_pos hc]
      rw [hfg]
      obtain ⟨i1, i2, i3, i4, i5⟩ := ih g hg0 hpos' (fun x hx => hs'.1 x hx) hs'.2
      refine ⟨Or.inr ?_, by omega, ?_, ?_, ?_⟩
      · rcases i1 with h | h
        · rw [h]; exact List.mem_cons_self _ _
        · exact List.mem_cons_of_mem _ h
      · intro x hx
        rcases List.mem_cons.mp hx with rfl | hx'
        · exact i2
        · exact i3 x hx'
      · intro he; omega
      · intro x hx he
        rcases List.mem_cons.mp hx with rfl | hx'
        · rw [i4 he.symm]
        · exact i5 x hx' he
    · have hfg : f acc g = acc := by rw [hf, if_neg hc]
      rw [hfg]
      obtain ⟨i1, i2, i3, i4, i5⟩ := ih acc h0 hpos'
        (fun x hx => hkey x (List.mem_cons_of_mem _ hx)) hs'.2
      refine ⟨?_, i2, ?_, i4, ?_⟩
      · rcases i1 with h | h
        · exact Or.inl h
        · exact Or.inr (List.mem_cons_of_mem _ h)
      · intro x hx
        rcases List.mem_cons.mp hx with rfl | hx'
        · omega
        · exact i3 x hx'
      · intro x hx he
        rcases List.mem_cons.mp hx with rfl | hx'
        · have hacc : t.foldl f acc = acc := i4 (by omega)
          rw [hacc]
          exact le_of_lt (hkey x (List.mem_cons_self _ _))
        · exact i5 x hx' he

/-- C15: for a non-empty gap set (a `std::map`, in key order) with positive
lengths, `selectGapToFill` returns the start address of a gap whose length is
minimal among all gaps, and among the gaps of that length the one with the
lowest start address. -/
theorem selectGapToFill_smallest_first (p : BinningProblem) (hs : KeysSorted p.gaps)
    (hne : p.gaps ≠ []) (hpos : ∀ g ∈ p.gaps, 0 < g.2) :
    ∃ len, (selectGapToFill p, len) ∈ p.gaps ∧ (∀ g ∈ p.gaps, len ≤ g.2) ∧
      (∀ g ∈ p.gaps, g.2 = len → selectGapToFill p ≤ g.1) := by
  unfold selectGapToFill
  cases hg : p.gaps with
  | nil => exact absurd hg hne
  | cons g0 t =>
    rw [hg] at hs hpos
    have hs' := List.pairwise_cons.mp hs
    have hg0 := hpos g0 (List.mem_cons_self _ _)
    simp only [List.foldl_cons]
    rw [if_pos (Or.inl (by decide))]
    obtain ⟨i1, i2, i3, i4, i5⟩ := selectGapToFill_fold_min
      (fun (acc : Int × Int) gap =>
        if acc.2 < 0 ∨ gap.2 < acc.2 then (gap.1, gap.2) else acc) (fun _ _ => rfl)
      t (g0.1, g0.2) (by simpa using le_of_lt hg0)
      (fun x hx => le_of_lt (hpos x (List.mem_cons_of_mem _ hx))) (fun x hx => hs'.1 x hx) hs'.2
    generalize List.foldl (fun (acc : Int × Int) gap =>
        if acc.2 < 0 ∨ gap.2 < acc.2 then (gap.1, gap.2) else acc) (g0.1, g0.2) t = r
      at i1 i2 i3 i4 i5 ⊢
    have hg0e : ((g0.1, g0.2) : Int × Int) = g0 := rfl
    rw [hg0e] at i1 i2 i4
    refine ⟨r.2, ?_, ?_, ?_⟩
    · show r ∈ g0 :: t
      rcases i1 with h | h
      · rw [h]; exact List.mem_cons_self _ _
      · exact List.mem_cons_of_mem _ h
    · intro x hx
      rcases List.mem_cons.mp hx with rfl | hx'
      · exact i2
      · exact i3 x hx'
    · intro x hx he
      rcases List.mem_cons.mp hx with rfl | hx'
      · rw [i4 he.symm]
      · exact i5 x hx' he

/-- C15 at the gaps `(0, 4)`, `(5, 3)`, `(9, 3)`: the gap at 5 is chosen. -/
theorem selectGapToFill_smallest_first_witness :
    ∃ len, (selectGapToFill ⟨[], [(0, 4), (5, 3), (9, 3)], []⟩, len) ∈
        ([(0, 4), (5, 3), (9, 3)] : List (Int × Int)) ∧
      (∀ g ∈ ([(0, 4), (5, 3), (9, 3)] : List (Int × Int)), len ≤ g.2) ∧
      (∀ g ∈ ([(0, 4), (5, 3), (9, 3)] : List (Int × Int)), g.2 = len →
        selectGapToFill ⟨[], [(0, 4), (5, 3), (9, 3)], []⟩ ≤ g.1) :=
  selectGapToFill_smallest_first ⟨[], [(0, 4), (5, 3), (9, 3)], []⟩
    (by unfold KeysSorted; decide) (by decide) (by decide)

/-! ## What `fillGap` records (C16) -/

/-- The loop of `fillGap` on routines of positive size that fit what is left
of the gap, with no placement inside that rest: it succeeds, maps every
routine right after the ones before it, and removes them from the pool. -/
theorem fillGapLoop_places (g L : Int) :
    ∀ (rs : List SourceFile) (off : Int) (F : List (Int × SourceFile)) (P : List SourceFile),
      KeysSorted F → (∀ e ∈ F, e.1 < g + off ∨ g + L ≤ e.1) → off + totalSize rs ≤ L →
      (∀ r ∈ rs, 0 < r.codeLength) →
      ∃ F', fillGapLoop g L rs off F P
          = .ok (off + totalSize rs, F', P.filter (fun x => decide (x ∉ rs))) ∧
        KeysSorted F' ∧
        ∀ e, e ∈ F' ↔ e ∈ F ∨
          ∃ pre r suf, rs = pre ++ r :: suf ∧ e = (g + off + totalSize pre, r) := by
  intro rs
  induction rs with
  | nil =>
    intro off F P hs _ _ _
    refine ⟨F, by simp [fillGapLoop, totalSize], hs, ?_⟩
    intro e
    constructor
    · exact fun h => Or.inl h
    · rintro (h | ⟨pre, r, suf, h, _⟩)
      · exact h
      · simp at h
  | cons r rest ih =>
    intro off F P hs hfree htot hpos
    have hn : 0 < r.codeLength := hpos r (List.mem_cons_self _ _)
    have hpos' : ∀ x ∈ rest, 0 < x.codeLength := fun x hx => hpos x (List.mem_cons_of_mem _ hx)
    have hrest : 0 ≤ totalSize rest := totalSize_nonneg hpos'
    rw [totalSize_cons] at htot
    have hs1 : KeysSorted (mapAssign F (g + off) r) := keysSorted_mapAssign hs _ _
    have hm1 : ∀ e, e ∈ mapAssign F (g + off) r ↔ e = (g + off, r) ∨ e ∈ F := by
      intro e
      rw [mem_mapAssign hs]
      constructor
      · rintro (h | ⟨h, _⟩)
        · exact Or.inl h
        · exact Or.inr h
      · rintro (h | h)
        · exact Or.inl h
        · refine Or.inr ⟨h, ?_⟩
          have := hfree e h
          omega
    have hfree1 : ∀ e ∈ mapAssign F (g + off) r,
        e.1 < g + (off + r.codeLength) ∨ g + L ≤ e.1 := by
      intro e he
      rcases (hm1 e).mp he with rfl | h
      · left; simp only; omega
      · have := hfree e h
        omega
    obtain ⟨F', hloop, hs', hm'⟩ :=
      ih (off + r.codeLength) (mapAssign F (g + off) r)
        (P.filter (fun x => decide (x ≠ r))) hs1 hfree1 (by omega) hpos'
    refine ⟨F', ?_, hs', ?_⟩
    · unfold fillGapLoop
      simp only
      rw [if_neg (by omega), hloop, totalSize_cons, List.filter_filter]
      have e1 : off + r.codeLength + totalSize rest = off + (r.codeLength + totalSize rest) := by
        omega
      rw [e1]
      congr 3
      apply List.filter_congr
      intro x _
      by_cases hx : x = r <;> simp [hx]
    · intro e
      rw [hm', hm1]
      constructor
      · rintro ((h | h) | ⟨pre, x, suf, hsplit, he⟩)
        · exact Or.inr ⟨[], r, rest, rfl, by simpa [totalSize] using h⟩
        · exact Or.inl h
        · refine Or.inr ⟨r :: pre, x, suf, by rw [hsplit]; rfl, ?_⟩
          rw [he, totalSize_cons]
          exact Prod.ext (by simp only; omega) rfl
      · rintro (h | ⟨pre, x, suf, hsplit, he⟩)
        · exact Or.inl (Or.inr h)
        · cases pre with
          | nil =>
            simp only [List.nil_append, List.cons.injEq] at hsplit
            obtain ⟨rfl, -⟩ := hsplit
            exact Or.inl (Or.inl (by simpa [totalSize] using he))
          | cons y pre' =>
            simp only [List.cons_append, List.cons.injEq] at hsplit
            obtain ⟨rfl, hrest'⟩ := hsplit
            refine Or.inr ⟨pre', x, suf, hrest', ?_⟩
            rw [he, totalSize_cons]
            exact Prod.ext (by simp only; omega) rfl

/-- C16: for a gap `(g, len)` of a ledger of a run and a list `r_1 .. r_k` of
distinct routines of the pool with `size(r_1) + .. + size(r_k) ≤ len`,
`fillGap(g, [r_1 .. r_k])` succeeds, maps each `r_i` at `g` plus the sizes of
the routines before it, overwrites no earlier placement and changes none,
removes exactly `r_1 .. r_k` from the pool, keeping the order of the rest, and
removes the gap `g` whole, also when the sizes sum to less than `len`; the
other gaps are unchanged. -/
theorem fillGap_places_back_to_back {lo hi : Int} {p : BinningProblem} (h : Reach lo hi p)
    {g len : Int} (hg : (g, len) ∈ p.gaps) (rs : List SourceFile) (_hnd : rs.Nodup)
    (hmem : ∀ r ∈ rs, r ∈ p.floatingRoutines) (htot : totalSize rs ≤ len) :
    ∃ p', fillGap p g rs = .ok p' ∧
      (∀ e, e ∈ p'.fixedRoutines ↔ e ∈ p.fixedRoutines ∨
        ∃ pre r suf, rs = pre ++ r :: suf ∧ e = (g + totalSize pre, r)) ∧
      (∀ pre r suf, rs = pre ++ r :: suf → ∀ e ∈ p.fixedRoutines, e.1 ≠ g + totalSize pre) ∧
      KeysSorted p'.fixedRoutines ∧
      p'.floatingRoutines = p.floatingRoutines.filter (fun x => decide (x ∉ rs)) ∧
      (∀ x, x ∈ p'.gaps ↔ x ∈ p.gaps ∧ x ≠ (g, len)) ∧
      p'.gaps.Sublist p.gaps := by
  have hinv := h.inv
  have hpos : ∀ r ∈ rs, 0 < r.codeLength := fun r hr => hinv.floatingPos r (hmem r hr)
  have hfree : ∀ e ∈ p.fixedRoutines, e.1 < g + 0 ∨ g + len ≤ e.1 := by
    intro e he
    have h1 := hinv.fixedIn e he
    have h2 := hinv.gapFixed (g, len) hg e he
    simp only at h2
    omega
  obtain ⟨F', hloop, hs', hm'⟩ :=
    fillGapLoop_places g len rs 0 p.fixedRoutines p.floatingRoutines hinv.fixedSorted hfree
      (by omega) hpos
  refine ⟨⟨F', mapErase p.gaps g, p.floatingRoutines.filter (fun x => decide (x ∉ rs))⟩,
    ?_, ?_, ?_, hs', rfl, ?_, List.filter_sublist _⟩
  · unfold fillGap
    rw [mapAt_of_mem hinv.gapsSorted hg, hloop]
  · intro e
    rw [hm' e]
    simp only [Int.add_zero]
  · intro pre r suf hsplit e he hk
    have h1 := hfree e he
    have hpre : 0 ≤ totalSize pre :=
      totalSize_nonneg (fun x hx => hpos x (by rw [hsplit]; simp [hx]))
    have hsuf : 0 ≤ totalSize suf :=
      totalSize_nonneg (fun x hx => hpos x (by rw [hsplit]; simp [hx]))
    have hr := hpos r (by rw [hsplit]; simp)
    rw [hsplit, totalSize_append, totalSize_cons] at htot
    omega
  · intro x
    simp only
    rw [mem_mapErase]
    constructor
    · rintro ⟨h1, h2⟩
      refine ⟨h1, ?_⟩
      rintro rfl
      exact h2 rfl
    · rintro ⟨h1, h2⟩
      refine ⟨h1, ?_⟩
      intro hk
      exact h2 (keysSorted_unique hinv.gapsSorted h1 hg hk)

/-- C16 at the ledger for `0 .. 6` with the gaps `(0, 3)` and `(4, 3)`: the
routines of sizes 1 and 2 are placed at 0 and 1. -/
theorem fillGap_places_back_to_back_witness :
    ∃ p', fillGap ⟨[(3, fixedAt 0 3 1)], [(0, 3), (4, 3)], [floatingOf 1 1, floatingOf 2 2]⟩ 0
        [floatingOf 1 1, floatingOf 2 2] = .ok p' ∧
      (∀ e, e ∈ p'.fixedRoutines ↔ e ∈ ([(3, fixedAt 0 3 1)] : List (Int × SourceFile)) ∨
        ∃ pre r suf, [floatingOf 1 1, floatingOf 2 2] = pre ++ r :: suf ∧
          e = (0 + totalSize pre, r)) ∧
      (∀ pre r suf, [floatingOf 1 1, floatingOf 2 2] = pre ++ r :: suf →
        ∀ e ∈ ([(3, fixedAt 0 3 1)] : List (Int × SourceFile)), e.1 ≠ 0 + totalSize pre) ∧
      KeysSorted p'.fixedRoutines ∧
      p'.floatingRoutines = [floatingOf 1 1, floatingOf 2 2].filter
        (fun x => decide (x ∉ [floatingOf 1 1, floatingOf 2 2])) ∧
      (∀ x, x ∈ p'.gaps ↔ x ∈ ([(0, 3), (4, 3)] : List (Int × Int)) ∧ x ≠ (0, 3)) ∧
      p'.gaps.Sublist [(0, 3), (4, 3)] :=
  @fillGap_places_back_to_back 0 6
    ⟨[(3, fixedAt 0 3 1)], [(0, 3), (4, 3)], [floatingOf 1 1, floatingOf 2 2]⟩
    (Reach.built (@prepareBinningProblem_built 0 6
      [fixedAt 0 3 1, floatingOf 1 1, floatingOf 2 2] _ (by decide) rfl))
    0 3 (by decide) [floatingOf 1 1, floatingOf 2 2] (by decide) (by decide) (by decide)

/-! ## The scenarios (C17, C18) -/

/-- C17, scenario A: for `BinningProblem(0x0100, 0x01FF)` with a fixed routine of
size 16 at `0x0100` and floating routines of sizes 240 and 16 (registered in
either order), registration leaves the single gap `(0x0110, 240)`; `Solver::run`
then maps the routine of 240 bytes at `0x0110`, leaves no gap, leaves the
routine of 16 bytes in the pool and ends with `isSolved()` false. -/
theorem scenario_A :
    prepareBinningProblem 0x0100 0x01FF [fixedAt 0 0x0100 16, floatingOf 1 240, floatingOf 2 16]
        = .ok ⟨[(0x0100, fixedAt 0 0x0100 16)], [(0x0110, 240)],
            [floatingOf 1 240, floatingOf 2 16]⟩ ∧
      Solver.run ⟨[(0x0100, fixedAt 0 0x0100 16)], [(0x0110, 240)],
          [floatingOf 1 240, floatingOf 2 16]⟩
        = some (.ok ⟨[(0x0100, fixedAt 0 0x0100 16), (0x0110, floatingOf 1 240)], [],
            [floatingOf 2 16]⟩) ∧
      prepareBinningProblem 0x0100 0x01FF [fixedAt 0 0x0100 16, floatingOf 2 16, floatingOf 1 240]
        = .ok ⟨[(0x0100, fixedAt 0 0x0100 16)], [(0x0110, 240)],
            [floatingOf 2 16, floatingOf 1 240]⟩ ∧
      Solver.run ⟨[(0x0100, fixedAt 0 0x0100 16)], [(0x0110, 240)],
          [floatingOf 2 16, floatingOf 1 240]⟩
        = some (.ok ⟨[(0x0100, fixedAt 0 0x0100 16), (0x0110, floatingOf 1 240)], [],
            [floatingOf 2 16]⟩) ∧
      isSolved ⟨[(0x0100, fixedAt 0 0x0100 16), (0x0110, floatingOf 1 240)], [],
        [floatingOf 2 16]⟩ = false :=
  ⟨rfl, rfl, rfl, rfl, rfl⟩

theorem mem_mapAssign_self {V : Type} (m : List (Int × V)) (k : Int) (v : V) :
    (k, v) ∈ mapAssign m k v := by
  induction m with
  | nil => simp [mapAssign]
  | cons a t ih =>
    unfold mapAssign
    split
    · exact List.mem_cons_self _ _
    · split
      · exact List.mem_cons_self _ _
      · exact List.mem_cons_of_mem _ ih

/-- C18, scenario B: for a ledger whose only gap `(a, 15)` has length 15 and
whose pool holds two routines of size 10, `findPartialSolution(15)` selects
exactly one of the two, the second (total 10); `fillGap` with that selection
maps it at `a`, removes the gap and leaves the first routine in the pool, so
that the ledger has no gap and is not solved. -/
theorem scenario_B (p : BinningProblem) (a : Int) (r1 r2 : SourceFile)
    (hgaps : p.gaps = [(a, 15)]) (hpool : p.floatingRoutines = [r1, r2])
    (h1 : r1.codeLength = 10) (h2 : r2.codeLength = 10) (hne : r1 ≠ r2) :
    findPartialSolution p 15 = .ok [r2] ∧ totalSize [r2] = 10 ∧
      fillGap p a [r2] = .ok ⟨mapAssign p.fixedRoutines a r2, [], [r1]⟩ ∧
      (a, r2) ∈ mapAssign p.fixedRoutines a r2 ∧
      isSolved ⟨mapAssign p.fixedRoutines a r2, [], [r1]⟩ = false := by
  have hpos : ∀ r ∈ p.floatingRoutines, 0 < r.codeLength := by
    intro r hr
    rw [hpool] at hr
    simp only [List.mem_cons, List.mem_singleton, List.not_mem_nil, or_false] at hr
    rcases hr with rfl | rfl <;> omega
  refine ⟨?_, by simp [totalSize, h2], ?_, mem_mapAssign_self _ _ _, rfl⟩
  · rw [findPartialSolution_eq p 15 hpos (by decide), hpool]
    have htw : List.takeWhile (fun r => decide (r.codeLength ≤ (15 : Int))) [r1, r2] = [r1, r2] := by
      simp [List.takeWhile, h1, h2]
    rw [htw]
    have hk : knapsack [r1, r2] [r1, r2].length 15 = (10, [false, true]) := by
      simp [knapsack, h1, h2]
    rw [hk]
    simp [pick]
  · unfold fillGap
    have hat : mapAt p.gaps a = 15 := by simp [mapAt, hgaps]
    rw [hat, hpool, hgaps]
    have hf : List.filter (fun r => !decide (r = r2)) [r1, r2] = [r1] := by
      simp [List.filter, hne]
    simp [fillGapLoop, h2, hf, mapErase]

/-- C18 at the ledger for `0 .. 14` with two floating routines of size 10. -/
theorem scenario_B_witness :
    findPartialSolution ⟨[], [(0, 15)], [floatingOf 0 10, floatingOf 1 10]⟩ 15
        = .ok [floatingOf 1 10] ∧
      totalSize [floatingOf 1 10] = 10 ∧
      fillGap ⟨[], [(0, 15)], [floatingOf 0 10, floatingOf 1 10]⟩ 0 [floatingOf 1 10]
        = .ok ⟨mapAssign [] 0 (floatingOf 1 10), [], [floatingOf 0 10]⟩ ∧
      (0, floatingOf 1 10) ∈ mapAssign ([] : List (Int × SourceFile)) 0 (floatingOf 1 10) ∧
      isSolved ⟨mapAssign [] 0 (floatingOf 1 10), [], [floatingOf 0 10]⟩ = false :=
  scenario_B ⟨[], [(0, 15)], [floatingOf 0 10, floatingOf 1 10]⟩ 0 (floatingOf 0 10)
    (floatingOf 1 10) rfl rfl rfl rfl (by decide)

/-! ## Order of the pool after `addToProblem` (C19) -/

/-- C19 fails on the code: `addToProblem` appends a floating routine to the
pool and does not sort.  The pool holding one routine of size 5 is sorted;
after `addToProblem` with a floating routine of size 3 the pool holds the
sizes 5, 3 in this order, which is not ascending. -/
theorem addToProblem_leaves_pool_unsorted :
    ([floatingOf 0 5] : List SourceFile).Pairwise (fun x y => x.codeLength ≤ y.codeLength) ∧
      0 < (floatingOf 1 3).codeLength ∧
      addToProblem ⟨[], [(0, 10)], [floatingOf 0 5]⟩ (floatingOf 1 3)
        = (⟨[], [(0, 10)], [floatingOf 0 5, floatingOf 1 3]⟩, none) ∧
      ¬ ([floatingOf 0 5, floatingOf 1 3] : List SourceFile).Pairwise
        (fun x y => x.codeLength ≤ y.codeLength) :=
  ⟨by decide, by decide, rfl, by decide⟩

/-! ## `KS` and the recurrence of the specification (C20) -/

/-- The recurrence of the specification, on the sizes of the routines, is the
recurrence `KS` memoises. -/
theorem specRecurrence_eq_knapsack (routines : List SourceFile) :
    ∀ n, n ≤ routines.length → ∀ C : Int,
      specRecurrence (routines.map (fun r => r.codeLength)) n C = knapsack routines n C := by
  intro n
  induction n with
  | zero => intro _ C; simp [specRecurrence, knapsack]
  | succ n ih =>
    intro hn C
    have hn' : n < routines.length := by omega
    have hr : routines[n]? = some routines[n] := List.getElem?_eq_getElem hn'
    have hs : (routines.map (fun r => r.codeLength)).getD n 0 = (routines[n]).codeLength := by
      simp [List.getD, hr]
    have ih' := ih (by omega)
    unfold specRecurrence knapsack
    by_cases hC : C = 0
    · rw [if_pos hC, if_pos hC]
    · rw [if_neg hC, if_neg hC]
      simp only [hr, hs, ih']

/-- C20: for routines of positive sizes, `n` of them and a capacity `C ≥ 0`,
`KS` called with an empty decision list and caches (one row per routine, at
least `C` columns) in which every entry is still `-1`/empty returns the value
and the decision list of the recurrence `f` of the specification; and on the
caches that call leaves, every further call returns the value and the
decision list of `f` again: memoization never changes the result. -/
theorem KS_refines_specRecurrence (routines : List SourceFile)
    (hpos : ∀ r ∈ routines, 0 < r.codeLength) (n : Nat) (hn : n ≤ routines.length)
    (C : Int) (hC : 0 ≤ C) (cols : Nat) (hcols : C ≤ cols) :
    ∃ cacheV' cacheS',
      KS routines n C [] (List.replicate routines.length (List.replicate cols (-1)))
          (List.replicate routines.length (List.replicate cols []))
        = .ok ((specRecurrence (routines.map (fun r => r.codeLength)) n C).1,
            (specRecurrence (routines.map (fun r => r.codeLength)) n C).2,
            cacheV', cacheS') ∧
      ∀ (n' : Nat) (C' : Int), n' ≤ routines.length → 0 ≤ C' → C' ≤ cols →
        ∃ cacheV'' cacheS'',
          KS routines n' C' [] cacheV' cacheS'
            = .ok ((specRecurrence (routines.map (fun r => r.codeLength)) n' C').1,
                (specRecurrence (routines.map (fun r => r.codeLength)) n' C').2,
                cacheV'', cacheS'') := by
  obtain ⟨cV, cS, hks, hdV, hdS, hok⟩ :=
    KS_eq_knapsack routines cols hpos n hn C _ _ hC hcols
      (cacheDims_replicate _ _ _) (cacheDims_replicate _ _ _) (cacheOK_fresh _ _ _)
  refine ⟨cV, cS, ?_, ?_⟩
  · rw [specRecurrence_eq_knapsack routines n hn C]
    exact hks
  · intro n' C' hn' hC' hcols'
    obtain ⟨cV', cS', hks', -, -, -⟩ :=
      KS_eq_knapsack routines cols hpos n' hn' C' cV cS hC' hcols' hdV hdS hok
    refine ⟨cV', cS', ?_⟩
    rw [specRecurrence_eq_knapsack routines n' hn' C']
    exact hks'

/-- C20 at routines of sizes 2, 3 and 4 and capacity 6: value 6, taking the
routines of sizes 2 and 4. -/
theorem KS_refines_specRecurrence_witness :
    ∃ cacheV' cacheS',
      KS [floatingOf 0 2, floatingOf 1 3, floatingOf 2 4] 3 6 []
          (List.replicate [floatingOf 0 2, floatingOf 1 3, floatingOf 2 4].length
            (List.replicate 6 (-1)))
          (List.replicate [floatingOf 0 2, floatingOf 1 3, floatingOf 2 4].length
            (List.replicate 6 []))
        = .ok ((specRecurrence
              ([floatingOf 0 2, floatingOf 1 3, floatingOf 2 4].map (fun r => r.codeLength))
              3 6).1,
            (specRecurrence
              ([floatingOf 0 2, floatingOf 1 3, floatingOf 2 4].map (fun r => r.codeLength))
              3 6).2,
            cacheV', cacheS') ∧
      ∀ (n' : Nat) (C' : Int),
        n' ≤ [floatingOf 0 2, floatingOf 1 3, floatingOf 2 4].length → 0 ≤ C' →
        C' ≤ ((6 : Nat) : Int) →
        ∃ cacheV'' cacheS'',
          KS [floatingOf 0 2, floatingOf 1 3, floatingOf 2 4] n' C' [] cacheV' cacheS'
            = .ok ((specRecurrence
                  ([floatingOf 0 2, floatingOf 1 3, floatingOf 2 4].map
                    (fun r => r.codeLength)) n' C').1,
                (specRecurrence
                  ([floatingOf 0 2, floatingOf 1 3, floatingOf 2 4].map
                    (fun r => r.codeLength)) n' C').2,
                cacheV'', cacheS'') :=
  KS_refines_specRecurrence [floatingOf 0 2, floatingOf 1 3, floatingOf 2 4] (by decide) 3
    (by decide) 6 (by decide) 6 (by decide)

/-- The value and the decisions of the recurrence of the specification at the
routines of sizes 2, 3 and 4 and capacity 6. -/
theorem specRecurrence_example :
    specRecurrence [2, 3, 4] 3 6 = (6, [true, false, true]) := by
  decide

/-! ## Where `performObviousSteps` stops (C21) -/

/-- When `performObviousSteps` returns, its loop body would end the loop. -/
theorem performObviousStepsLoop_stops :
    ∀ (rev : List SourceFile) (gaps : List (Int × Int))
      (fixedRoutines : List (Int × SourceFile)),
      performObviousStep (performObviousStepsLoop rev gaps fixedRoutines) = none := by
  intro rev
  induction rev with
  | nil =>
    intro gaps fixedRoutines
    simp [performObviousStepsLoop, performObviousStep]
  | cons back rest ih =>
    intro gaps fixedRoutines
    rw [performObviousStepsLoop.eq_2]
    by_cases he : gaps.isEmpty = true
    · rw [if_pos he]
      unfold performObviousStep
      simp only [List.reverse_reverse]
      rw [if_pos he]
    · rw [if_neg he]
      simp only
      by_cases h1 : (countMatchingGaps gaps back.codeLength).1 = 1
      · rw [if_pos h1]
        exact ih _ _
      · rw [if_neg h1]
        unfold performObviousStep
        simp only [List.reverse_reverse]
        rw [if_neg he, if_neg h1]

theorem countMatchingGaps_eq_length (gaps : List (Int × Int)) (routineSize : Int) :
    (countMatchingGaps gaps routineSize).1
      = (gaps.filter (fun g => decide (g.2 ≥ routineSize))).length := by
  have := (countMatchingGaps_foldl routineSize gaps (0, 0)).1
  unfold countMatchingGaps
  simpa using this

/-- C21, as the code has it: when `performObviousSteps` returns with both the
pool and the gap set non-empty, the last routine of the pool (the largest one
of a sorted pool) does not have exactly one gap large enough to hold it; and
if the pool is sorted and some gap is large enough for its last routine, no
routine of the pool has exactly one gap large enough. -/
theorem performObviousSteps_stops_at_largest (p : BinningProblem)
    (hpool : (performObviousSteps p).floatingRoutines ≠ [])
    (hgaps : (performObviousSteps p).gaps ≠ []) :
    ∃ last, (performObviousSteps p).floatingRoutines.getLast? = some last ∧
      ((performObviousSteps p).gaps.filter
        (fun g => decide (g.2 ≥ last.codeLength))).length ≠ 1 ∧
      ((performObviousSteps p).floatingRoutines.Pairwise
          (fun x y => x.codeLength ≤ y.codeLength) →
        1 ≤ ((performObviousSteps p).gaps.filter
          (fun g => decide (g.2 ≥ last.codeLength))).length →
        ∀ r ∈ (performObviousSteps p).floatingRoutines,
          ((performObviousSteps p).gaps.filter
            (fun g => decide (g.2 ≥ r.codeLength))).length ≠ 1) := by
  have hstop : performObviousStep (performObviousSteps p) = none :=
    performObviousStepsLoop_stops _ _ _
  generalize performObviousSteps p = q at hpool hgaps hstop ⊢
  cases hrev : q.floatingRoutines.reverse with
  | nil =>
    exfalso
    apply hpool
    simpa using hrev
  | cons back rest =>
    have hfl : q.floatingRoutines = rest.reverse ++ [back] := by
      have := congrArg List.reverse hrev
      simpa using this
    have hne : ¬ q.gaps.isEmpty = true := by
      rw [List.isEmpty_iff]; exact hgaps
    have hcount : ¬ (countMatchingGaps q.gaps back.codeLength).1 = 1 := by
      intro h1
      unfold performObviousStep at hstop
      rw [hrev] at hstop
      simp only at hstop
      rw [if_neg hne, if_pos h1] at hstop
      cases hstop
    rw [countMatchingGaps_eq_length] at hcount
    refine ⟨back, by rw [hfl]; simp, hcount, ?_⟩
    intro hsorted hone r hr
    rw [hfl] at hsorted hr
    have hle : r.codeLength ≤ back.codeLength := by
      rcases List.mem_append.mp hr with h1 | h1
      · exact (List.pairwise_append.mp hsorted).2.2 r h1 back (by simp)
      · simp only [List.mem_singleton] at h1
        rw [h1]
    have hsub : (q.gaps.filter (fun g => decide (g.2 ≥ back.codeLength))).Sublist
        (q.gaps.filter (fun g => decide (g.2 ≥ r.codeLength))) := by
      apply List.monotone_filter_right
      intro g hg
      simp only [decide_eq_true_eq] at hg ⊢
      omega
    have := hsub.length_le
    omega

/-- The amended C21 at the ledger for `0 .. 11` with the gaps `(0, 3)`, `(4, 3)`
and `(8, 4)` and a pool of sizes 4 and 5. -/
theorem performObviousSteps_stops_at_largest_witness :
    ∃ last, (performObviousSteps ⟨[(3, fixedAt 0 3 1), (7, fixedAt 1 7 1)],
        [(0, 3), (4, 3), (8, 4)], [floatingOf 2 4, floatingOf 3 5]⟩).floatingRoutines.getLast?
        = some last ∧
      ((performObviousSteps ⟨[(3, fixedAt 0 3 1), (7, fixedAt 1 7 1)],
        [(0, 3), (4, 3), (8, 4)], [floatingOf 2 4, floatingOf 3 5]⟩).gaps.filter
        (fun g => decide (g.2 ≥ last.codeLength))).length ≠ 1 ∧
      ((performObviousSteps ⟨[(3, fixedAt 0 3 1), (7, fixedAt 1 7 1)],
          [(0, 3), (4, 3), (8, 4)], [floatingOf 2 4, floatingOf 3 5]⟩).floatingRoutines.Pairwise
          (fun x y => x.codeLength ≤ y.codeLength) →
        1 ≤ ((performObviousSteps ⟨[(3, fixedAt 0 3 1), (7, fixedAt 1 7 1)],
          [(0, 3), (4, 3), (8, 4)], [floatingOf 2 4, floatingOf 3 5]⟩).gaps.filter
          (fun g => decide (g.2 ≥ last.codeLength))).length →
        ∀ r ∈ (performObviousSteps ⟨[(3, fixedAt 0 3 1), (7, fixedAt 1 7 1)],
          [(0, 3), (4, 3), (8, 4)], [floatingOf 2 4, floatingOf 3 5]⟩).floatingRoutines,
          ((performObviousSteps ⟨[(3, fixedAt 0 3 1), (7, fixedAt 1 7 1)],
            [(0, 3), (4, 3), (8, 4)], [floatingOf 2 4, floatingOf 3 5]⟩).gaps.filter
            (fun g => decide (g.2 ≥ r.codeLength))).length ≠ 1) :=
  performObviousSteps_stops_at_largest
    ⟨[(3, fixedAt 0 3 1), (7, fixedAt 1 7 1)], [(0, 3), (4, 3), (8, 4)],
      [floatingOf 2 4, floatingOf 3 5]⟩ (by decide) (by decide)

/-- C21 fails on the code: range `0 .. 11`, fixed routines of size 1 at 3 and 7,
floating routines of sizes 4 and 5.  No gap holds the routine of size 5, so
`performObviousSteps` returns at once, with pool and gaps as they were; the
routine of size 4 is still in the pool and exactly one gap, `(8, 4)`, is large
enough to hold it. -/
theorem performObviousSteps_leaves_forced_routine :
    prepareBinningProblem 0 11 [fixedAt 0 3 1, fixedAt 1 7 1, floatingOf 2 4, floatingOf 3 5]
        = .ok ⟨[(3, fixedAt 0 3 1), (7, fixedAt 1 7 1)], [(0, 3), (4, 3), (8, 4)],
            [floatingOf 2 4, floatingOf 3 5]⟩ ∧
      performObviousSteps (sortFloatingRoutinesBySize
          ⟨[(3, fixedAt 0 3 1), (7, fixedAt 1 7 1)], [(0, 3), (4, 3), (8, 4)],
            [floatingOf 2 4, floatingOf 3 5]⟩)
        = ⟨[(3, fixedAt 0 3 1), (7, fixedAt 1 7 1)], [(0, 3), (4, 3), (8, 4)],
            [floatingOf 2 4, floatingOf 3 5]⟩ ∧
      floatingOf 2 4 ∈ [floatingOf 2 4, floatingOf 3 5] ∧
      (([(0, 3), (4, 3), (8, 4)] : List (Int × Int)).filter
        (fun g => decide (g.2 ≥ (floatingOf 2 4).codeLength))) = [(8, 4)] :=
  ⟨rfl, rfl, by decide, by decide⟩

/-! ## Faults of the run (C22, C23) -/

/-- On a well-formed ledger a pass through the body of the loop can only end
the run by the read of `floatingRoutines[0]` in `removeUselessGaps`, the pool
having been emptied by `performObviousSteps`. -/
theorem runBody_error {lo hi : Int} {p : BinningProblem} {e : Fault} (hinv : Inv lo hi p)
    (h : Solver.runBody p = .error e) :
    e = .outOfBounds ∧ (performObviousSteps p).floatingRoutines = [] := by
  obtain ⟨hinv1, -, -⟩ := performObviousSteps_spec hinv
  unfold Solver.runBody at h
  simp only at h
  cases hu : removeUselessGaps (performObviousSteps p) with
  | error e' =>
    simp only [hu] at h
    cases h
    unfold removeUselessGaps at hu
    split at hu
    · rename_i hnil
      cases hu
      exact ⟨rfl, hnil⟩
    · cases hu
  | ok p2 =>
    simp only [hu] at h
    obtain ⟨hinv2, -⟩ := removeUselessGaps_spec hinv1 hu
    split at h
    · cases h
    · rename_i hguard
      have hne : p2.gaps ≠ [] := by
        intro hnil
        apply hguard
        left
        simp [hnil]
      obtain ⟨sel, p3, h1, h2, -, -, -⟩ := solver_fill_spec hinv2 hne
      simp only [h1, h2] at h
      cases h

theorem runLoop_error {lo hi : Int} :
    ∀ (fuel : Nat) (p : BinningProblem) (e : Fault), Inv lo hi p →
      Solver.runLoop fuel p = some (.error e) → e = .outOfBounds := by
  intro fuel
  induction fuel with
  | zero =>
    intro p e _ h
    unfold Solver.runLoop at h
    split at h
    · cases h
    · cases h
  | succ fuel ih =>
    intro p e hinv h
    unfold Solver.runLoop at h
    split at h
    · cases h
    · simp only at h
      cases hbody : Solver.runBody p with
      | error e' =>
        simp only [hbody] at h
        cases h
        exact (runBody_error hinv hbody).1
      | ok res =>
        obtain ⟨b, q⟩ := res
        obtain ⟨hinvq, -⟩ := runBody_spec hinv hbody
        cases b with
        | false =>
          simp only [hbody] at h
          cases h
        | true =>
          simp only [hbody] at h
          exact ih q e hinvq h

/-- C22: during `Solver::run` on a ledger of a run with routines of positive
size neither internal-error abort is reached: the decision list `KS` returns
has as many entries as there are eligible routines, so `findPartialSolution`
passes its length check and returns a selection, and `fillGap` on that
selection keeps its running offset within the selected gap and returns; no
pass of the loop and no run ends with the internal error. -/
theorem no_internal_error {lo hi : Int} {p : BinningProblem} (h : Reach lo hi p) :
    (∀ gapSize : Int, 0 ≤ gapSize →
      ∃ v solution cacheV cacheS,
        KS (p.floatingRoutines.takeWhile (fun r => decide (r.codeLength ≤ gapSize)))
            (p.floatingRoutines.takeWhile (fun r => decide (r.codeLength ≤ gapSize))).length
            gapSize []
            (List.replicate
              (p.floatingRoutines.takeWhile (fun r => decide (r.codeLength ≤ gapSize))).length
              (List.replicate gapSize.toNat (-1)))
            (List.replicate
              (p.floatingRoutines.takeWhile (fun r => decide (r.codeLength ≤ gapSize))).length
              (List.replicate gapSize.toNat []))
          = .ok (v, solution, cacheV, cacheS) ∧
        solution.length
          = (p.floatingRoutines.takeWhile (fun r => decide (r.codeLength ≤ gapSize))).length) ∧
      (p.gaps ≠ [] →
        ∃ sel p', findPartialSolution p (mapAt p.gaps (selectGapToFill p)) = .ok sel ∧
          fillGap p (selectGapToFill p) sel = .ok p') ∧
      Solver.runBody p ≠ .error .internalError ∧
      (∀ fuel, Solver.runLoop fuel p ≠ some (.error .internalError)) ∧
      Solver.run p ≠ some (.error .internalError) := by
  have hinv := h.inv
  refine ⟨?_, ?_, ?_, ?_, ?_⟩
  · intro gapSize h0
    have hpos' : ∀ r ∈ p.floatingRoutines.takeWhile (fun r => decide (r.codeLength ≤ gapSize)),
        0 < r.codeLength := fun r hr => hinv.floatingPos r ((List.takeWhile_sublist _).subset hr)
    obtain ⟨cV, cS, hks, -, -, -⟩ :=
      KS_eq_knapsack _ gapSize.toNat hpos' _ (Nat.le_refl _) gapSize
        (List.replicate _ (List.replicate gapSize.toNat (-1)))
        (List.replicate _ (List.replicate gapSize.toNat [])) h0 (by omega)
        (cacheDims_replicate _ _ _) (cacheDims_replicate _ _ _) (cacheOK_fresh _ _ _)
    exact ⟨_, _, cV, cS, hks, (knapsack_spec _ hpos' _ (Nat.le_refl _) gapSize h0).1⟩
  · intro hne
    obtain ⟨sel, p', h1, h2, -, -, -⟩ := solver_fill_spec hinv hne
    exact ⟨sel, p', h1, h2⟩
  · intro hcon
    have := (runBody_error hinv hcon).1
    cases this
  · intro fuel hcon
    have := runLoop_error fuel p _ hinv hcon
    cases this
  · intro hcon
    have := runLoop_error _ _ _ (sortFloatingRoutinesBySize_spec hinv).1 hcon
    cases this

/-- C22 at the ledger for `0 .. 6` with the gaps `(0, 3)` and `(4, 3)` and
floating routines of sizes 1 and 2. -/
theorem no_internal_error_witness :
    (∀ gapSize : Int, 0 ≤ gapSize →
      ∃ v solution cacheV cacheS,
        KS ([floatingOf 1 1, floatingOf 2 2].takeWhile
              (fun r => decide (r.codeLength ≤ gapSize)))
            ([floatingOf 1 1, floatingOf 2 2].takeWhile
              (fun r => decide (r.codeLength ≤ gapSize))).length
            gapSize []
            (List.replicate
              ([floatingOf 1 1, floatingOf 2 2].takeWhile
                (fun r => decide (r.codeLength ≤ gapSize))).length
              (List.replicate gapSize.toNat (-1)))
            (List.replicate
              ([floatingOf 1 1, floatingOf 2 2].takeWhile
                (fun r => decide (r.codeLength ≤ gapSize))).length
              (List.replicate gapSize.toNat []))
          = .ok (v, solution, cacheV, cacheS) ∧
        solution.length
          = ([floatingOf 1 1, floatingOf 2 2].takeWhile
              (fun r => decide (r.codeLength ≤ gapSize))).length) ∧
      (([(0, 3), (4, 3)] : List (Int × Int)) ≠ [] →
        ∃ sel p', findPartialSolution
            ⟨[(3, fixedAt 0 3 1)], [(0, 3), (4, 3)], [floatingOf 1 1, floatingOf 2 2]⟩
            (mapAt [(0, 3), (4, 3)] (selectGapToFill
              ⟨[(3, fixedAt 0 3 1)], [(0, 3), (4, 3)], [floatingOf 1 1, floatingOf 2 2]⟩))
            = .ok sel ∧
          fillGap ⟨[(3, fixedAt 0 3 1)], [(0, 3), (4, 3)], [floatingOf 1 1, floatingOf 2 2]⟩
            (selectGapToFill
              ⟨[(3, fixedAt 0 3 1)], [(0, 3), (4, 3)], [floatingOf 1 1, floatingOf 2 2]⟩) sel
            = .ok p') ∧
      Solver.runBody ⟨[(3, fixedAt 0 3 1)], [(0, 3), (4, 3)], [floatingOf 1 1, floatingOf 2 2]⟩
        ≠ .error .internalError ∧
      (∀ fuel, Solver.runLoop fuel
        ⟨[(3, fixedAt 0 3 1)], [(0, 3), (4, 3)], [floatingOf 1 1, floatingOf 2 2]⟩
        ≠ some (.error .internalError)) ∧
      Solver.run ⟨[(3, fixedAt 0 3 1)], [(0, 3), (4, 3)], [floatingOf 1 1, floatingOf 2 2]⟩
        ≠ some (.error .internalError) :=
  @no_internal_error 0 6
    ⟨[(3, fixedAt 0 3 1)], [(0, 3), (4, 3)], [floatingOf 1 1, floatingOf 2 2]⟩
    (Reach.built (@prepareBinningProblem_built 0 6
      [fixedAt 0 3 1, floatingOf 1 1, floatingOf 2 2] _ (by decide) rfl))

/-- C23 fails on the code: range `0 .. 9` with one floating routine of size 2.
`performObviousSteps` forces the routine into the only gap and leaves the pool
empty; `removeUselessGaps`, called next, reads `floatingRoutines[0]` of the
empty pool. -/
theorem removeUselessGaps_reads_empty_pool :
    prepareBinningProblem 0 9 [floatingOf 0 2] = .ok ⟨[], [(0, 10)], [floatingOf 0 2]⟩ ∧
      performObviousSteps (sortFloatingRoutinesBySize ⟨[], [(0, 10)], [floatingOf 0 2]⟩)
        = ⟨[(8, floatingOf 0 2)], [(0, 8)], []⟩ ∧
      removeUselessGaps ⟨[(8, floatingOf 0 2)], [(0, 8)], []⟩ = .error .outOfBounds ∧
      Solver.run ⟨[], [(0, 10)], [floatingOf 0 2]⟩ = some (.error .outOfBounds) :=
  ⟨rfl, rfl, rfl, rfl⟩

/-! ## Order of the pool during the run (C24) -/

theorem sortFloatingRoutinesBySize_sorted (p : BinningProblem) :
    (sortFloatingRoutinesBySize p).floatingRoutines.Pairwise
      (fun x y => x.codeLength ≤ y.codeLength) := by
  haveI : IsTotal SourceFile (fun x y => x.codeLength ≤ y.codeLength) :=
    ⟨fun x y => le_total x.codeLength y.codeLength⟩
  haveI : IsTrans SourceFile (fun x y => x.codeLength ≤ y.codeLength) :=
    ⟨fun x y z hxy hyz => le_trans hxy hyz⟩
  exact List.sorted_insertionSort (fun x y => x.codeLength ≤ y.codeLength) p.floatingRoutines

theorem performObviousStepsLoop_pool :
    ∀ (rev : List SourceFile) (gaps : List (Int × Int))
      (fixedRoutines : List (Int × SourceFile)),
      (performObviousStepsLoop rev gaps fixedRoutines).floatingRoutines.Sublist rev.reverse := by
  intro rev
  induction rev with
  | nil => intro gaps fixedRoutines; simp [performObviousStepsLoop]
  | cons back rest ih =>
    intro gaps fixedRoutines
    rw [performObviousStepsLoop.eq_2]
    by_cases he : gaps.isEmpty = true
    · rw [if_pos he]
    · rw [if_neg he]
      simp only
      by_cases h1 : (countMatchingGaps gaps back.codeLength).1 = 1
      · rw [if_pos h1]
        refine (ih _ _).trans ?_
        rw [List.reverse_cons]
        exact List.sublist_append_left _ _
      · rw [if_neg h1]

/-- `performObviousSteps` leaves a front part of the pool. -/
theorem performObviousSteps_pool (p : BinningProblem) :
    (performObviousSteps p).floatingRoutines.Sublist p.floatingRoutines := by
  have := performObviousStepsLoop_pool p.floatingRoutines.reverse p.gaps p.fixedRoutines
  rwa [List.reverse_reverse] at this

theorem fillGapLoop_pool (g L : Int) :
    ∀ (rs : List SourceFile) (off : Int) (F : List (Int × SourceFile)) (P : List SourceFile)
      (off' : Int) (F' : List (Int × SourceFile)) (P' : List SourceFile),
      fillGapLoop g L rs off F P = .ok (off', F', P') → P'.Sublist P := by
  intro rs
  induction rs with
  | nil =>
    intro off F P off' F' P' h
    simp only [fillGapLoop] at h
    cases h
    exact List.Sublist.refl _
  | cons r rest ih =>
    intro off F P off' F' P' h
    unfold fillGapLoop at h
    simp only at h
    split at h
    · cases h
    · exact (ih _ _ _ _ _ _ h).trans (List.filter_sublist _)

/-- `fillGap` leaves a sub-list of the pool, in its order. -/
theorem fillGap_pool {p p' : BinningProblem} {g : Int} {rs : List SourceFile}
    (h : fillGap p g rs = .ok p') : p'.floatingRoutines.Sublist p.floatingRoutines := by
  unfold fillGap at h
  split at h
  · cases h
  · rename_i o F' P' hloop
    cases h
    exact fillGapLoop_pool _ _ _ _ _ _ _ _ _ hloop

/-- On a pool sorted by size the front part `findPartialSolution` collects is
the whole of the routines that are not longer than the gap. -/
theorem takeWhile_eq_filter_of_sorted (gapSize : Int) :
    ∀ (pool : List SourceFile), pool.Pairwise (fun x y => x.codeLength ≤ y.codeLength) →
      pool.takeWhile (fun r => decide (r.codeLength ≤ gapSize))
        = pool.filter (fun r => decide (r.codeLength ≤ gapSize)) := by
  intro pool
  induction pool with
  | nil => intro _; rfl
  | cons a t ih =>
    intro hs
    have hs' := List.pairwise_cons.mp hs
    by_cases ha : a.codeLength ≤ gapSize
    · simp only [List.takeWhile_cons, List.filter_cons, ha, decide_True, if_true]
      rw [ih hs'.2]
    · simp only [List.takeWhile_cons, List.filter_cons, ha, decide_False, Bool.false_eq_true,
        if_false]
      symm
      rw [List.filter_eq_nil_iff]
      intro x hx
      have := hs'.1 x hx
      simp only [decide_eq_true_eq]
      omega

/-- The ledgers a pass through the body of the loop goes through are ledgers
of the run. -/
theorem runBody_inRun {start p p' : BinningProblem} {b : Bool} (h : InRun start p)
    (hbody : Solver.runBody p = .ok (b, p')) : InRun start p' := by
  unfold Solver.runBody at hbody
  simp only at hbody
  cases hu : removeUselessGaps (performObviousSteps p) with
  | error e => simp [hu] at hbody
  | ok p2 =>
    simp only [hu] at hbody
    have h2 : InRun start p2 := InRun.useless (InRun.obvious h) hu
    split at hbody
    · cases hbody
      exact h2
    · cases hf : findPartialSolution p2 (mapAt p2.gaps (selectGapToFill p2)) with
      | error e => simp [hf] at hbody
      | ok sel =>
        simp only [hf] at hbody
        cases hfill : fillGap p2 (selectGapToFill p2) sel with
        | error e => simp [hfill] at hbody
        | ok p3 =>
          simp only [hfill] at hbody
          cases hbody
          exact InRun.fill h2 hf hfill

/-- C24: from the initial sort of `Solver::run` on, the pool is sorted
ascending by size at every ledger of the run, so before every call of
`performObviousSteps`, `removeUselessGaps` and `findPartialSolution`
(`performObviousSteps` and `fillGap` keep a sorted pool sorted); hence the
routine `performObviousSteps` takes from the back is a largest one, and the
front part `findPartialSolution` collects is exactly the pool routines whose
size is at most the gap size. -/
theorem pool_sorted_in_run {start p : BinningProblem} (h : InRun start p) :
    p.floatingRoutines.Pairwise (fun x y => x.codeLength ≤ y.codeLength) ∧
      (p.floatingRoutines.Pairwise (fun x y => x.codeLength ≤ y.codeLength) →
        (performObviousSteps p).floatingRoutines.Pairwise
          (fun x y => x.codeLength ≤ y.codeLength)) ∧
      (∀ (g : Int) (rs : List SourceFile) (p' : BinningProblem),
        p.floatingRoutines.Pairwise (fun x y => x.codeLength ≤ y.codeLength) →
        fillGap p g rs = .ok p' →
        p'.floatingRoutines.Pairwise (fun x y => x.codeLength ≤ y.codeLength)) ∧
      (∀ back, p.floatingRoutines.getLast? = some back →
        ∀ r ∈ p.floatingRoutines, r.codeLength ≤ back.codeLength) ∧
      (∀ gapSize : Int,
        p.floatingRoutines.takeWhile (fun r => decide (r.codeLength ≤ gapSize))
          = p.floatingRoutines.filter (fun r => decide (r.codeLength ≤ gapSize))) := by
  have hsorted : p.floatingRoutines.Pairwise (fun x y => x.codeLength ≤ y.codeLength) := by
    induction h with
    | sorted => exact sortFloatingRoutinesBySize_sorted _
    | obvious _ ih => exact List.Pairwise.sublist (performObviousSteps_pool _) ih
    | useless _ hu ih =>
      rw [(removeUselessGaps_ok hu).2.2.1]
      exact ih
    | fill _ _ hfill ih => exact List.Pairwise.sublist (fillGap_pool hfill) ih
  refine ⟨hsorted, fun hs => List.Pairwise.sublist (performObviousSteps_pool _) hs,
    fun g rs p' hs hfill => List.Pairwise.sublist (fillGap_pool hfill) hs, ?_,
    fun gapSize => takeWhile_eq_filter_of_sorted gapSize _ hsorted⟩
  intro back hback r hr
  obtain ⟨front, hfront⟩ : ∃ front, p.floatingRoutines = front ++ [back] := by
    rcases List.eq_nil_or_concat p.floatingRoutines with hnil | ⟨front, x, hx⟩
    · rw [hnil] at hback; cases hback
    · rw [hx, List.concat_eq_append, List.getLast?_concat] at hback
      cases hback
      exact ⟨front, by rw [hx, List.concat_eq_append]⟩
  rw [hfront] at hsorted hr
  rcases List.mem_append.mp hr with h1 | h1
  · exact (List.pairwise_append.mp hsorted).2.2 r h1 back (by simp)
  · simp only [List.mem_singleton] at h1
    rw [h1]

/-- C24 at the run on a pool registered as sizes 3, 1, 2, after the first
`performObviousSteps`. -/
theorem pool_sorted_in_run_witness :
    (performObviousSteps (sortFloatingRoutinesBySize
        ⟨[(3, fixedAt 0 3 1)], [(0, 3), (4, 6)],
          [floatingOf 1 3, floatingOf 2 1, floatingOf 3 2]⟩)).floatingRoutines.Pairwise
        (fun x y => x.codeLength ≤ y.codeLength) ∧
      ((performObviousSteps (sortFloatingRoutinesBySize
          ⟨[(3, fixedAt 0 3 1)], [(0, 3), (4, 6)],
            [floatingOf 1 3, floatingOf 2 1, floatingOf 3 2]⟩)).floatingRoutines.Pairwise
          (fun x y => x.codeLength ≤ y.codeLength) →
        (performObviousSteps (performObviousSteps (sortFloatingRoutinesBySize
          ⟨[(3, fixedAt 0 3 1)], [(0, 3), (4, 6)],
            [floatingOf 1 3, floatingOf 2 1, floatingOf 3 2]⟩))).floatingRoutines.Pairwise
          (fun x y => x.codeLength ≤ y.codeLength)) ∧
      (∀ (g : Int) (rs : List SourceFile) (p' : BinningProblem),
        (performObviousSteps (sortFloatingRoutinesBySize
          ⟨[(3, fixedAt 0 3 1)], [(0, 3), (4, 6)],
            [floatingOf 1 3, floatingOf 2 1, floatingOf 3 2]⟩)).floatingRoutines.Pairwise
          (fun x y => x.codeLength ≤ y.codeLength) →
        fillGap (performObviousSteps (sortFloatingRoutinesBySize
          ⟨[(3, fixedAt 0 3 1)], [(0, 3), (4, 6)],
            [floatingOf 1 3, floatingOf 2 1, floatingOf 3 2]⟩)) g rs = .ok p' →
        p'.floatingRoutines.Pairwise (fun x y => x.codeLength ≤ y.codeLength)) ∧
      (∀ back, (performObviousSteps (sortFloatingRoutinesBySize
          ⟨[(3, fixedAt 0 3 1)], [(0, 3), (4, 6)],
            [floatingOf 1 3, floatingOf 2 1, floatingOf 3 2]⟩)).floatingRoutines.getLast?
          = some back →
        ∀ r ∈ (performObviousSteps (sortFloatingRoutinesBySize
          ⟨[(3, fixedAt 0 3 1)], [(0, 3), (4, 6)],
            [floatingOf 1 3, floatingOf 2 1, floatingOf 3 2]⟩)).floatingRoutines,
          r.codeLength ≤ back.codeLength) ∧
      (∀ gapSize : Int,
        (performObviousSteps (sortFloatingRoutinesBySize
          ⟨[(3, fixedAt 0 3 1)], [(0, 3), (4, 6)],
            [floatingOf 1 3, floatingOf 2 1, floatingOf 3 2]⟩)).floatingRoutines.takeWhile
            (fun r => decide (r.codeLength ≤ gapSize))
          = (performObviousSteps (sortFloatingRoutinesBySize
          ⟨[(3, fixedAt 0 3 1)], [(0, 3), (4, 6)],
            [floatingOf 1 3, floatingOf 2 1, floatingOf 3 2]⟩)).floatingRoutines.filter
            (fun r => decide (r.codeLength ≤ gapSize))) :=
  @pool_sorted_in_run
    ⟨[(3, fixedAt 0 3 1)], [(0, 3), (4, 6)], [floatingOf 1 3, floatingOf 2 1, floatingOf 3 2]⟩
    _ (InRun.obvious InRun.sorted)

/-! ## Progress of every fill (C25) -/

theorem length_filter_lt {α : Type} (q : α → Bool) :
    ∀ l : List α, (∃ x ∈ l, q x = false) → (l.filter q).length < l.length := by
  intro l
  induction l with
  | nil => rintro ⟨x, hx, _⟩; cases hx
  | cons a t ih =>
    rintro ⟨x, hx, hq⟩
    by_cases ha : q a = true
    · rw [List.filter_cons_of_pos ha]
      rcases List.mem_cons.mp hx with rfl | hx'
      · rw [hq] at ha; cases ha
      · have := ih ⟨x, hx', hq⟩
        simp only [List.length_cons]
        omega
    · rw [List.filter_cons_of_neg ha]
      have := List.length_filter_le q t
      simp only [List.length_cons]
      omega

/-- After `removeUselessGaps` every gap left can hold the first routine of
the pool. -/
theorem removeUselessGaps_gaps_useful {p p' : BinningProblem}
    (h : removeUselessGaps p = .ok p') :
    ∃ first tl, p'.floatingRoutines = first :: tl ∧ ∀ g ∈ p'.gaps, first.codeLength ≤ g.2 := by
  unfold removeUselessGaps at h
  split at h
  · cases h
  · rename_i first tl hfl
    cases h
    refine ⟨first, tl, hfl, ?_⟩
    intro g hg
    have hdone := removeUselessGapsLoop_done first.codeLength p.gaps.length p.gaps (Nat.le_refl _)
    rw [List.find?_eq_none] at hdone
    have := hdone g hg
    simp only [decide_eq_true_eq] at this
    omega

/-- C25: when a pass through the body of the loop of `Solver::run` comes to
the gap selection (the ledger after `performObviousSteps` and
`removeUselessGaps` has gaps and a pool, all sizes positive), some routine is
eligible for the selected gap, `findPartialSolution` returns a non-empty
selection, and the `fillGap` of the pass succeeds, places every routine of the
selection and leaves a strictly shorter pool. -/
theorem solver_fill_shrinks_pool {lo hi : Int} {p p2 : BinningProblem} (h : Reach lo hi p)
    (hu : removeUselessGaps (performObviousSteps p) = .ok p2)
    (hgaps : p2.gaps ≠ []) (hpool : p2.floatingRoutines ≠ []) :
    p2.floatingRoutines.takeWhile
        (fun r => decide (r.codeLength ≤ mapAt p2.gaps (selectGapToFill p2))) ≠ [] ∧
      ∃ sel p3, findPartialSolution p2 (mapAt p2.gaps (selectGapToFill p2)) = .ok sel ∧
        sel ≠ [] ∧
        fillGap p2 (selectGapToFill p2) sel = .ok p3 ∧
        (∀ r ∈ sel, r ∈ p2.floatingRoutines ∧ r ∉ p3.floatingRoutines ∧
          ∃ addr, (addr, r) ∈ p3.fixedRoutines) ∧
        p3.floatingRoutines.length < p2.floatingRoutines.length ∧
        Solver.runBody p = .ok (true, p3) ∧
        p3.floatingRoutines.length < p.floatingRoutines.length := by
  have hinv2 : Inv lo hi p2 := (removeUselessGaps_spec (performObviousSteps_spec h.inv).1 hu).1
  obtain ⟨len, hg⟩ := selectGapToFill_mem hgaps
  have hat := mapAt_of_mem hinv2.gapsSorted hg
  have hlen := (hinv2.gapIn _ hg).1
  simp only at hlen
  obtain ⟨first, tl, hfl, huseful⟩ := removeUselessGaps_gaps_useful hu
  have hfirst : first.codeLength ≤ len := huseful _ hg
  have hfpos : 0 < first.codeLength := hinv2.floatingPos first (by rw [hfl]; simp)
  have htw : p2.floatingRoutines.takeWhile (fun r => decide (r.codeLength ≤ len))
      = first :: tl.takeWhile (fun r => decide (r.codeLength ≤ len)) := by
    rw [hfl, List.takeWhile_cons]
    simp [hfirst]
  rw [hat]
  refine ⟨by rw [htw]; simp, ?_⟩
  obtain ⟨sel, h1, h2, h3, h4⟩ := findPartialSolution_spec p2 len hinv2.floatingPos (by omega)
  have hbig : first.codeLength ≤ totalSize sel := by
    have := h4 [first] (by rw [htw]; simp) (by simpa [totalSize] using hfirst)
    simpa [totalSize] using this
  have hne : sel ≠ [] := by
    rintro rfl
    simp [totalSize] at hbig
    omega
  have hsub : sel.Sublist p2.floatingRoutines := h2.trans (List.takeWhile_sublist _)
  have hpos : ∀ r ∈ sel, 0 < r.codeLength := fun r hr => hinv2.floatingPos r (hsub.subset hr)
  have hfree : ∀ e ∈ p2.fixedRoutines, e.1 < selectGapToFill p2 + 0 ∨
      selectGapToFill p2 + len ≤ e.1 := by
    intro e he
    have k1 := hinv2.fixedIn e he
    have k2 := hinv2.gapFixed _ hg e he
    simp only at k2
    omega
  obtain ⟨F', hloop, -, hm'⟩ :=
    fillGapLoop_places (selectGapToFill p2) len sel 0 p2.fixedRoutines p2.floatingRoutines
      hinv2.fixedSorted hfree (by omega) hpos
  have hfill : fillGap p2 (selectGapToFill p2) sel
      = .ok ⟨F', mapErase p2.gaps (selectGapToFill p2),
          p2.floatingRoutines.filter (fun x => decide (x ∉ sel))⟩ := by
    unfold fillGap
    rw [hat, hloop]
  have hshrink : (p2.floatingRoutines.filter (fun x => decide (x ∉ sel))).length
      < p2.floatingRoutines.length := by
    obtain ⟨r, hr⟩ := List.exists_mem_of_ne_nil sel hne
    exact length_filter_lt _ _ ⟨r, hsub.subset hr, by simpa using hr⟩
  have hp2 : p2.floatingRoutines = (performObviousSteps p).floatingRoutines :=
    (removeUselessGaps_ok hu).2.2.1
  refine ⟨sel, _, h1, hne, hfill, ?_, hshrink, ?_, ?_⟩
  · intro r hr
    refine ⟨hsub.subset hr, ?_, ?_⟩
    · simp only [List.mem_filter, decide_eq_true_eq, not_and, not_not]
      exact fun _ => hr
    · obtain ⟨pre, suf, hsplit⟩ := List.append_of_mem hr
      exact ⟨_, (hm' _).mpr (Or.inr ⟨pre, r, suf, hsplit, rfl⟩)⟩
  · unfold Solver.runBody
    simp only [hu]
    rw [if_neg (by simp [hgaps, hpool])]
    simp only [hat, h1, hfill]
  · have := (performObviousSteps_pool p).length_le
    rw [← hp2] at this
    simp only
    omega

/-- C25 at the ledger for `0 .. 6` with the gaps `(0, 3)` and `(4, 3)` and
floating routines of sizes 1 and 2. -/
theorem solver_fill_shrinks_pool_witness :
    ([floatingOf 1 1, floatingOf 2 2].takeWhile
        (fun r => decide (r.codeLength ≤ mapAt [(0, 3), (4, 3)] (selectGapToFill
          ⟨[(3, fixedAt 0 3 1)], [(0, 3), (4, 3)], [floatingOf 1 1, floatingOf 2 2]⟩)))) ≠ [] ∧
      ∃ sel p3, findPartialSolution
            ⟨[(3, fixedAt 0 3 1)], [(0, 3), (4, 3)], [floatingOf 1 1, floatingOf 2 2]⟩
            (mapAt [(0, 3), (4, 3)] (selectGapToFill
              ⟨[(3, fixedAt 0 3 1)], [(0, 3), (4, 3)], [floatingOf 1 1, floatingOf 2 2]⟩))
            = .ok sel ∧
        sel ≠ [] ∧
        fillGap ⟨[(3, fixedAt 0 3 1)], [(0, 3), (4, 3)], [floatingOf 1 1, floatingOf 2 2]⟩
            (selectGapToFill
              ⟨[(3, fixedAt 0 3 1)], [(0, 3), (4, 3)], [floatingOf 1 1, floatingOf 2 2]⟩) sel
            = .ok p3 ∧
        (∀ r ∈ sel, r ∈ [floatingOf 1 1, floatingOf 2 2] ∧ r ∉ p3.floatingRoutines ∧
          ∃ addr, (addr, r) ∈ p3.fixedRoutines) ∧
        p3.floatingRoutines.length < [floatingOf 1 1, floatingOf 2 2].length ∧
        Solver.runBody
            ⟨[(3, fixedAt 0 3 1)], [(0, 3), (4, 3)], [floatingOf 1 1, floatingOf 2 2]⟩
          = .ok (true, p3) ∧
        p3.floatingRoutines.length < [floatingOf 1 1, floatingOf 2 2].length :=
  @solver_fill_shrinks_pool 0 6
    ⟨[(3, fixedAt 0 3 1)], [(0, 3), (4, 3)], [floatingOf 1 1, floatingOf 2 2]⟩
    ⟨[(3, fixedAt 0 3 1)], [(0, 3), (4, 3)], [floatingOf 1 1, floatingOf 2 2]⟩
    (Reach.built (@prepareBinningProblem_built 0 6
      [fixedAt 0 3 1, floatingOf 1 1, floatingOf 2 2] _ (by decide) rfl))
    rfl (by decide) (by decide)

/-! ## The run with the unchecked read (C8) -/

/-- Where the checked read of `removeUselessGaps` is within bounds, the
unchecked method gives the same ledger, whatever `stale` is. -/
theorem removeUselessGaps_unchecked {p p' : BinningProblem} (stale : Int)
    (h : removeUselessGaps p = .ok p') : removeUselessGapsUnchecked stale p = p' := by
  unfold removeUselessGaps at h
  unfold removeUselessGapsUnchecked
  split at h
  · cases h
  · rename_i first tl hfl
    cases h
    simp only [hfl]

/-- The unchecked `removeUselessGaps` keeps the layout invariant and is a step
of the solver, whatever the read yields. -/
theorem removeUselessGapsUnchecked_spec {lo hi : Int} {p : BinningProblem} (stale : Int)
    (hinv : Inv lo hi p) :
    Inv lo hi (removeUselessGapsUnchecked stale p) ∧
      Step p (removeUselessGapsUnchecked stale p) ∧
      (removeUselessGapsUnchecked stale p).floatingRoutines = p.floatingRoutines := by
  have hs : (removeUselessGapsUnchecked stale p).gaps.Sublist p.gaps :=
    removeUselessGapsLoop_sublist _ _ _
  exact ⟨hinv.shrink (List.Pairwise.sublist hs hinv.gapsSorted) (fun g hg => hs.subset hg) rfl
    (fun x hx => hx), ⟨hs.length_le, fun e he => he, fun hn => hn, fun _ => List.Perm.refl _⟩,
    rfl⟩

/-- On a well-formed ledger a pass through the body with the unchecked read
returns normally, keeps the layout invariant and is a step of the solver; it
loses a gap when it reaches `fillGap` and finds no gap or no pool when it
leaves at `break`. -/
theorem runBodyUnchecked_ok {lo hi : Int} {p : BinningProblem} (stale : Int)
    (hinv : Inv lo hi p) :
    ∃ b p', Solver.runBodyUnchecked stale p = .ok (b, p') ∧ Inv lo hi p' ∧ Step p p' ∧
      (b = true → p'.gaps.length < p.gaps.length) ∧
      (b = false → p'.gaps = [] ∨ p'.floatingRoutines = []) := by
  obtain ⟨hinv1, hstep1, -⟩ := performObviousSteps_spec hinv
  obtain ⟨hinv2, hstep2, -⟩ := removeUselessGapsUnchecked_spec stale hinv1
  unfold Solver.runBodyUnchecked
  simp only
  by_cases hguard : (removeUselessGapsUnchecked stale (performObviousSteps p)).gaps.isEmpty = true ∨
      (removeUselessGapsUnchecked stale (performObviousSteps p)).floatingRoutines.isEmpty = true
  · rw [if_pos hguard]
    refine ⟨false, _, rfl, hinv2, hstep1.trans hstep2, (fun h => by cases h), fun _ => ?_⟩
    rcases hguard with h | h
    · exact Or.inl (List.isEmpty_iff.mp h)
    · exact Or.inr (List.isEmpty_iff.mp h)
  · rw [if_neg hguard]
    have hne : (removeUselessGapsUnchecked stale (performObviousSteps p)).gaps ≠ [] := by
      intro hnil
      apply hguard
      left
      simp [hnil]
    obtain ⟨sel, p3, h1, h2, h3, h4, h5⟩ := solver_fill_spec hinv2 hne
    simp only [h1, h2]
    refine ⟨true, p3, rfl, h3, (hstep1.trans hstep2).trans h4, fun _ => ?_,
      (fun h => by cases h)⟩
    have := (hstep1.trans hstep2).gapsLength
    omega

/-- The loop with the unchecked read comes to its end with one unit of fuel per
gap, without a fault, on a ledger without gaps or without pool. -/
theorem runLoopUnchecked_ok {lo hi : Int} (stale : Int) :
    ∀ (fuel : Nat) (p : BinningProblem), Inv lo hi p → p.gaps.length ≤ fuel →
      ∃ p', Solver.runLoopUnchecked stale fuel p = some (.ok p') ∧ Inv lo hi p' ∧ Step p p' ∧
        (p'.gaps = [] ∨ p'.floatingRoutines = []) := by
  intro fuel
  induction fuel with
  | zero =>
    intro p hinv hl
    have hnil : p.gaps = [] := List.length_eq_zero.mp (by omega)
    unfold Solver.runLoopUnchecked
    rw [if_pos (Or.inl (by simp [hnil]))]
    exact ⟨p, rfl, hinv, Step.refl _, Or.inl hnil⟩
  | succ fuel ih =>
    intro p hinv hl
    unfold Solver.runLoopUnchecked
    by_cases hguard : p.gaps.isEmpty = true ∨ p.floatingRoutines.isEmpty = true
    · rw [if_pos hguard]
      refine ⟨p, rfl, hinv, Step.refl _, ?_⟩
      rcases hguard with h | h
      · exact Or.inl (List.isEmpty_iff.mp h)
      · exact Or.inr (List.isEmpty_iff.mp h)
    · rw [if_neg hguard]
      simp only
      obtain ⟨b, q, hbody, hinvq, hstepq, hlt, hend⟩ := runBodyUnchecked_ok stale hinv
      cases b with
      | false =>
        simp only [hbody]
        exact ⟨q, rfl, hinvq, hstepq, hend rfl⟩
      | true =>
        simp only [hbody]
        have := hlt rfl
        obtain ⟨p', h1, h2, h3, h4⟩ := ih q hinvq (by omega)
        exact ⟨p', h1, h2, hstepq.trans h3, h4⟩

/-- A pass that returns with the checked read returns the same with the
unchecked read. -/
theorem runBody_unchecked {p : BinningProblem} {r : Bool × BinningProblem} (stale : Int)
    (h : Solver.runBody p = .ok r) : Solver.runBodyUnchecked stale p = .ok r := by
  unfold Solver.runBody at h
  simp only at h
  cases hu : removeUselessGaps (performObviousSteps p) with
  | error e => simp [hu] at h
  | ok p2 =>
    simp only [hu] at h
    unfold Solver.runBodyUnchecked
    simp only [removeUselessGaps_unchecked stale hu]
    exact h

/-- A loop that returns with the checked read returns the same with the
unchecked read. -/
theorem runLoop_unchecked (stale : Int) :
    ∀ (fuel : Nat) (p p' : BinningProblem), Solver.runLoop fuel p = some (.ok p') →
      Solver.runLoopUnchecked stale fuel p = some (.ok p') := by
  intro fuel
  induction fuel with
  | zero =>
    intro p p' h
    unfold Solver.runLoop at h
    unfold Solver.runLoopUnchecked
    split at h
    · rename_i hguard
      rw [if_pos hguard]
      exact h
    · cases h
  | succ fuel ih =>
    intro p p' h
    unfold Solver.runLoop at h
    unfold Solver.runLoopUnchecked
    split at h
    · rename_i hguard
      rw [if_pos hguard]
      exact h
    · rename_i hguard
      rw [if_neg hguard]
      simp only at h ⊢
      cases hbody : Solver.runBody p with
      | error e => simp [hbody] at h
      | ok res =>
        obtain ⟨b, q⟩ := res
        rw [runBody_unchecked stale hbody]
        cases b with
        | false =>
          simp only [hbody] at h
          simp only
          exact h
        | true =>
          simp only [hbody] at h
          simp only
          exact ih q p' h

/-- A loop that the checked read ends with a fault goes on, with the unchecked
read, to a ledger with an empty pool. -/
theorem runLoop_error_unchecked {lo hi : Int} (stale : Int) :
    ∀ (fuel : Nat) (p : BinningProblem) (e : Fault), Inv lo hi p →
      Solver.runLoop fuel p = some (.error e) →
      ∃ p', Solver.runLoopUnchecked stale fuel p = some (.ok p') ∧ p'.floatingRoutines = [] := by
  intro fuel
  induction fuel with
  | zero =>
    intro p e _ h
    unfold Solver.runLoop at h
    split at h
    · cases h
    · cases h
  | succ fuel ih =>
    intro p e hinv h
    unfold Solver.runLoop at h
    unfold Solver.runLoopUnchecked
    split at h
    · cases h
    · rename_i hguard
      rw [if_neg hguard]
      simp only at h ⊢
      cases hbody : Solver.runBody p with
      | error e' =>
        obtain ⟨-, hnil⟩ := runBody_error hinv hbody
        have hb : Solver.runBodyUnchecked stale p
            = .ok (false, removeUselessGapsUnchecked stale (performObviousSteps p)) := by
          unfold Solver.runBodyUnchecked
          simp only
          rw [if_pos (Or.inr (by
            show (performObviousSteps p).floatingRoutines.isEmpty = true
            simp [hnil]))]
        rw [hb]
        exact ⟨_, rfl, hnil⟩
      | ok res =>
        obtain ⟨b, q⟩ := res
        rw [runBody_unchecked stale hbody]
        cases b with
        | false => simp [hbody] at h
        | true =>
          simp only [hbody] at h
          simp only
          exact ih q e (runBody_spec hinv hbody).1 h

/-- C8: `Solver::run` on a ledger built from routines of positive sizes and
distinct identities returns, whatever the unchecked read in `removeUselessGaps`
yields (with the ledger of the checked run where that one returns, and solved
where the checked run stops at the read); when it ends with `isSolved()` true,
`fixedRoutines` holds every input routine exactly once: its routines are the
input routines (so there are as many entries as input routines), every routine
is mapped at exactly one address, and a fixed routine is mapped at its
declared start address. -/
theorem run_places_every_routine {lo hi : Int} {sourceFiles : List SourceFile}
    {p0 : BinningProblem} (hpos : ∀ r ∈ sourceFiles, 0 < r.codeLength)
    (hnd : sourceFiles.Nodup) (hprep : prepareBinningProblem lo hi sourceFiles = .ok p0)
    (stale : Int) :
    ∃ p', Solver.runUnchecked stale p0 = some (.ok p') ∧
      (∀ q, Solver.run p0 = some (.ok q) → q = p') ∧
      (∀ e, Solver.run p0 = some (.error e) → isSolved p' = true) ∧
      (isSolved p' = true →
        (p'.fixedRoutines.map Prod.snd).Perm sourceFiles ∧
          p'.fixedRoutines.length = sourceFiles.length ∧
          (∀ r ∈ sourceFiles, ∃ a, (a, r) ∈ p'.fixedRoutines ∧
            (∀ b, (b, r) ∈ p'.fixedRoutines → b = a) ∧
            (r.floating = false → a = r.startAddr))) := by
  have hb : Built lo hi p0 := prepareBinningProblem_built hpos hprep
  -- the built ledger
  obtain ⟨hperm0, hfix0, hfloat0⟩ : (p0.fixedRoutines.map Prod.snd ++ p0.floatingRoutines).Perm
        sourceFiles ∧
      (∀ r ∈ sourceFiles, r.floating = false → (r.startAddr, r) ∈ p0.fixedRoutines) ∧
      p0.floatingRoutines.Nodup := by
    unfold prepareBinningProblem at hprep
    cases hc : BinningProblem.create lo hi with
    | error e => simp [hc] at hprep
    | ok q =>
      simp only [hc] at hprep
      obtain ⟨-, -, -, rfl⟩ := create_ok hc
      obtain ⟨-, a2, a3, a4⟩ := addAll_spec sourceFiles _ p0 (Built.create hc) hpos hprep
      refine ⟨by simpa using a3, a2, ?_⟩
      rw [a4]
      simpa using hnd.filter _
  -- the run
  obtain ⟨hinvs, hsteps⟩ := sortFloatingRoutinesBySize_spec hb.wellFormed.1
  obtain ⟨p', hrun, -, hstepl, -⟩ :=
    runLoopUnchecked_ok stale p0.gaps.length (sortFloatingRoutinesBySize p0) hinvs
      (Nat.le_refl _)
  have hstep := hsteps.trans hstepl
  refine ⟨p', hrun, ?_, ?_, ?_⟩
  · intro q hq
    have := runLoop_unchecked stale _ _ _ hq
    have heq : some (Except.ok q) = some (Except.ok p') := this.symm.trans hrun
    cases heq
    rfl
  · intro e he
    obtain ⟨p'', h1, h2⟩ := runLoop_error_unchecked stale _ _ e hinvs he
    have heq : some (Except.ok p'') = some (Except.ok p') := h1.symm.trans hrun
    cases heq
    unfold isSolved
    simp [h2]
  intro hsolved
  have hempty : p'.floatingRoutines = [] := by
    unfold isSolved at hsolved
    exact List.isEmpty_iff.mp hsolved
  have hperm : (p'.fixedRoutines.map Prod.snd).Perm sourceFiles := by
    have := (hstep.perm hfloat0).trans hperm0
    rwa [hempty, List.append_nil] at this
  have hnd' : (p'.fixedRoutines.map Prod.snd).Nodup := hperm.nodup_iff.mpr hnd
  refine ⟨hperm, by simpa using hperm.length_eq, ?_⟩
  intro r hr
  have hmem : r ∈ p'.fixedRoutines.map Prod.snd := hperm.mem_iff.mpr hr
  obtain ⟨⟨a, r'⟩, he, hr'⟩ := List.mem_map.mp hmem
  simp only at hr'
  subst hr'
  have huniq : ∀ b, (b, r') ∈ p'.fixedRoutines → b = a := by
    intro b hbm
    have := List.inj_on_of_nodup_map hnd' hbm he rfl
    exact (Prod.mk.inj this).1
  refine ⟨a, he, huniq, ?_⟩
  intro hfl
  exact (huniq _ (hstep.keep _ (hfix0 r' hr hfl))).symm

/-- C8 at the range `0 .. 9` with a floating routine of size 2 and a fixed
routine of size 4 at 0: `performObviousSteps` forces the floating routine to 8
and empties the pool, the read in `removeUselessGaps` is out of bounds (the
checked run stops there), and the run returns solved, with both routines
placed. -/
theorem run_places_every_routine_witness :
    Solver.run ⟨[(0, fixedAt 0 0 4)], [(4, 6)], [floatingOf 1 2]⟩
        = some (.error .outOfBounds) ∧
      Solver.runUnchecked 2 ⟨[(0, fixedAt 0 0 4)], [(4, 6)], [floatingOf 1 2]⟩
        = some (.ok ⟨[(0, fixedAt 0 0 4), (8, floatingOf 1 2)], [(4, 4)], []⟩) ∧
      ∃ p', Solver.runUnchecked 2 ⟨[(0, fixedAt 0 0 4)], [(4, 6)], [floatingOf 1 2]⟩
          = some (.ok p') ∧
        (∀ q, Solver.run ⟨[(0, fixedAt 0 0 4)], [(4, 6)], [floatingOf 1 2]⟩ = some (.ok q) →
          q = p') ∧
        (∀ e, Solver.run ⟨[(0, fixedAt 0 0 4)], [(4, 6)], [floatingOf 1 2]⟩ = some (.error e) →
          isSolved p' = true) ∧
        (isSolved p' = true →
          (p'.fixedRoutines.map Prod.snd).Perm [floatingOf 1 2, fixedAt 0 0 4] ∧
            p'.fixedRoutines.length = [floatingOf 1 2, fixedAt 0 0 4].length ∧
            (∀ r ∈ [floatingOf 1 2, fixedAt 0 0 4], ∃ a, (a, r) ∈ p'.fixedRoutines ∧
              (∀ b, (b, r) ∈ p'.fixedRoutines → b = a) ∧
              (r.floating = false → a = r.startAddr))) :=
  ⟨rfl, rfl,
    @run_places_every_routine 0 9 [floatingOf 1 2, fixedAt 0 0 4]
      ⟨[(0, fixedAt 0 0 4)], [(4, 6)], [floatingOf 1 2]⟩ (by decide) (by decide) rfl 2⟩

/-! ## Order of the pool after registration (C19, as the code has it) -/

/-- A call of `addToProblem` that returns normally appends a floating routine
to the pool and leaves the pool alone for a fixed one. -/
theorem addToProblem_pool {p p' : BinningProblem} {routine : SourceFile}
    (h : addToProblem p routine = (p', none)) :
    p'.floatingRoutines
      = p.floatingRoutines ++ (if routine.floating = true then [routine] else []) := by
  unfold addToProblem at h
  by_cases hfl : routine.floating = true
  · rw [if_pos hfl] at h
    cases h
    rw [if_pos hfl]
  · rw [if_neg hfl] at h
    rw [if_neg hfl, List.append_nil]
    split at h
    · cases h
    · split at h
      · cases h
      · cases h
        rfl

/-- The pool after `addAll`: the floating routines of the list, in its order,
after the pool that was there. -/
theorem addAll_pool :
    ∀ (routines : List SourceFile) (p p' : BinningProblem), addAll p routines = .ok p' →
      p'.floatingRoutines = p.floatingRoutines ++ routines.filter (fun r => r.floating) := by
  intro routines
  induction routines with
  | nil =>
    intro p p' h
    simp only [addAll] at h
    cases h
    simp
  | cons routine rest ih =>
    intro p p' h
    unfold addAll at h
    cases hadd : addToProblem p routine with
    | mk q fault =>
      cases fault with
      | some e => simp [hadd] at h
      | none =>
        simp only [hadd] at h
        rw [ih q p' h, addToProblem_pool hadd]
        by_cases hfl : routine.floating = true
        · simp [hfl]
        · simp [hfl]

/-- The list `calcRoutineSizes` leaves is sorted ascending by size. -/
theorem sortSourceFiles_sorted (sourceFiles : List SourceFile) :
    (sortSourceFiles sourceFiles).Pairwise (fun x y => x.codeLength ≤ y.codeLength) := by
  haveI : IsTotal SourceFile (fun x y => x.codeLength ≤ y.codeLength) :=
    ⟨fun x y => le_total x.codeLength y.codeLength⟩
  haveI : IsTrans SourceFile (fun x y => x.codeLength ≤ y.codeLength) :=
    ⟨fun x y z hxy hyz => le_trans hxy hyz⟩
  have hs : (sourceFiles.insertionSort (fun a b => a.codeLength ≤ b.codeLength)).Pairwise
      (fun x y => x.codeLength ≤ y.codeLength) :=
    List.sorted_insertionSort (fun (x y : SourceFile) => x.codeLength ≤ y.codeLength) sourceFiles
  exact List.Pairwise.sublist (List.dropWhile_sublist _) hs

/-- C19, as the code has it: on a ledger whose pool is sorted ascending by size,
`addToProblem` with a floating routine appends the routine at the end of the
pool and does not sort, so the pool after the call is sorted ascending by size
if and only if no routine of the pool is larger than the new one, which is to
say the last routine of the pool is not larger.  The pool is sorted after
`sortFloatingRoutinesBySize`, which `Solver::run` calls first; and the pool of
the ledger `prepareBinningProblem` builds is sorted, the file list having been
sorted by size at the end of `calcRoutineSizes`. -/
theorem addToProblem_sorted_iff (p : BinningProblem) (routine : SourceFile)
    (hfl : routine.floating = true)
    (hsorted : p.floatingRoutines.Pairwise (fun x y => x.codeLength ≤ y.codeLength)) :
    addToProblem p routine
        = ({ p with floatingRoutines := p.floatingRoutines ++ [routine] }, none) ∧
      ((addToProblem p routine).1.floatingRoutines.Pairwise
          (fun x y => x.codeLength ≤ y.codeLength) ↔
        ∀ r ∈ p.floatingRoutines, r.codeLength ≤ routine.codeLength) ∧
      (∀ back, p.floatingRoutines.getLast? = some back →
        ((addToProblem p routine).1.floatingRoutines.Pairwise
            (fun x y => x.codeLength ≤ y.codeLength) ↔
          back.codeLength ≤ routine.codeLength)) ∧
      (sortFloatingRoutinesBySize (addToProblem p routine).1).floatingRoutines.Pairwise
        (fun x y => x.codeLength ≤ y.codeLength) ∧
      (∀ (lo hi : Int) (sourceFiles : List SourceFile) (p0 : BinningProblem),
        prepareBinningProblem lo hi (sortSourceFiles sourceFiles) = .ok p0 →
        p0.floatingRoutines.Pairwise (fun x y => x.codeLength ≤ y.codeLength)) := by
  have hadd := @addToProblem_floating p routine hfl
  have hiff : (addToProblem p routine).1.floatingRoutines.Pairwise
        (fun x y => x.codeLength ≤ y.codeLength) ↔
      ∀ r ∈ p.floatingRoutines, r.codeLength ≤ routine.codeLength := by
    rw [hadd]
    simp only [List.pairwise_append, List.mem_singleton, forall_eq]
    constructor
    · intro h
      exact h.2.2
    · intro h
      exact ⟨hsorted, List.pairwise_singleton _ _, h⟩
  refine ⟨hadd, hiff, ?_, sortFloatingRoutinesBySize_sorted _, ?_⟩
  · intro back hback
    rw [hiff]
    obtain ⟨front, hfront⟩ : ∃ front, p.floatingRoutines = front ++ [back] := by
      rcases List.eq_nil_or_concat p.floatingRoutines with hnil | ⟨front, x, hx⟩
      · rw [hnil] at hback; cases hback
      · rw [hx, List.concat_eq_append, List.getLast?_concat] at hback
        cases hback
        exact ⟨front, by rw [hx, List.concat_eq_append]⟩
    constructor
    · intro h
      exact h back (by rw [hfront]; simp)
    · intro h r hr
      rw [hfront] at hsorted hr
      rcases List.mem_append.mp hr with h1 | h1
      · have := (List.pairwise_append.mp hsorted).2.2 r h1 back (by simp)
        omega
      · simp only [List.mem_singleton] at h1
        rw [h1]
        exact h
  · intro lo hi sourceFiles p0 hprep
    unfold prepareBinningProblem at hprep
    cases hc : BinningProblem.create lo hi with
    | error e => simp [hc] at hprep
    | ok q =>
      simp only [hc] at hprep
      obtain ⟨-, -, -, hq⟩ := create_ok hc
      rw [addAll_pool _ _ _ hprep, hq, List.nil_append]
      exact List.Pairwise.sublist (List.filter_sublist _) (sortSourceFiles_sorted sourceFiles)

/-- C19, as the code has it, at a pool holding one routine of size 3 and a
floating routine of size 5. -/
theorem addToProblem_sorted_iff_witness :
    addToProblem ⟨[], [(0, 10)], [floatingOf 0 3]⟩ (floatingOf 1 5)
        = ({ (⟨[], [(0, 10)], [floatingOf 0 3]⟩ : BinningProblem) with
              floatingRoutines := [floatingOf 0 3] ++ [floatingOf 1 5] }, none) ∧
      ((addToProblem ⟨[], [(0, 10)], [floatingOf 0 3]⟩
            (floatingOf 1 5)).1.floatingRoutines.Pairwise
          (fun x y => x.codeLength ≤ y.codeLength) ↔
        ∀ r ∈ [floatingOf 0 3], r.codeLength ≤ (floatingOf 1 5).codeLength) ∧
      (∀ back, [floatingOf 0 3].getLast? = some back →
        ((addToProblem ⟨[], [(0, 10)], [floatingOf 0 3]⟩
              (floatingOf 1 5)).1.floatingRoutines.Pairwise
            (fun x y => x.codeLength ≤ y.codeLength) ↔
          back.codeLength ≤ (floatingOf 1 5).codeLength)) ∧
      (sortFloatingRoutinesBySize (addToProblem ⟨[], [(0, 10)], [floatingOf 0 3]⟩
          (floatingOf 1 5)).1).floatingRoutines.Pairwise
        (fun x y => x.codeLength ≤ y.codeLength) ∧
      (∀ (lo hi : Int) (sourceFiles : List SourceFile) (p0 : BinningProblem),
        prepareBinningProblem lo hi (sortSourceFiles sourceFiles) = .ok p0 →
        p0.floatingRoutines.Pairwise (fun x y => x.codeLength ≤ y.codeLength)) :=
  addToProblem_sorted_iff ⟨[], [(0, 10)], [floatingOf 0 3]⟩ (floatingOf 1 5) rfl (by decide)

end BuildSegment
